import Mathlib

/-!
# HTTP body chunk buffer (`app-layer-htp-body.c`)

A shallow embedding of the four operations of `src/app-layer-htp-body.c`
(`HtpBodyAppendChunk`, `HtpBodyPrint`, `HtpBodyFree`, `HtpBodyPrune`) over an
explicit memory model, followed by theorems about them.

## Memory model

* An address is a natural number; `0` is `NULL`.
* Live chunk records and live data blocks are kept in two association lists
  (`Machine.chunks`, `Machine.bufs`) from address to contents.  `heapGet` reads,
  `heapSet` writes, `heapDel` releases.
* `SCMalloc` is an oracle: every call of `HtpBodyAppendChunk` receives the two
  addresses `m1` (chunk record) and `m2` (data storage) that the allocator
  would hand out, `0` standing for an allocation failure.  An oracle value that
  is neither `0` nor unused is not a possible allocator answer; the embedding
  then yields `none`.
* `none` is also the result of undefined behaviour (reading or releasing a
  dangling address) and of a loop that does not terminate.
* Machine integers are naturals, reduced with an explicit `%` where the C code
  can wrap: `uint32_t` for `len`, `id`, `nchunks`; `uint64_t` for
  `stream_offset`, `content_len_so_far`, `body_parsed`.  The struct
  declarations live in `app-layer-htp.h`, which is not part of the sources at
  hand; the widths are the ones of the format specifiers used in the debug
  statements of the file (`PRIu32` for `id` and `len`, `PRIu64` for
  `stream_offset` and `body_parsed`).
* `SCEnter`, `SCReturn` and `SCLogDebug` are tracing statements without effect
  on the data and are left out.
-/

namespace Suricata

/-! ## Data model -/

/-- Modulus of `uint32_t` arithmetic. -/
def UINT32_MOD : Nat := 4294967296

/-- Modulus of `uint64_t` arithmetic. -/
def UINT64_MOD : Nat := 18446744073709551616

/-- One chunk record (`HtpBodyChunk`): `data` and `next` are addresses. -/
structure HtpBodyChunk where
  data : Nat
  len : Nat
  id : Nat
  next : Nat
  stream_offset : Nat
deriving DecidableEq

/-- The list header (`HtpBody`): `first` and `last` are addresses of chunk
records. -/
structure HtpBody where
  first : Nat
  last : Nat
  nchunks : Nat
  operation : Nat
deriving DecidableEq

/-- The part of `SCHtpTxUserData` that the file touches. -/
structure SCHtpTxUserData where
  body : HtpBody
  content_len_so_far : Nat
  body_parsed : Nat
deriving DecidableEq

/-- The program state: the transaction user data together with the live chunk
records and the live data blocks. -/
structure Machine where
  htud : SCHtpTxUserData
  chunks : List (Nat × HtpBodyChunk)
  bufs : List (Nat × List Nat)
deriving DecidableEq

/-! ## Heap primitives -/

/-- Read the object stored at address `p`, if `p` is live. -/
def heapGet {α : Type} : List (Nat × α) → Nat → Option α
  | [], _ => none
  | (q, v) :: t, p => if q = p then some v else heapGet t p

/-- Remove address `p` from the live objects. -/
def heapDel {α : Type} : List (Nat × α) → Nat → List (Nat × α)
  | [], _ => []
  | (q, v) :: t, p => if q = p then heapDel t p else (q, v) :: heapDel t p

/-- Store `v` at address `p`. -/
def heapSet {α : Type} (h : List (Nat × α)) (p : Nat) (v : α) : List (Nat × α) :=
  (p, v) :: heapDel h p

/-- A possible answer of `SCMalloc` in heap `h`: `NULL`, or an address that is
not live. -/
def validAlloc {α : Type} (h : List (Nat × α)) (p : Nat) : Bool :=
  p == 0 || (heapGet h p).isNone

/-- The call `SCFree(p)`: nothing for `NULL`, release of a live object,
undefined for a dangling address. -/
def SCFree {α : Type} (h : List (Nat × α)) (p : Nat) : Option (List (Nat × α)) :=
  if p = 0 then some h
  else if (heapGet h p).isSome then some (heapDel h p)
  else none

/-! ## `HtpBodyAppendChunk` -/

/-- The `error:` label of `HtpBodyAppendChunk` (lines 136-143), entered with the
local `bd`:
`if (bd != NULL) { if (bd->data != NULL) SCFree(bd->data); SCFree(bd->data); }`
and `return -1`. -/
def appendError (s : Machine) (bd : Nat) : Option (Machine × Int) :=
  if bd ≠ 0 then
    match heapGet s.chunks bd with
    | none => none
    | some c =>
      match (if c.data ≠ 0 then SCFree s.bufs c.data else some s.bufs) with
      | none => none
      | some b1 =>
        match SCFree b1 c.data with
        | none => none
        | some b2 => some ({ s with bufs := b2 }, -1)
  else some (s, -1)

/-- Embedding of `HtpBodyAppendChunk(htud, body, data, len)` (lines 78-144),
with `body` the body embedded in `htud` (the one `HtpBodyPrune` works on).
`data = none` is a `NULL` pointer, `some d` a pointer to the readable bytes
`d`; `m1`, `m2` are the allocator answers for the record and the data. The
result is the new state and the returned `int`. -/
def HtpBodyAppendChunk (s : Machine) (data : Option (List Nat)) (len : Nat)
    (m1 m2 : Nat) : Option (Machine × Int) :=
  match data with
  | none => some (s, 0)
  | some d =>
    if len = 0 then some (s, 0)
    else if s.htud.body.nchunks = 0 then
      -- bd = SCMalloc(sizeof(HtpBodyChunk))
      if validAlloc s.chunks m1 = false then none
      else if m1 = 0 then appendError s 0
      else
        -- bd->len, bd->stream_offset, bd->next, bd->id; bd->data = SCMalloc(len)
        if validAlloc s.bufs m2 = false then none
        else
          let bd : HtpBodyChunk :=
            { data := m2, len := len, id := 0, next := 0, stream_offset := 0 }
          let s1 : Machine := { s with chunks := heapSet s.chunks m1 bd }
          if m2 = 0 then appendError s1 m1
          else if d.length < len then none
          else
            -- memcpy(bd->data, data, len)
            let s2 : Machine := { s1 with bufs := heapSet s1.bufs m2 (d.take len) }
            -- body->first = body->last = bd; body->nchunks++
            let body1 : HtpBody :=
              { s2.htud.body with
                first := m1, last := m1
                nchunks := (s2.htud.body.nchunks + 1) % UINT32_MOD }
            -- htud->content_len_so_far = len
            some ({ s2 with
                    htud := { s2.htud with body := body1, content_len_so_far := len } }, 0)
    else
      if validAlloc s.chunks m1 = false then none
      else if m1 = 0 then appendError s 0
      else
        if validAlloc s.bufs m2 = false then none
        else
          let bd : HtpBodyChunk :=
            { data := m2, len := len
              id := (s.htud.body.nchunks + 1) % UINT32_MOD
              next := 0
              stream_offset := s.htud.content_len_so_far }
          let s1 : Machine := { s with chunks := heapSet s.chunks m1 bd }
          if m2 = 0 then appendError s1 m1
          else if d.length < len then none
          else
            let s2 : Machine := { s1 with bufs := heapSet s1.bufs m2 (d.take len) }
            -- body->last->next = bd
            match heapGet s2.chunks s2.htud.body.last with
            | none => none
            | some l =>
              let s3 : Machine :=
                { s2 with
                  chunks := heapSet s2.chunks s2.htud.body.last { l with next := m1 } }
              -- body->last = bd; body->nchunks++
              let body1 : HtpBody :=
                { s3.htud.body with
                  last := m1
                  nchunks := (s3.htud.body.nchunks + 1) % UINT32_MOD }
              -- htud->content_len_so_far += len
              some ({ s3 with
                      htud := { s3.htud with
                                body := body1
                                content_len_so_far :=
                                  (s3.htud.content_len_so_far + len) % UINT64_MOD } }, 0)

/-! ## `HtpBodyPrint` -/

/-- One item written to standard output by `HtpBodyPrint`. -/
inductive PrintEvent where
  /-- The line `--- Start body chunks at %p ---`. -/
  | start : PrintEvent
  /-- The line `Body %p; Chunk id: .., data %p, len ..` with the values of
  `cur->id`, `cur->data`, `(uint32_t)cur->len`, followed by the raw dump of the
  data made by `PrintRawDataFp`. -/
  | chunk (id data len : Nat) (raw : List Nat) : PrintEvent
deriving DecidableEq

/-- Modelled from the spec: `PrintRawDataFp(stdout, buf, buflen)` is defined in
`util-print.c`, which is not among the sources; it renders the `buflen` bytes
found at `buf`, the `data` component of a dumped chunk.  Reading a dangling
address or past the end of the block is undefined. -/
def PrintRawDataFp (bufs : List (Nat × List Nat)) (buf buflen : Nat) : Option (List Nat) :=
  match heapGet bufs buf with
  | none => none
  | some b => if buflen ≤ b.length then some (b.take buflen) else none

/-- The `for` loop of `HtpBodyPrint` (lines 162-168). -/
def printLoop : Nat → Machine → Nat → Option (List PrintEvent)
  | 0, _, _ => none
  | fuel + 1, s, cur =>
    if cur = 0 then some []
    else
      match heapGet s.chunks cur with
      | none => none
      | some c =>
        match PrintRawDataFp s.bufs c.data c.len with
        | none => none
        | some raw =>
          match printLoop fuel s c.next with
          | none => none
          | some rest => some (PrintEvent.chunk c.id c.data (c.len % UINT32_MOD) raw :: rest)

/-- Embedding of `HtpBodyPrint(body)` (lines 151-171): the state after the call
and the items written. The guard `SCLogDebugEnabled()||1` is always true. -/
def HtpBodyPrint (s : Machine) : Option (Machine × List PrintEvent) :=
  if s.htud.body.nchunks = 0 then some (s, [])
  else
    match printLoop (s.chunks.length + 1) s s.htud.body.first with
    | none => none
    | some evs => some (s, PrintEvent.start :: evs)

/-! ## `HtpBodyFree` -/

/-- The `while (prev != NULL)` loop of `HtpBodyFree` (lines 194-200) on the two
heaps. -/
def freeLoop : Nat → List (Nat × HtpBodyChunk) → List (Nat × List Nat) → Nat →
    Option (List (Nat × HtpBodyChunk) × List (Nat × List Nat))
  | 0, _, _, _ => none
  | fuel + 1, ch, bf, prev =>
    if prev = 0 then some (ch, bf)
    else
      match heapGet ch prev with
      | none => none
      | some c =>
        -- cur = prev->next; if (prev->data != NULL) SCFree(prev->data)
        match (if c.data ≠ 0 then SCFree bf c.data else some bf) with
        | none => none
        | some bf1 =>
          -- SCFree(prev); prev = cur
          match SCFree ch prev with
          | none => none
          | some ch1 => freeLoop fuel ch1 bf1 c.next

/-- Embedding of `HtpBodyFree(body)` (lines 178-203). `HTP_BODY_NONE` is an
enumeration constant of `app-layer-htp.h`, taken as a parameter. -/
def HtpBodyFree (HTP_BODY_NONE : Nat) (s : Machine) : Option Machine :=
  if s.htud.body.nchunks = 0 then some s
  else
    match freeLoop (s.chunks.length + 1) s.chunks s.bufs s.htud.body.first with
    | none => none
    | some (ch, bf) =>
      some { htud := { s.htud with
                       body := { first := 0, last := 0, nchunks := 0
                                 operation := HTP_BODY_NONE } }
             chunks := ch
             bufs := bf }

/-! ## `HtpBodyPrune` -/

/-- The `while (cur != NULL)` loop of `HtpBodyPrune` (lines 234-259). -/
def pruneLoop : Nat → Machine → Nat → Option Machine
  | 0, _, _ => none
  | fuel + 1, s, cur =>
    if cur = 0 then some s
    else
      match heapGet s.chunks cur with
      | none => none
      | some c =>
        -- next = cur->next
        if (c.stream_offset + c.len) % UINT64_MOD ≥ s.htud.body_parsed then some s
        else
          -- body->first = next; if (body->last == cur) body->last = next
          let b1 : HtpBody := { s.htud.body with first := c.next }
          let b2 : HtpBody := if b1.last = cur then { b1 with last := c.next } else b1
          -- if (body->nchunks > 0) body->nchunks--
          let b3 : HtpBody := if b2.nchunks > 0 then { b2 with nchunks := b2.nchunks - 1 } else b2
          -- if (cur->data != NULL) SCFree(cur->data)
          match (if c.data ≠ 0 then SCFree s.bufs c.data else some s.bufs) with
          | none => none
          | some bf1 =>
            -- SCFree(cur); cur = next
            match SCFree s.chunks cur with
            | none => none
            | some ch1 =>
              pruneLoop fuel { htud := { s.htud with body := b3 }, chunks := ch1, bufs := bf1 }
                c.next

/-- Embedding of `HtpBodyPrune(htud)` (lines 212-262); the watermark is
`htud->body_parsed`. -/
def HtpBodyPrune (s : Machine) : Option Machine :=
  if s.htud.body.nchunks = 0 then some s
  else if s.htud.body_parsed = 0 then some s
  else pruneLoop (s.chunks.length + 1) s s.htud.body.first

/-! ## Abstraction: the chunk list of a state -/

/-- What a chunk record holds apart from its link: its address and the fields
`data`, `len`, `id`, `stream_offset`. -/
structure Chunk where
  addr : Nat
  data : Nat
  len : Nat
  id : Nat
  stream_offset : Nat
deriving DecidableEq

/-- The chunk found in record `c` at address `a`. -/
def HtpBodyChunk.view (c : HtpBodyChunk) (a : Nat) : Chunk :=
  { addr := a, data := c.data, len := c.len, id := c.id, stream_offset := c.stream_offset }

/-- Following the `next` links from address `p` in heap `h` visits exactly the
chunks `l`, in this order, each at a live address not visited again, and then
reaches `NULL`. -/
def IsChain (h : List (Nat × HtpBodyChunk)) : Nat → List Chunk → Prop
  | p, [] => p = 0
  | p, v :: l =>
    p ≠ 0 ∧ v.addr ∉ l.map Chunk.addr ∧
      match heapGet h p with
      | none => False
      | some c => c.view p = v ∧ IsChain h c.next l

instance IsChain.instDecidable (h : List (Nat × HtpBodyChunk)) :
    ∀ (p : Nat) (l : List Chunk), Decidable (IsChain h p l)
  | p, [] => inferInstanceAs (Decidable (p = 0))
  | p, v :: l =>
    match hg : heapGet h p with
    | none => isFalse (by simp [IsChain, hg])
    | some c =>
      have := IsChain.instDecidable h c.next l
      if h1 : p ≠ 0 ∧ v.addr ∉ l.map Chunk.addr ∧ c.view p = v ∧ IsChain h c.next l then
        isTrue (by simpa [IsChain, hg] using h1)
      else isFalse (by simpa [IsChain, hg] using h1)

/-- The links alone: following `next` from `p` in heap `h` visits the chunks
`l` in order and then reaches `NULL`. `IsChain` adds that no address is visited
twice, which `isChain_of_links` derives from the links. -/
def Links (h : List (Nat × HtpBodyChunk)) : Nat → List Chunk → Prop
  | p, [] => p = 0
  | p, v :: l =>
    p ≠ 0 ∧
      match heapGet h p with
      | none => False
      | some c => c.view p = v ∧ Links h c.next l

/-- Address of the final chunk of a list, `NULL` for the empty list. -/
def lastAddr (L : List Chunk) : Nat :=
  match L.getLast? with
  | none => 0
  | some v => v.addr

/-- The data addresses in use by a list of chunks (`NULL` left out). -/
def dataAddrs (L : List Chunk) : List Nat :=
  (L.map Chunk.data).filter (fun d => decide (d ≠ 0))

/-- Well-formed buffer with chunk list `L`: `first` heads a `NULL`-terminated
chain of live records that carries exactly the chunks `L`, `last` is the address
of the final one, `nchunks` is their number, and every chunk owns its data
storage (a data pointer is `NULL` or a live block that no other chunk of the
list uses). -/
def WF (s : Machine) (L : List Chunk) : Prop :=
  IsChain s.chunks s.htud.body.first L ∧
  s.htud.body.last = lastAddr L ∧
  s.htud.body.nchunks = L.length ∧
  (∀ v ∈ L, v.data ≠ 0 → (heapGet s.bufs v.data).isSome = true) ∧
  (dataAddrs L).Nodup

instance WF.instDecidable (s : Machine) (L : List Chunk) : Decidable (WF s L) :=
  inferInstanceAs (Decidable (_ ∧ _ ∧ _ ∧ _ ∧ _))

/-- End offset of a chunk as line 241 computes it: `cur->stream_offset +
cur->len` in `uint64_t` arithmetic. -/
def Chunk.endOffset (v : Chunk) : Nat :=
  (v.stream_offset + v.len) % UINT64_MOD

/-- The state with the watermark `htud->body_parsed` set to `p` by the caller. -/
def Machine.setParsed (s : Machine) (p : Nat) : Machine :=
  { s with htud := { s.htud with body_parsed := p } }

/-- The bytes held by a chunk in state `s` (`none` when its data storage is not
live). -/
def Machine.bytesOf (s : Machine) (v : Chunk) : Option (List Nat) :=
  heapGet s.bufs v.data

/-- The chunk that lines 94-99 (empty buffer) or 114-119 (otherwise) fill in for
a call with length `len` when the allocator answers `m1` and `m2`. -/
def appendedChunk (s : Machine) (len m1 m2 : Nat) : Chunk :=
  if s.htud.body.nchunks = 0 then
    { addr := m1, data := m2, len := len, id := 0, stream_offset := 0 }
  else
    { addr := m1, data := m2, len := len
      id := (s.htud.body.nchunks + 1) % UINT32_MOD
      stream_offset := s.htud.content_len_so_far }

/-- The running total that line 108 (empty buffer) or line 129 (otherwise)
stores for a call with length `len`. -/
def appendedTotal (s : Machine) (len : Nat) : Nat :=
  if s.htud.body.nchunks = 0 then len
  else (s.htud.content_len_so_far + len) % UINT64_MOD

/-- The chunks of `L` that a prune with watermark `p` removes: the longest
initial run of chunks whose end offset is below `p`. -/
def prunedChunks (p : Nat) (L : List Chunk) : List Chunk :=
  L.takeWhile (fun v => decide (v.endOffset < p))

/-- The chunks of `L` that a prune with watermark `p` keeps: what follows the
removed initial run, starting with the first chunk whose end offset is at
least `p`. -/
def retainedChunks (p : Nat) (L : List Chunk) : List Chunk :=
  L.dropWhile (fun v => decide (v.endOffset < p))

/-- State after one removing iteration of the loop of `HtpBodyPrune` (lines
245-256) on the chunk record `c` found at `cur`. -/
def pruneStep (s : Machine) (cur : Nat) (c : HtpBodyChunk) : Machine :=
  { htud := { s.htud with
              body := { first := c.next
                        last := if s.htud.body.last = cur then c.next else s.htud.body.last
                        nchunks := s.htud.body.nchunks - 1
                        operation := s.htud.body.operation } }
    chunks := heapDel s.chunks cur
    bufs := if c.data ≠ 0 then heapDel s.bufs c.data else s.bufs }

/-! ## Example states -/

/-- The empty buffer: no chunk, running total 0, nothing allocated. -/
def emptyMachine : Machine :=
  { htud := { body := { first := 0, last := 0, nchunks := 0, operation := 0 }
              content_len_so_far := 0
              body_parsed := 0 }
    chunks := []
    bufs := [] }

/-- The chunks of `threeChunkMachine`, covering `[0,10)`, `[10,25)`, `[25,40)`. -/
def threeChunkList : List Chunk :=
  [ { addr := 1, data := 1, len := 10, id := 0, stream_offset := 0 },
    { addr := 2, data := 2, len := 15, id := 2, stream_offset := 10 },
    { addr := 3, data := 3, len := 15, id := 3, stream_offset := 25 } ]

/-- The state reached from `emptyMachine` by appending 10, 15 and 15 zero bytes
with the allocator answering 1, 2, 3. -/
def threeChunkMachine : Machine :=
  { htud := { body := { first := 1, last := 3, nchunks := 3, operation := 0 }
              content_len_so_far := 40
              body_parsed := 0 }
    chunks := [(2, { data := 2, len := 15, id := 2, next := 3, stream_offset := 10 }),
               (3, { data := 3, len := 15, id := 3, next := 0, stream_offset := 25 }),
               (1, { data := 1, len := 10, id := 0, next := 2, stream_offset := 0 })]
    bufs := [(3, List.replicate 15 0), (2, List.replicate 15 0), (1, List.replicate 10 0)] }

/-- The chunk of `singleChunkMachine`, covering `[0,500)`. -/
def singleChunkList : List Chunk :=
  [ { addr := 1, data := 1, len := 500, id := 0, stream_offset := 0 } ]

/-- The state reached from `emptyMachine` by appending 500 zero bytes with the
allocator answering 1. -/
def singleChunkMachine : Machine :=
  { htud := { body := { first := 1, last := 1, nchunks := 1, operation := 0 }
              content_len_so_far := 500
              body_parsed := 0 }
    chunks := [(1, { data := 1, len := 500, id := 0, next := 0, stream_offset := 0 })]
    bufs := [(1, List.replicate 500 0)] }

/-! ## Sequences of calls -/

/-- One call of `HtpBodyAppendChunk`: the arguments `data` and `len`, and the
answers `m1`, `m2` of the allocator during the call. -/
structure AppendCall where
  data : Option (List Nat)
  len : Nat
  m1 : Nat
  m2 : Nat
deriving DecidableEq

/-- The call carries non-empty input: `data` is not `NULL` and `len` is not 0. -/
def AppendCall.nonEmpty (c : AppendCall) : Bool :=
  c.data.isSome && decide (c.len ≠ 0)

/-- The bytes `data[0..len)` handed over by a call. -/
def AppendCall.payload (c : AppendCall) : List Nat :=
  (c.data.getD []).take c.len

/-- The calls of a sequence that carry non-empty input, in call order. -/
def nonEmptyCalls (cs : List AppendCall) : List AppendCall :=
  cs.filter AppendCall.nonEmpty

/-- Run a sequence of `HtpBodyAppendChunk` calls, each of which has to return 0
(success); `none` if one of them does not. -/
def runAppends : Machine → List AppendCall → Option Machine
  | s, [] => some s
  | s, c :: cs =>
    match HtpBodyAppendChunk s c.data c.len c.m1 c.m2 with
    | none => none
    | some (s1, r) => if r = 0 then runAppends s1 cs else none

/-- What holds after a sequence of successful appends to an empty buffer, `N`
being the calls with non-empty input and `L` the chunk list: the buffer is
well-formed, the chunks are the inputs of `N` in order at the allocated
addresses, the ids are the ones lines 97 and 117 assign, and, as long as the
sum of all lengths fits `uint64_t`, each `stream_offset` is the sum of the
earlier lengths and the running total is the sum of all lengths. -/
def AppendsInv (s : Machine) (N : List AppendCall) (L : List Chunk) : Prop :=
  WF s L ∧
  L.map Chunk.addr = N.map AppendCall.m1 ∧
  L.map Chunk.data = N.map AppendCall.m2 ∧
  L.map Chunk.len = N.map AppendCall.len ∧
  L.map s.bytesOf = N.map (fun c => some c.payload) ∧
  (∀ i v, L[i]? = some v → v.id = if i = 0 then 0 else i + 1) ∧
  ((L.map Chunk.len).sum < UINT64_MOD →
    (∀ i v, L[i]? = some v → v.stream_offset = ((L.map Chunk.len).take i).sum) ∧
    (L ≠ [] → s.htud.content_len_so_far = (L.map Chunk.len).sum))

/-- Example call sequence: `abc`, an empty slice, a `NULL` pointer, `de`,
`fghi` (as byte values), the allocator answering 1, 2, 3. -/
def exampleCalls : List AppendCall :=
  [ { data := some [97, 98, 99], len := 3, m1 := 1, m2 := 1 },
    { data := some [], len := 0, m1 := 0, m2 := 0 },
    { data := none, len := 4, m1 := 0, m2 := 0 },
    { data := some [100, 101], len := 2, m1 := 2, m2 := 2 },
    { data := some [102, 103, 104, 105], len := 4, m1 := 3, m2 := 3 } ]

/-- The state that `exampleCalls` lead to from `emptyMachine`. -/
def exampleAppended : Machine :=
  { htud := { body := { first := 1, last := 3, nchunks := 3, operation := 0 }
              content_len_so_far := 9
              body_parsed := 0 }
    chunks := [(2, { data := 2, len := 2, id := 2, next := 3, stream_offset := 3 }),
               (3, { data := 3, len := 4, id := 3, next := 0, stream_offset := 5 }),
               (1, { data := 1, len := 3, id := 0, next := 2, stream_offset := 0 })]
    bufs := [(3, [102, 103, 104, 105]), (2, [100, 101]), (1, [97, 98, 99])] }

/-! ## Sequences of operations -/

/-- One operation of the driver on the buffer: an append call, a prune after
setting the watermark `body_parsed` to `p`, or a free. -/
inductive Op where
  | append (c : AppendCall) : Op
  | prune (p : Nat) : Op
  | free : Op
deriving DecidableEq

/-- Byte counts kept alongside a run, from the caller's point of view: `ever`
is the sum of the lengths of all chunks appended so far; `sinceEmpty` is the sum
of the lengths of the chunks appended since the last append that found the
buffer empty (`nchunks == 0`), that append included. -/
structure Totals where
  ever : Nat
  sinceEmpty : Nat
deriving DecidableEq

/-- Account for a successful append of `len` bytes to state `s`. -/
def Totals.record (t : Totals) (s : Machine) (len : Nat) : Totals :=
  { ever := t.ever + len
    sinceEmpty := (if s.htud.body.nchunks = 0 then 0 else t.sinceEmpty) + len }

/-- Run a sequence of operations, keeping the byte counts. An append may
succeed, fail or be a no-op; only a successful append of non-empty input is
counted. `none` if an operation has no defined result. -/
def runOps (HTP_BODY_NONE : Nat) : Machine → Totals → List Op → Option (Machine × Totals)
  | s, t, [] => some (s, t)
  | s, t, Op.append c :: ops =>
    match HtpBodyAppendChunk s c.data c.len c.m1 c.m2 with
    | none => none
    | some (s1, r) =>
      runOps HTP_BODY_NONE s1
        (if r = 0 ∧ c.nonEmpty = true then t.record s c.len else t) ops
  | s, t, Op.prune p :: ops =>
    match HtpBodyPrune (s.setParsed p) with
    | none => none
    | some s1 => runOps HTP_BODY_NONE s1 t ops
  | s, t, Op.free :: ops =>
    match HtpBodyFree HTP_BODY_NONE s with
    | none => none
    | some s1 => runOps HTP_BODY_NONE s1 t ops

/-- The `len` argument of an append call fits `uint32_t`, the type of the
parameter. -/
def Op.fits : Op → Bool
  | Op.append c => decide (c.len < UINT32_MOD)
  | _ => true

/-- Every append call of the sequence passes a `len` that fits `uint32_t`. -/
def lensFit (ops : List Op) : Prop :=
  ∀ op ∈ ops, op.fits = true

instance lensFit.instDecidable (ops : List Op) : Decidable (lensFit ops) :=
  inferInstanceAs (Decidable (∀ op ∈ ops, op.fits = true))

/-- While the buffer is non-empty, `content_len_so_far` is the byte count
`sinceEmpty` in `uint64_t` arithmetic. -/
def TotalsInv (s : Machine) (t : Totals) : Prop :=
  s.htud.body.nchunks ≠ 0 → s.htud.content_len_so_far = t.sinceEmpty % UINT64_MOD

/-- The reading of C3: after the operations `ops` on `s0`, a successful append
`c` of non-empty input creates its chunk at the offset `ever`, the number of
bytes appended so far, and adds `len` to `content_len_so_far`. -/
def OffsetIsTotalEver (HTP_BODY_NONE : Nat) (s0 : Machine) (ops : List Op)
    (c : AppendCall) : Prop :=
  ∀ s t s', runOps HTP_BODY_NONE s0 { ever := 0, sinceEmpty := 0 } ops = some (s, t) →
    c.nonEmpty = true →
    HtpBodyAppendChunk s c.data c.len c.m1 c.m2 = some (s', 0) →
    (∃ r, heapGet s'.chunks c.m1 = some r ∧ r.stream_offset = t.ever) ∧
      s'.htud.content_len_so_far = s.htud.content_len_so_far + c.len

/-- Example: append 5 bytes, then prune with watermark 6. -/
def drainOps : List Op :=
  [ Op.append { data := some [1, 2, 3, 4, 5], len := 5, m1 := 1, m2 := 1 },
    Op.prune 6 ]

/-- The state after `drainOps` on `emptyMachine`: the buffer is empty again and
`content_len_so_far` is still 5. -/
def drainedMachine : Machine :=
  { htud := { body := { first := 0, last := 0, nchunks := 0, operation := 0 }
              content_len_so_far := 5
              body_parsed := 6 }
    chunks := []
    bufs := [] }

/-- Example: a call appending 3 bytes, the allocator answering 1 and 1. -/
def restartCall : AppendCall :=
  { data := some [6, 7, 8], len := 3, m1 := 1, m2 := 1 }

/-- The state after `restartCall` on `drainedMachine`. -/
def restartedMachine : Machine :=
  { htud := { body := { first := 1, last := 1, nchunks := 1, operation := 0 }
              content_len_so_far := 3
              body_parsed := 6 }
    chunks := [(1, { data := 1, len := 3, id := 0, next := 0, stream_offset := 0 })]
    bufs := [(1, [6, 7, 8])] }

/-- The record that lines 94-99 (empty buffer) or 114-119 (otherwise) leave at
`bd` when the allocation of the data storage fails: the fields are set and
`bd->data` is `NULL`. -/
def appendedRecord (s : Machine) (len : Nat) : HtpBodyChunk :=
  if s.htud.body.nchunks = 0 then
    { data := 0, len := len, id := 0, next := 0, stream_offset := 0 }
  else
    { data := 0, len := len
      id := (s.htud.body.nchunks + 1) % UINT32_MOD
      next := 0
      stream_offset := s.htud.content_len_so_far }

/-- The state after `HtpBodyPrune` on `exampleAppended` with watermark 9, the
number of bytes appended: the chunk `[5,9)` is still there. -/
def examplePrunedAtTotal : Machine :=
  { htud := { body := { first := 3, last := 3, nchunks := 1, operation := 0 }
              content_len_so_far := 9
              body_parsed := 9 }
    chunks := [(3, { data := 3, len := 4, id := 3, next := 0, stream_offset := 5 })]
    bufs := [(3, [102, 103, 104, 105])] }

/-- Example: two calls appending one byte each, the allocator answering 1, 2. -/
def twoCalls : List AppendCall :=
  [ { data := some [1], len := 1, m1 := 1, m2 := 1 },
    { data := some [2], len := 1, m1 := 2, m2 := 2 } ]

/-- The state after `twoCalls` on `emptyMachine`. -/
def twoChunkMachine : Machine :=
  { htud := { body := { first := 1, last := 2, nchunks := 2, operation := 0 }
              content_len_so_far := 2
              body_parsed := 0 }
    chunks := [(1, { data := 1, len := 1, id := 0, next := 2, stream_offset := 0 }),
               (2, { data := 2, len := 1, id := 2, next := 0, stream_offset := 1 })]
    bufs := [(2, [2]), (1, [1])] }

/-- Example: three appends of one byte, a prune with watermark 3, which removes
the first two chunks, and a fourth append of one byte. -/
def reuseOps : List Op :=
  [ Op.append { data := some [1], len := 1, m1 := 1, m2 := 1 },
    Op.append { data := some [2], len := 1, m1 := 2, m2 := 2 },
    Op.append { data := some [3], len := 1, m1 := 3, m2 := 3 },
    Op.prune 3,
    Op.append { data := some [4], len := 1, m1 := 4, m2 := 4 } ]

/-- The state after `reuseOps` on `emptyMachine`. -/
def reuseMachine : Machine :=
  { htud := { body := { first := 3, last := 4, nchunks := 2, operation := 0 }
              content_len_so_far := 4
              body_parsed := 3 }
    chunks := [(3, { data := 3, len := 1, id := 3, next := 4, stream_offset := 2 }),
               (4, { data := 4, len := 1, id := 2, next := 0, stream_offset := 3 })]
    bufs := [(4, [4]), (3, [3])] }

/-- The chunk list of `reuseMachine`. -/
def reuseList : List Chunk :=
  [ { addr := 3, data := 3, len := 1, id := 3, stream_offset := 2 },
    { addr := 4, data := 4, len := 1, id := 2, stream_offset := 3 } ]

/-- Whether the buffer is shortened after a prune that led from `s` to `s1`:
it is not empty, and this prune or an earlier one (`b`) has removed a chunk
from it. -/
def shortenedAfter (b : Bool) (s s1 : Machine) : Bool :=
  (b || decide (s1.htud.body.nchunks < s.htud.body.nchunks)) &&
    decide (s1.htud.body.nchunks ≠ 0)

/-- Along the run of `ops` from `s`, no successful append of non-empty input is
made to a shortened buffer, that is, to a non-empty buffer from which a prune
has removed a chunk since it was last empty; `b` tells whether the buffer is
shortened at the start. -/
def unshortened (HTP_BODY_NONE : Nat) : Machine → Bool → List Op → Bool
  | _, _, [] => true
  | s, b, Op.append c :: ops =>
    match HtpBodyAppendChunk s c.data c.len c.m1 c.m2 with
    | none => true
    | some (s1, r) =>
      !(b && decide (r = 0) && c.nonEmpty) && unshortened HTP_BODY_NONE s1 b ops
  | s, b, Op.prune p :: ops =>
    match HtpBodyPrune (s.setParsed p) with
    | none => true
    | some s1 => unshortened HTP_BODY_NONE s1 (shortenedAfter b s s1) ops
  | s, _, Op.free :: ops =>
    match HtpBodyFree HTP_BODY_NONE s with
    | none => true
    | some s1 => unshortened HTP_BODY_NONE s1 false ops

/-- Example: two appends, a prune that drains the buffer, two more appends and
a prune that removes the first of them. -/
def drainAndRefillOps : List Op :=
  [ Op.append { data := some [1], len := 1, m1 := 1, m2 := 1 },
    Op.append { data := some [2, 3], len := 2, m1 := 2, m2 := 2 },
    Op.prune 4,
    Op.append { data := some [4], len := 1, m1 := 1, m2 := 1 },
    Op.append { data := some [5, 6], len := 2, m1 := 2, m2 := 2 },
    Op.prune 2 ]

/-- The state after `drainAndRefillOps` on `emptyMachine`. -/
def drainAndRefillMachine : Machine :=
  { htud := { body := { first := 2, last := 2, nchunks := 1, operation := 0 }
              content_len_so_far := 3
              body_parsed := 2 }
    chunks := [(2, { data := 2, len := 2, id := 2, next := 0, stream_offset := 1 })]
    bufs := [(2, [5, 6])] }

/-! ## Scenario A -/

/-- Scenario A: three calls appending 100, 50 and 200 zero bytes, the allocator
answering 1, 2, 3. -/
def scenarioACalls : List AppendCall :=
  [ { data := some (List.replicate 100 0), len := 100, m1 := 1, m2 := 1 },
    { data := some (List.replicate 50 0), len := 50, m1 := 2, m2 := 2 },
    { data := some (List.replicate 200 0), len := 200, m1 := 3, m2 := 3 } ]

/-- The state after `scenarioACalls` on `emptyMachine`: chunks `[0,100)`,
`[100,150)`, `[150,350)`. -/
def scenarioAMachine : Machine :=
  { htud := { body := { first := 1, last := 3, nchunks := 3, operation := 0 }
              content_len_so_far := 350
              body_parsed := 0 }
    chunks := [(2, { data := 2, len := 50, id := 2, next := 3, stream_offset := 100 }),
               (3, { data := 3, len := 200, id := 3, next := 0, stream_offset := 150 }),
               (1, { data := 1, len := 100, id := 0, next := 2, stream_offset := 0 })]
    bufs := [(3, List.replicate 200 0), (2, List.replicate 50 0), (1, List.replicate 100 0)] }

/-- The state after `HtpBodyPrune` with watermark 300 on `scenarioAMachine`:
the chunk `[150,350)` is still there. -/
def scenarioAPruned : Machine :=
  { htud := { body := { first := 3, last := 3, nchunks := 1, operation := 0 }
              content_len_so_far := 350
              body_parsed := 300 }
    chunks := [(3, { data := 3, len := 200, id := 3, next := 0, stream_offset := 150 })]
    bufs := [(3, List.replicate 200 0)] }

/-! ## Printing -/

/-- The data storage of chunk `v` is live in `s` and holds at least `len`
bytes. -/
def Machine.readable (s : Machine) (v : Chunk) : Bool :=
  match s.bytesOf v with
  | none => false
  | some b => decide (v.len ≤ b.length)

/-- Every chunk of `L` has readable data in `s`. -/
def Readable (s : Machine) (L : List Chunk) : Prop :=
  ∀ v ∈ L, s.readable v = true

instance Readable.instDecidable (s : Machine) (L : List Chunk) : Decidable (Readable s L) :=
  inferInstanceAs (Decidable (∀ v ∈ L, s.readable v = true))

/-- What lines 165-167 write for chunk `v`: its `id`, its data pointer, its
length as `uint32_t` and its first `len` data bytes. -/
def printedRecord (s : Machine) (v : Chunk) : PrintEvent :=
  PrintEvent.chunk v.id v.data (v.len % UINT32_MOD) (((s.bytesOf v).getD []).take v.len)

/-- Example: append 1 byte and 2 bytes, prune with watermark 2. -/
def printOpsA : List Op :=
  [ Op.append { data := some [7], len := 1, m1 := 1, m2 := 1 },
    Op.append { data := some [8, 9], len := 2, m1 := 2, m2 := 2 },
    Op.prune 2 ]

/-- Example: append 3 bytes and 2 bytes, prune with watermark 4. -/
def printOpsB : List Op :=
  [ Op.append { data := some [7, 7, 7], len := 3, m1 := 1, m2 := 1 },
    Op.append { data := some [8, 9], len := 2, m1 := 2, m2 := 2 },
    Op.prune 4 ]

/-- The state after `printOpsA` on `emptyMachine`: one chunk, at offset 1. -/
def printMachineA : Machine :=
  { htud := { body := { first := 2, last := 2, nchunks := 1, operation := 0 }
              content_len_so_far := 3
              body_parsed := 2 }
    chunks := [(2, { data := 2, len := 2, id := 2, next := 0, stream_offset := 1 })]
    bufs := [(2, [8, 9])] }

/-- The state after `printOpsB` on `emptyMachine`: one chunk, at offset 3. -/
def printMachineB : Machine :=
  { htud := { body := { first := 2, last := 2, nchunks := 1, operation := 0 }
              content_len_so_far := 5
              body_parsed := 4 }
    chunks := [(2, { data := 2, len := 2, id := 2, next := 0, stream_offset := 3 })]
    bufs := [(2, [8, 9])] }

/-- The state after appending the two bytes `jk` to `exampleAppended`, the
allocator answering 4 and 4. -/
def exampleAppendedFour : Machine :=
  { htud := { body := { first := 1, last := 4, nchunks := 4, operation := 0 }
              content_len_so_far := 11
              body_parsed := 0 }
    chunks := [(3, { data := 3, len := 4, id := 3, next := 4, stream_offset := 5 }),
               (4, { data := 4, len := 2, id := 4, next := 0, stream_offset := 9 }),
               (2, { data := 2, len := 2, id := 2, next := 3, stream_offset := 3 }),
               (1, { data := 1, len := 3, id := 0, next := 2, stream_offset := 0 })]
    bufs := [(4, [106, 107]), (3, [102, 103, 104, 105]), (2, [100, 101]), (1, [97, 98, 99])] }

/-- The state after a call on `exampleAppended` with two bytes of input in
which the record is allocated at address 7 and the allocation of the data
storage fails: the record is still there. -/
def leakedMachine : Machine :=
  { exampleAppended with
    chunks := (7, { data := 0, len := 2, id := 4, next := 0, stream_offset := 9 }) ::
      exampleAppended.chunks }

/-- The chunk list of `exampleAppended`. -/
def exampleList : List Chunk :=
  [ { addr := 1, data := 1, len := 3, id := 0, stream_offset := 0 },
    { addr := 2, data := 2, len := 2, id := 2, stream_offset := 3 },
    { addr := 3, data := 3, len := 4, id := 3, stream_offset := 5 } ]

/-- Invariant I2 with count, for the chunk list `L` reachable from `first`:
`first` heads a `NULL`-terminated chain carrying `L`, `last` is the address of
its final chunk (`NULL` if there is none) and `nchunks` is the length of `L`. -/
def I2 (s : Machine) (L : List Chunk) : Prop :=
  IsChain s.chunks s.htud.body.first L ∧
  s.htud.body.last = lastAddr L ∧
  s.htud.body.nchunks = L.length

/-! ## Invariants I1, I3, I4 -/

/-- Invariant I1 on a chunk list: each chunk starts where the one before it
ends. -/
def Contiguous : List Chunk → Prop
  | [] => True
  | [_] => True
  | a :: b :: l => b.stream_offset = a.stream_offset + a.len ∧ Contiguous (b :: l)

instance Contiguous.instDecidable : ∀ (L : List Chunk), Decidable (Contiguous L)
  | [] => isTrue trivial
  | [_] => isTrue trivial
  | a :: b :: l =>
    have := Contiguous.instDecidable (b :: l)
    inferInstanceAs (Decidable (b.stream_offset = a.stream_offset + a.len ∧ Contiguous (b :: l)))

/-- Invariant I3 on a chunk list: every chunk has a positive length. -/
def PositiveLens (L : List Chunk) : Prop :=
  ∀ v ∈ L, 0 < v.len

instance PositiveLens.instDecidable (L : List Chunk) : Decidable (PositiveLens L) :=
  inferInstanceAs (Decidable (∀ v ∈ L, 0 < v.len))

/-- Invariant I4 for state `s` with chunk list `L`: if there is a tail chunk,
`content_len_so_far` is its `stream_offset + len`. -/
def TotalIsTailEnd (s : Machine) (L : List Chunk) : Prop :=
  ∀ v, L.getLast? = some v → s.htud.content_len_so_far = v.stream_offset + v.len

/-- No integer overflow along the run of `ops` from `s`: whenever an append
links a chunk behind another one (lines 110-129), neither `nchunks + 1` (lines
117, 127) nor `content_len_so_far + len` (line 129) wraps. -/
def noWrap (HTP_BODY_NONE : Nat) : Machine → List Op → Bool
  | _, [] => true
  | s, Op.append c :: ops =>
    match HtpBodyAppendChunk s c.data c.len c.m1 c.m2 with
    | none => true
    | some (s1, r) =>
      (decide (r ≠ 0) || !c.nonEmpty || decide (s.htud.body.nchunks = 0) ||
        (decide (s.htud.body.nchunks + 1 < UINT32_MOD) &&
          decide (s.htud.content_len_so_far + c.len < UINT64_MOD))) &&
        noWrap HTP_BODY_NONE s1 ops
  | s, Op.prune p :: ops =>
    match HtpBodyPrune (s.setParsed p) with
    | none => true
    | some s1 => noWrap HTP_BODY_NONE s1 ops
  | s, Op.free :: ops =>
    match HtpBodyFree HTP_BODY_NONE s with
    | none => true
    | some s1 => noWrap HTP_BODY_NONE s1 ops

/-- Example: two appends, a prune that removes the first chunk, a third
append, a free, and two more appends. -/
def mixedOps : List Op :=
  [ Op.append { data := some [1, 2], len := 2, m1 := 1, m2 := 1 },
    Op.append { data := some [3], len := 1, m1 := 2, m2 := 2 },
    Op.prune 3,
    Op.append { data := some [4, 5, 6], len := 3, m1 := 3, m2 := 3 },
    Op.free,
    Op.append { data := some [7], len := 1, m1 := 1, m2 := 1 },
    Op.append { data := some [], len := 0, m1 := 0, m2 := 0 },
    Op.append { data := some [8, 9], len := 2, m1 := 2, m2 := 2 } ]

/-- The state after `mixedOps` on `emptyMachine`. -/
def mixedMachine : Machine :=
  { htud := { body := { first := 1, last := 2, nchunks := 2, operation := 0 }
              content_len_so_far := 3
              body_parsed := 3 }
    chunks := [(1, { data := 1, len := 1, id := 0, next := 2, stream_offset := 0 }),
               (2, { data := 2, len := 2, id := 2, next := 0, stream_offset := 1 })]
    bufs := [(2, [8, 9]), (1, [7])] }

/-- Every live chunk record of the heap `h` has a positive `len`. -/
def RecordsPositive (h : List (Nat × HtpBodyChunk)) : Prop :=
  ∀ a c, heapGet h a = some c → 0 < c.len

/-- The state after the loop of `HtpBodyPrune` has released the chunks `A`, one
after the other (lines 245-256 for each). -/
def releaseRun : Machine → List Chunk → Machine
  | s, [] => s
  | s, v :: l =>
    match heapGet s.chunks v.addr with
    | none => releaseRun s l
    | some c => releaseRun (pruneStep s v.addr c) l

/-- The state after `HtpBodyFree` on `exampleAppended`: the buffer is empty and
`content_len_so_far` is still 9. -/
def exampleFreed : Machine :=
  { htud := { body := { first := 0, last := 0, nchunks := 0, operation := 0 }
              content_len_so_far := 9
              body_parsed := 0 }
    chunks := []
    bufs := [] }

/-- The first `n` calls of a long run of appends: call number `i` (counted from
1) hands over the one byte 0 and the allocator answers `i` both for the record
and for the data storage. -/
def unitCalls (n : Nat) : List AppendCall :=
  (List.range n).map (fun i => { data := some [0], len := 1, m1 := i + 1, m2 := i + 1 })

/-! # Theorems -/

/-! ## Heap lemmas -/

theorem heapGet_heapDel {α : Type} (h : List (Nat × α)) (p q : Nat) :
    heapGet (heapDel h p) q = if p = q then none else heapGet h q := by
  induction h with
  | nil => simp [heapDel, heapGet]
  | cons e t ih =>
    obtain ⟨a, v⟩ := e
    by_cases hap : a = p
    · subst hap
      by_cases haq : a = q
      · subst haq
        simp [heapDel, ih]
      · simp [heapDel, ih, haq, heapGet]
    · by_cases hpq : p = q
      · subst hpq
        simp [heapDel, hap, heapGet, ih]
      · simp [heapDel, hap, heapGet, ih, hpq]

theorem heapGet_heapSet {α : Type} (h : List (Nat × α)) (p q : Nat) (v : α) :
    heapGet (heapSet h p v) q = if p = q then some v else heapGet h q := by
  by_cases hpq : p = q
  · simp [heapSet, heapGet, hpq]
  · simp [heapSet, heapGet, hpq, heapGet_heapDel]

theorem length_heapDel_le {α : Type} (h : List (Nat × α)) (p : Nat) :
    (heapDel h p).length ≤ h.length := by
  induction h with
  | nil => simp [heapDel]
  | cons e t ih =>
    obtain ⟨a, w⟩ := e
    by_cases hap : a = p
    · simp [heapDel, hap]; omega
    · simp [heapDel, hap]; omega

theorem length_heapDel_lt {α : Type} (h : List (Nat × α)) (p : Nat) (v : α)
    (hp : heapGet h p = some v) : (heapDel h p).length < h.length := by
  induction h with
  | nil => simp [heapGet] at hp
  | cons e t ih =>
    obtain ⟨a, w⟩ := e
    by_cases hap : a = p
    · have := length_heapDel_le t p
      simp [heapDel, hap]
      omega
    · simp only [heapGet, hap, if_false] at hp
      have := ih hp
      simp [heapDel, hap]
      exact this

/-! ## Chains -/

theorem isChain_cons (h : List (Nat × HtpBodyChunk)) (p : Nat) (v : Chunk) (l : List Chunk) :
    IsChain h p (v :: l) ↔
      p ≠ 0 ∧ v.addr ∉ l.map Chunk.addr ∧
        ∃ c, heapGet h p = some c ∧ c.view p = v ∧ IsChain h c.next l := by
  constructor
  · intro hc
    obtain ⟨h0, hn, hm⟩ := hc
    refine ⟨h0, hn, ?_⟩
    cases hg : heapGet h p with
    | none => simp [hg] at hm
    | some c =>
      simp only [hg] at hm
      exact ⟨c, rfl, hm⟩
  · rintro ⟨h0, hn, c, hg, hv, hr⟩
    refine ⟨h0, hn, ?_⟩
    simp only [hg]
    exact ⟨hv, hr⟩

theorem isChain_head_addr {h : List (Nat × HtpBodyChunk)} {p : Nat} {v : Chunk}
    {l : List Chunk} (hc : IsChain h p (v :: l)) : v.addr = p := by
  obtain ⟨_, _, c, _, hv, _⟩ := (isChain_cons h p v l).1 hc
  rw [← hv]; rfl

theorem isChain_live {h : List (Nat × HtpBodyChunk)} :
    ∀ {L : List Chunk} {p : Nat}, IsChain h p L →
      ∀ v ∈ L, v.addr ≠ 0 ∧ ∃ c, heapGet h v.addr = some c ∧ c.view v.addr = v := by
  intro L
  induction L with
  | nil => intro p _ v hv; simp at hv
  | cons w l ih =>
    intro p hc v hv
    have hw := isChain_head_addr hc
    obtain ⟨h0, _, c, hg, hcv, hr⟩ := (isChain_cons h p w l).1 hc
    rcases List.mem_cons.1 hv with rfl | hv
    · rw [hw]; exact ⟨h0, c, hg, hcv⟩
    · exact ih hr v hv

theorem isChain_congr {h h' : List (Nat × HtpBodyChunk)} :
    ∀ {L : List Chunk} {p : Nat},
      (∀ v ∈ L, heapGet h' v.addr = heapGet h v.addr) → IsChain h p L → IsChain h' p L := by
  intro L
  induction L with
  | nil => intro p _ hc; exact hc
  | cons w l ih =>
    intro p hsame hc
    have hw := isChain_head_addr hc
    obtain ⟨h0, hn, c, hg, hcv, hr⟩ := (isChain_cons h p w l).1 hc
    refine (isChain_cons h' p w l).2 ⟨h0, hn, c, ?_, hcv, ?_⟩
    · rw [← hw, hsame w (List.mem_cons_self _ _), hw]; exact hg
    · exact ih (fun v hv => hsame v (List.mem_cons_of_mem _ hv)) hr

theorem isChain_nodup {h : List (Nat × HtpBodyChunk)} :
    ∀ {L : List Chunk} {p : Nat}, IsChain h p L → (L.map Chunk.addr).Nodup := by
  intro L
  induction L with
  | nil => intro p _; simp
  | cons w l ih =>
    intro p hc
    obtain ⟨_, hn, c, _, _, hr⟩ := (isChain_cons h p w l).1 hc
    simpa [List.nodup_cons] using ⟨by simpa using hn, ih hr⟩

theorem isChain_length_le :
    ∀ {L : List Chunk} {h : List (Nat × HtpBodyChunk)} {p : Nat},
      IsChain h p L → L.length ≤ h.length := by
  intro L
  induction L with
  | nil => intro h p _; simp
  | cons w l ih =>
    intro h p hc
    obtain ⟨_, hn, c, hg, _, hr⟩ := (isChain_cons h p w l).1 hc
    have hw := isChain_head_addr hc
    have hr' : IsChain (heapDel h p) c.next l := by
      refine isChain_congr (fun v hv => ?_) hr
      have hne : p ≠ v.addr := by
        intro hpe
        apply hn
        rw [hw, hpe]
        exact List.mem_map_of_mem _ hv
      simp [heapGet_heapDel, hne]
    have h1 := ih hr'
    have h2 := length_heapDel_lt h p c hg
    simp only [List.length_cons]
    omega

theorem lastAddr_nil : lastAddr [] = 0 := rfl

theorem lastAddr_singleton (v : Chunk) : lastAddr [v] = v.addr := rfl

theorem lastAddr_cons_cons (v w : Chunk) (l : List Chunk) :
    lastAddr (v :: w :: l) = lastAddr (w :: l) := by
  simp [lastAddr, List.getLast?_cons_cons]

theorem lastAddr_mem : ∀ {L : List Chunk}, L ≠ [] → lastAddr L ∈ L.map Chunk.addr := by
  intro L
  induction L with
  | nil => intro h; exact absurd rfl h
  | cons v l ih =>
    intro _
    cases l with
    | nil => simp [lastAddr]
    | cons w l' =>
      rw [lastAddr_cons_cons]
      have := ih (by simp)
      exact List.mem_cons_of_mem _ this

theorem lastAddr_append_singleton (L : List Chunk) (v : Chunk) :
    lastAddr (L ++ [v]) = v.addr := by
  simp [lastAddr]

theorem links_cons (h : List (Nat × HtpBodyChunk)) (p : Nat) (v : Chunk) (l : List Chunk) :
    Links h p (v :: l) ↔
      p ≠ 0 ∧ ∃ c, heapGet h p = some c ∧ c.view p = v ∧ Links h c.next l := by
  constructor
  · intro hc
    obtain ⟨h0, hm⟩ := hc
    refine ⟨h0, ?_⟩
    cases hg : heapGet h p with
    | none => simp [hg] at hm
    | some c =>
      simp only [hg] at hm
      exact ⟨c, rfl, hm⟩
  · rintro ⟨h0, c, hg, hv, hr⟩
    refine ⟨h0, ?_⟩
    simp only [hg]
    exact ⟨hv, hr⟩

theorem links_unique {h : List (Nat × HtpBodyChunk)} :
    ∀ {l1 l2 : List Chunk} {p : Nat}, Links h p l1 → Links h p l2 → l1 = l2 := by
  intro l1
  induction l1 with
  | nil =>
    intro l2 p h1 h2
    cases l2 with
    | nil => rfl
    | cons w l2 =>
      have hp : p = 0 := h1
      exact absurd hp ((links_cons h p w l2).1 h2).1
  | cons v l1 ih =>
    intro l2 p h1 h2
    obtain ⟨h0, c, hg, hv, hr⟩ := (links_cons h p v l1).1 h1
    cases l2 with
    | nil => exact absurd (show p = 0 from h2) h0
    | cons w l2 =>
      obtain ⟨_, c2, hg2, hw, hr2⟩ := (links_cons h p w l2).1 h2
      have hcc : c2 = c := by rw [hg] at hg2; exact (Option.some.inj hg2).symm
      subst hcc
      rw [← hv, ← hw, ih hr hr2]

theorem links_of_mem {h : List (Nat × HtpBodyChunk)} :
    ∀ {l : List Chunk} {p : Nat}, Links h p l → ∀ w ∈ l,
      ∃ l', Links h w.addr l' ∧ l'.length ≤ l.length := by
  intro l
  induction l with
  | nil => intro p _ w hw; simp at hw
  | cons v l ih =>
    intro p hl w hw
    obtain ⟨h0, c, hg, hv, hr⟩ := (links_cons h p v l).1 hl
    rcases List.mem_cons.1 hw with rfl | hw
    · have hp : (c.view p).addr = p := rfl
      rw [hv] at hp
      exact ⟨w :: l, by rw [hp]; exact hl, le_refl _⟩
    · obtain ⟨l', h1, h2⟩ := ih hr w hw
      exact ⟨l', h1, by simp only [List.length_cons]; omega⟩

/-- A `NULL`-terminated run of links never visits an address twice: the links
alone make a chain. -/
theorem isChain_of_links {h : List (Nat × HtpBodyChunk)} :
    ∀ {l : List Chunk} {p : Nat}, Links h p l → IsChain h p l := by
  intro l
  induction l with
  | nil => intro p hl; exact hl
  | cons v l ih =>
    intro p hl
    obtain ⟨h0, c, hg, hv, hr⟩ := (links_cons h p v l).1 hl
    refine (isChain_cons h p v l).2 ⟨h0, ?_, c, hg, hv, ih hr⟩
    intro hmem
    obtain ⟨w, hw, hwa⟩ := List.mem_map.1 hmem
    obtain ⟨l', h1, h2⟩ := links_of_mem hr w hw
    have hp : v.addr = p := by rw [← hv]; rfl
    rw [hwa, hp] at h1
    have := links_unique hl h1
    rw [← this] at h2
    simp only [List.length_cons] at h2
    omega

theorem isChain_snoc {h : List (Nat × HtpBodyChunk)} {m1 : Nat} {bd : HtpBodyChunk}
    (hm0 : m1 ≠ 0) (hfresh : heapGet h m1 = none) (hbd : bd.next = 0) :
    ∀ {L : List Chunk} {p : Nat}, L ≠ [] → IsChain h p L →
      ∀ lc, heapGet h (lastAddr L) = some lc →
        IsChain (heapSet (heapSet h m1 bd) (lastAddr L) { lc with next := m1 }) p
          (L ++ [bd.view m1]) := by
  intro L
  induction L with
  | nil => intro p hne; exact absurd rfl hne
  | cons v l ih =>
    intro p _ hc lc hlc
    have hv := isChain_head_addr hc
    obtain ⟨h0, hn, c, hg, hcv, hr⟩ := (isChain_cons h p v l).1 hc
    have hpm : p ≠ m1 := by
      intro hpe; rw [hpe, hfresh] at hg; exact Option.noConfusion hg
    cases l with
    | nil =>
      have hnext : c.next = 0 := hr
      have hla : lastAddr [v] = p := by rw [lastAddr_singleton, hv]
      rw [hla] at hlc ⊢
      have hclc : lc = c := by rw [hg] at hlc; exact (Option.some.inj hlc).symm
      subst hclc
      refine (isChain_cons _ p v _).2 ⟨h0, ?_, { lc with next := m1 }, ?_, ?_, ?_⟩
      · simp [HtpBodyChunk.view, hv, hpm]
      · simp [heapGet_heapSet]
      · rw [← hcv]; rfl
      · refine (isChain_cons _ m1 _ _).2 ⟨hm0, by simp, bd, ?_, rfl, ?_⟩
        · simp [heapGet_heapSet, hpm]
        · exact hbd
    | cons w l' =>
      have hmem := @lastAddr_mem (w :: l') (by simp)
      rw [lastAddr_cons_cons] at hlc ⊢
      have hpl : lastAddr (w :: l') ≠ p := by
        intro hpe
        apply hn
        rw [hv, ← hpe]
        exact hmem
      have hrec := @ih c.next (by simp) hr lc hlc
      refine (isChain_cons _ p v _).2 ⟨h0, ?_, c, ?_, hcv, ?_⟩
      · intro hmem2
        have hmem3 : v.addr ∈ List.map Chunk.addr ((w :: l') ++ [bd.view m1]) := hmem2
        rw [List.map_append, List.mem_append] at hmem3
        rcases hmem3 with hmem2 | hmem2
        · exact hn hmem2
        · simp [HtpBodyChunk.view] at hmem2
          exact hpm (hv ▸ hmem2)
      · simp [heapGet_heapSet, hpl, Ne.symm hpm, hg]
      · exact hrec

theorem append_eval_empty (s : Machine) (d : List Nat) (len m1 m2 : Nat)
    (hn : s.htud.body.nchunks = 0) (hlen : len ≠ 0) (hd : len ≤ d.length)
    (hm1 : m1 ≠ 0) (hf1 : heapGet s.chunks m1 = none)
    (hm2 : m2 ≠ 0) (hf2 : heapGet s.bufs m2 = none) :
    HtpBodyAppendChunk s (some d) len m1 m2 =
      some ({ htud := { s.htud with
                        body := { s.htud.body with
                                  first := m1, last := m1
                                  nchunks := (s.htud.body.nchunks + 1) % UINT32_MOD }
                        content_len_so_far := len }
              chunks := heapSet s.chunks m1
                { data := m2, len := len, id := 0, next := 0, stream_offset := 0 }
              bufs := heapSet s.bufs m2 (d.take len) }, 0) := by
  have hd' : ¬ d.length < len := by omega
  simp [HtpBodyAppendChunk, hlen, hn, validAlloc, hf1, hf2, hm1, hm2, hd']

theorem append_eval_nonempty (s : Machine) (d : List Nat) (len m1 m2 : Nat)
    (lc : HtpBodyChunk)
    (hn : s.htud.body.nchunks ≠ 0) (hlen : len ≠ 0) (hd : len ≤ d.length)
    (hm1 : m1 ≠ 0) (hf1 : heapGet s.chunks m1 = none)
    (hm2 : m2 ≠ 0) (hf2 : heapGet s.bufs m2 = none)
    (hlast : heapGet s.chunks s.htud.body.last = some lc) :
    HtpBodyAppendChunk s (some d) len m1 m2 =
      some ({ htud := { s.htud with
                        body := { s.htud.body with
                                  last := m1
                                  nchunks := (s.htud.body.nchunks + 1) % UINT32_MOD }
                        content_len_so_far :=
                          (s.htud.content_len_so_far + len) % UINT64_MOD }
              chunks := heapSet
                (heapSet s.chunks m1
                  { data := m2, len := len
                    id := (s.htud.body.nchunks + 1) % UINT32_MOD
                    next := 0
                    stream_offset := s.htud.content_len_so_far })
                s.htud.body.last { lc with next := m1 }
              bufs := heapSet s.bufs m2 (d.take len) }, 0) := by
  have hd' : ¬ d.length < len := by omega
  have hlm : m1 ≠ s.htud.body.last := by
    intro he; rw [← he, hf1] at hlast; exact Option.noConfusion hlast
  simp [HtpBodyAppendChunk, hlen, hn, validAlloc, hf1, hf2, hm1, hm2, hd', heapGet_heapSet,
    hlm, hlast]

theorem appendError_ret (s : Machine) (bd : Nat) (r : Machine × Int)
    (h : appendError s bd = some r) : r.2 = -1 := by
  unfold appendError at h
  split at h
  · split at h
    · exact Option.noConfusion h
    · split at h
      · exact Option.noConfusion h
      · split at h
        · exact Option.noConfusion h
        · cases h; rfl
  · cases h; rfl

theorem validAlloc_iff {α : Type} (h : List (Nat × α)) (p : Nat) :
    validAlloc h p = true ↔ p = 0 ∨ heapGet h p = none := by
  simp [validAlloc]

theorem append_success_inv (s s' : Machine) (d : List Nat) (len m1 m2 : Nat)
    (hlen : len ≠ 0) (h : HtpBodyAppendChunk s (some d) len m1 m2 = some (s', 0)) :
    m1 ≠ 0 ∧ heapGet s.chunks m1 = none ∧ m2 ≠ 0 ∧ heapGet s.bufs m2 = none ∧
      len ≤ d.length := by
  have herr : ∀ (t : Machine) (bd : Nat), appendError t bd ≠ some (s', 0) := by
    intro t bd he
    have := appendError_ret t bd _ he
    simp at this
  unfold HtpBodyAppendChunk at h
  simp only [hlen, if_false] at h
  split at h
  · split at h
    · exact Option.noConfusion h
    · rename_i hv1
      split at h
      · exact absurd h (herr _ _)
      · rename_i hm1
        split at h
        · exact Option.noConfusion h
        · rename_i hv2
          split at h
          · exact absurd h (herr _ _)
          · rename_i hm2
            split at h
            · exact Option.noConfusion h
            · rename_i hd
              simp only [Bool.not_eq_false, validAlloc_iff, hm1, hm2, false_or] at hv1 hv2
              exact ⟨hm1, hv1, hm2, hv2, by omega⟩
  · split at h
    · exact Option.noConfusion h
    · rename_i hv1
      split at h
      · exact absurd h (herr _ _)
      · rename_i hm1
        split at h
        · exact Option.noConfusion h
        · rename_i hv2
          split at h
          · exact absurd h (herr _ _)
          · rename_i hm2
            split at h
            · exact Option.noConfusion h
            · rename_i hd
              simp only [Bool.not_eq_false, validAlloc_iff, hm1, hm2, false_or] at hv1 hv2
              exact ⟨hm1, hv1, hm2, hv2, by omega⟩

theorem mem_dataAddrs {L : List Chunk} {a : Nat} :
    a ∈ dataAddrs L ↔ a ≠ 0 ∧ ∃ v ∈ L, v.data = a := by
  simp [dataAddrs, List.mem_filter, and_comm]

theorem dataAddrs_append (L M : List Chunk) : dataAddrs (L ++ M) = dataAddrs L ++ dataAddrs M := by
  simp [dataAddrs]

theorem dataAddrs_cons (v : Chunk) (L : List Chunk) :
    dataAddrs (v :: L) = if v.data ≠ 0 then v.data :: dataAddrs L else dataAddrs L := by
  by_cases h : v.data = 0 <;> simp [dataAddrs, List.filter_cons, h]

theorem wf_nil_iff (s : Machine) :
    WF s [] ↔ s.htud.body.first = 0 ∧ s.htud.body.last = 0 ∧ s.htud.body.nchunks = 0 := by
  simp [WF, IsChain, lastAddr, dataAddrs]

theorem wf_nchunks_eq_zero_iff {s : Machine} {L : List Chunk} (hwf : WF s L) :
    s.htud.body.nchunks = 0 ↔ L = [] := by
  rw [hwf.2.2.1]; exact List.length_eq_zero

theorem appendedChunk_addr (s : Machine) (len m1 m2 : Nat) :
    (appendedChunk s len m1 m2).addr = m1 := by
  unfold appendedChunk; split <;> rfl

theorem appendedChunk_data (s : Machine) (len m1 m2 : Nat) :
    (appendedChunk s len m1 m2).data = m2 := by
  unfold appendedChunk; split <;> rfl

theorem appendedChunk_len (s : Machine) (len m1 m2 : Nat) :
    (appendedChunk s len m1 m2).len = len := by
  unfold appendedChunk; split <;> rfl

/-- Effect of a successful call with non-empty input on a well-formed buffer. -/
theorem append_ok (s : Machine) (L : List Chunk) (d : List Nat) (len m1 m2 : Nat)
    (hwf : WF s L) (hlen : len ≠ 0) (hd : len ≤ d.length)
    (hm1 : m1 ≠ 0) (hf1 : heapGet s.chunks m1 = none)
    (hm2 : m2 ≠ 0) (hf2 : heapGet s.bufs m2 = none) :
    ∃ s', HtpBodyAppendChunk s (some d) len m1 m2 = some (s', 0) ∧
      (L.length + 1 < UINT32_MOD → WF s' (L ++ [appendedChunk s len m1 m2])) ∧
      s'.htud.body.nchunks = (L.length + 1) % UINT32_MOD ∧
      s'.htud.body.operation = s.htud.body.operation ∧
      s'.htud.content_len_so_far = appendedTotal s len ∧
      s'.htud.body_parsed = s.htud.body_parsed ∧
      s'.bufs = heapSet s.bufs m2 (d.take len) ∧
      (∀ a, a ≠ m1 → a ≠ s.htud.body.last → heapGet s'.chunks a = heapGet s.chunks a) := by
  obtain ⟨hc, hl, hn, hdl, hds⟩ := hwf
  have hdata : (dataAddrs (L ++ [appendedChunk s len m1 m2])).Nodup := by
    have hlast : dataAddrs [appendedChunk s len m1 m2] = [m2] := by
      unfold appendedChunk
      split <;> simp [dataAddrs, hm2]
    rw [dataAddrs_append, hlast]
    refine List.Nodup.append hds (List.nodup_singleton _) ?_
    intro a ha hb
    rw [List.mem_singleton] at hb
    subst hb
    obtain ⟨ha0, v, hv, hva⟩ := mem_dataAddrs.1 ha
    have := hdl v hv (by rw [hva]; exact ha0)
    rw [hva, hf2] at this
    simp at this
  have hlive : ∀ v ∈ L ++ [appendedChunk s len m1 m2], v.data ≠ 0 →
      (heapGet (heapSet s.bufs m2 (d.take len)) v.data).isSome = true := by
    intro v hv hv0
    rw [heapGet_heapSet]
    by_cases hmv : m2 = v.data
    · simp [hmv]
    · simp only [hmv, if_false]
      rcases List.mem_append.1 hv with hv | hv
      · exact hdl v hv hv0
      · rw [List.mem_singleton] at hv
        subst hv
        exfalso; apply hmv
        unfold appendedChunk; split <;> rfl
  cases L with
  | nil =>
    have hn0 : s.htud.body.nchunks = 0 := hn
    refine ⟨_, append_eval_empty s d len m1 m2 hn0 hlen hd hm1 hf1 hm2 hf2, ?_, ?_, rfl, ?_, rfl,
      rfl, ?_⟩
    · intro _
      refine ⟨?_, ?_, ?_, hlive, hdata⟩
      · refine (isChain_cons _ _ _ _).2 ⟨hm1, by simp,
          { data := m2, len := len, id := 0, next := 0, stream_offset := 0 }, ?_, ?_, ?_⟩
        · simp [heapGet_heapSet]
        · simp [appendedChunk, hn0, HtpBodyChunk.view]
        · rfl
      · show m1 = lastAddr ([] ++ [appendedChunk s len m1 m2])
        rw [lastAddr_append_singleton, appendedChunk_addr]
      · simp [hn0, UINT32_MOD]
    · simp [hn0]
    · simp [appendedTotal, hn0]
    · intro a ha _
      simp [heapGet_heapSet, Ne.symm ha]
  | cons v l =>
    have hn0 : s.htud.body.nchunks ≠ 0 := by rw [hn]; simp
    have hmem := @lastAddr_mem (v :: l) (by simp)
    obtain ⟨w, hw, hwa⟩ := List.mem_map.1 hmem
    obtain ⟨_, lc, hlc, _⟩ := isChain_live hc w hw
    rw [hwa, ← hl] at hlc
    refine ⟨_, append_eval_nonempty s d len m1 m2 lc hn0 hlen hd hm1 hf1 hm2 hf2 hlc, ?_, ?_,
      rfl, ?_, rfl, rfl, ?_⟩
    · intro _
      refine ⟨?_, ?_, ?_, hlive, hdata⟩
      · have := @isChain_snoc s.chunks m1
          { data := m2, len := len, id := (s.htud.body.nchunks + 1) % UINT32_MOD,
            next := 0, stream_offset := s.htud.content_len_so_far }
          hm1 hf1 rfl (v :: l) s.htud.body.first (by simp) hc lc (by rw [← hl]; exact hlc)
        rw [← hl] at this
        have hview : appendedChunk s len m1 m2 =
            HtpBodyChunk.view
              { data := m2, len := len, id := (s.htud.body.nchunks + 1) % UINT32_MOD,
                next := 0, stream_offset := s.htud.content_len_so_far } m1 := by
          simp [appendedChunk, hn0, HtpBodyChunk.view]
        rw [hview]
        exact this
      · show m1 = lastAddr ((v :: l) ++ [appendedChunk s len m1 m2])
        rw [lastAddr_append_singleton, appendedChunk_addr]
      · simp only [List.length_append, List.length_cons, List.length_nil]
        rw [hn]
        simp only [List.length_cons]
        apply Nat.mod_eq_of_lt
        simpa using ‹(v :: l).length + 1 < UINT32_MOD›
    · rw [hn]
    · simp [appendedTotal, hn0]
    · intro a ha hal
      simp [heapGet_heapSet, Ne.symm ha, Ne.symm hal]

/-! ## The prune loop -/

theorem pruneLoop_null (fuel : Nat) (s : Machine) : pruneLoop (fuel + 1) s 0 = some s := by
  simp [pruneLoop]

theorem pruneLoop_stop (fuel : Nat) (s : Machine) (cur : Nat) (c : HtpBodyChunk)
    (hg : heapGet s.chunks cur = some c)
    (hge : s.htud.body_parsed ≤ (c.stream_offset + c.len) % UINT64_MOD) :
    pruneLoop (fuel + 1) s cur = some s := by
  unfold pruneLoop
  by_cases h0 : cur = 0
  · simp [h0]
  · simp [h0, hg, hge]

theorem pruneLoop_remove (fuel : Nat) (s : Machine) (cur : Nat) (c : HtpBodyChunk)
    (h0 : cur ≠ 0) (hg : heapGet s.chunks cur = some c)
    (hlt : (c.stream_offset + c.len) % UINT64_MOD < s.htud.body_parsed)
    (hdata : c.data ≠ 0 → (heapGet s.bufs c.data).isSome = true) :
    pruneLoop (fuel + 1) s cur = pruneLoop fuel (pruneStep s cur c) c.next := by
  have hnge : ¬ s.htud.body_parsed ≤ (c.stream_offset + c.len) % UINT64_MOD := by omega
  simp only [pruneLoop, h0, if_false, hg, ge_iff_le, hnge]
  have hz : ¬ s.htud.body.nchunks > 0 → s.htud.body.nchunks - 1 = s.htud.body.nchunks := by
    intro h; omega
  by_cases hd : c.data = 0
  · by_cases hl : s.htud.body.last = cur <;> by_cases hn : s.htud.body.nchunks > 0 <;>
      simp [hd, SCFree, h0, hg, hl, hn, pruneStep, hz]
  · have := hdata hd
    by_cases hl : s.htud.body.last = cur <;> by_cases hn : s.htud.body.nchunks > 0 <;>
      simp [hd, SCFree, h0, hg, hl, hn, pruneStep, this, hz]

theorem wf_cons_head {s : Machine} {v : Chunk} {l : List Chunk} (hwf : WF s (v :: l)) :
    s.htud.body.first = v.addr ∧ v.addr ≠ 0 ∧ v.addr ∉ l.map Chunk.addr ∧
      ∃ c, heapGet s.chunks v.addr = some c ∧ c.view v.addr = v ∧ IsChain s.chunks c.next l := by
  have hc := hwf.1
  have hv := isChain_head_addr hc
  obtain ⟨h0, hn, c, hg, hcv, hr⟩ := (isChain_cons _ _ _ _).1 hc
  rw [← hv] at hg hcv h0
  exact ⟨hv.symm, h0, hn, c, hg, hcv, hr⟩

theorem view_data {c : HtpBodyChunk} {a : Nat} {v : Chunk} (h : c.view a = v) :
    c.data = v.data := by rw [← h]; rfl

theorem view_endOffset {c : HtpBodyChunk} {a : Nat} {v : Chunk} (h : c.view a = v) :
    (c.stream_offset + c.len) % UINT64_MOD = v.endOffset := by rw [← h]; rfl

theorem wf_pruneStep {s : Machine} {v : Chunk} {l : List Chunk} {c : HtpBodyChunk}
    (hwf : WF s (v :: l)) (hg : heapGet s.chunks v.addr = some c) :
    WF (pruneStep s v.addr c) l := by
  obtain ⟨hfirst, h0, hn, c', hg', hcv, hr⟩ := wf_cons_head hwf
  have hcc : c' = c := by rw [hg] at hg'; exact (Option.some.inj hg').symm
  subst hcc
  obtain ⟨hc, hl, hcnt, hdl, hds⟩ := hwf
  have hvd := view_data hcv
  refine ⟨?_, ?_, ?_, ?_, ?_⟩
  · show IsChain (heapDel s.chunks v.addr) c'.next l
    refine isChain_congr (fun w hw => ?_) hr
    have hne : v.addr ≠ w.addr := fun he => hn (he ▸ List.mem_map_of_mem _ hw)
    simp [heapGet_heapDel, hne]
  · show (if s.htud.body.last = v.addr then c'.next else s.htud.body.last) = lastAddr l
    cases l with
    | nil =>
      have hnext : c'.next = 0 := hr
      rw [hl, lastAddr_singleton]
      simp [hnext, lastAddr_nil]
    | cons w l' =>
      rw [hl, lastAddr_cons_cons]
      have hmem := @lastAddr_mem (w :: l') (by simp)
      have hne : lastAddr (w :: l') ≠ v.addr := fun he => hn (he ▸ hmem)
      simp [hne]
  · show s.htud.body.nchunks - 1 = l.length
    rw [hcnt]; simp
  · intro w hw hw0
    have hlive := hdl w (List.mem_cons_of_mem _ hw) hw0
    show (heapGet (if c'.data ≠ 0 then heapDel s.bufs c'.data else s.bufs) w.data).isSome = true
    by_cases hd : c'.data = 0
    · simpa [hd] using hlive
    · have hne : c'.data ≠ w.data := by
        intro he
        rw [dataAddrs_cons] at hds
        rw [hvd] at hd he
        simp only [ne_eq, hd, not_false_eq_true, if_true, List.nodup_cons] at hds
        apply hds.1
        rw [he]
        exact mem_dataAddrs.2 ⟨hw0, w, hw, rfl⟩
      simpa [hd, heapGet_heapDel, hne] using hlive
  · rw [dataAddrs_cons] at hds
    split at hds
    · exact (List.nodup_cons.1 hds).2
    · exact hds

theorem prunedChunks_cons (p : Nat) (v : Chunk) (l : List Chunk) :
    prunedChunks p (v :: l) = if v.endOffset < p then v :: prunedChunks p l else [] := by
  by_cases h : v.endOffset < p <;> simp [prunedChunks, List.takeWhile_cons, h]

theorem retainedChunks_cons (p : Nat) (v : Chunk) (l : List Chunk) :
    retainedChunks p (v :: l) = if v.endOffset < p then retainedChunks p l else v :: l := by
  by_cases h : v.endOffset < p <;> simp [retainedChunks, List.dropWhile_cons, h]

theorem pruned_append_retained (p : Nat) (L : List Chunk) :
    prunedChunks p L ++ retainedChunks p L = L := by
  simp [prunedChunks, retainedChunks, List.takeWhile_append_dropWhile]

/-- The loop of `HtpBodyPrune`, started at `first` on a well-formed buffer,
terminates, keeps the buffer well-formed with the retained chunks, releases
the records and data of the removed chunks and touches nothing else. -/
theorem pruneLoop_ok :
    ∀ (L : List Chunk) (fuel : Nat) (s : Machine), WF s L → L.length < fuel →
      ∃ s', pruneLoop fuel s s.htud.body.first = some s' ∧
        WF s' (retainedChunks s.htud.body_parsed L) ∧
        s'.htud.content_len_so_far = s.htud.content_len_so_far ∧
        s'.htud.body_parsed = s.htud.body_parsed ∧
        s'.htud.body.operation = s.htud.body.operation ∧
        (∀ a, a ∉ (prunedChunks s.htud.body_parsed L).map Chunk.addr →
          heapGet s'.chunks a = heapGet s.chunks a) ∧
        (∀ a ∈ (prunedChunks s.htud.body_parsed L).map Chunk.addr,
          heapGet s'.chunks a = none) ∧
        (∀ a, a ∉ dataAddrs (prunedChunks s.htud.body_parsed L) →
          heapGet s'.bufs a = heapGet s.bufs a) ∧
        (∀ a ∈ dataAddrs (prunedChunks s.htud.body_parsed L), heapGet s'.bufs a = none) := by
  intro L
  induction L with
  | nil =>
    intro fuel s hwf hf
    obtain ⟨k, rfl⟩ : ∃ k, fuel = k + 1 := ⟨fuel - 1, by simp at hf; omega⟩
    have h0 : s.htud.body.first = 0 := hwf.1
    refine ⟨s, by rw [h0]; exact pruneLoop_null k s, hwf, rfl, rfl, rfl, ?_, ?_, ?_, ?_⟩ <;>
      simp [prunedChunks, dataAddrs]
  | cons v l ih =>
    intro fuel s hwf hf
    obtain ⟨k, rfl⟩ : ∃ k, fuel = k + 1 := ⟨fuel - 1, by simp at hf; omega⟩
    obtain ⟨hfirst, h0, hn, c, hg, hcv, hr⟩ := wf_cons_head hwf
    have hend := view_endOffset hcv
    have hvd := view_data hcv
    by_cases hlt : v.endOffset < s.htud.body_parsed
    · -- the chunk is released and the loop goes on
      have hdata : c.data ≠ 0 → (heapGet s.bufs c.data).isSome = true := by
        intro hd
        rw [hvd] at hd ⊢
        exact hwf.2.2.2.1 v (List.mem_cons_self _ _) hd
      have hstep := pruneLoop_remove k s v.addr c h0 hg (by rw [hend]; exact hlt) hdata
      have hwf1 := wf_pruneStep hwf hg
      have hlen : l.length < k := by simp at hf; omega
      obtain ⟨s', hrun, hwf', hcl, hbp, hop, hfr, hrel, hdfr, hdrel⟩ := ih k _ hwf1 hlen
      have hp1 : (pruneStep s v.addr c).htud.body_parsed = s.htud.body_parsed := rfl
      have hf1 : (pruneStep s v.addr c).htud.body.first = c.next := rfl
      rw [hp1] at hwf' hfr hrel hdfr hdrel
      rw [hf1] at hrun
      have hnd : (List.map Chunk.addr (v :: l)).Nodup := isChain_nodup hwf.1
      have hvl : v.addr ∉ (prunedChunks s.htud.body_parsed l).map Chunk.addr := by
        intro hm
        apply hn
        obtain ⟨w, hw, hwa⟩ := List.mem_map.1 hm
        exact List.mem_map.2 ⟨w, (List.takeWhile_sublist _).subset hw, hwa⟩
      refine ⟨s', ?_, ?_, ?_, ?_, ?_, ?_, ?_, ?_, ?_⟩
      · rw [hfirst, hstep]; exact hrun
      · rw [retainedChunks_cons]; simpa [hlt] using hwf'
      · rw [hcl]; rfl
      · rw [hbp]; rfl
      · rw [hop]; rfl
      · intro a ha
        rw [prunedChunks_cons] at ha
        simp only [hlt, if_true, List.map_cons, List.mem_cons, not_or] at ha
        rw [hfr a ha.2]
        show heapGet (heapDel s.chunks v.addr) a = _
        simp [heapGet_heapDel, Ne.symm ha.1]
      · intro a ha
        rw [prunedChunks_cons] at ha
        simp only [hlt, if_true, List.map_cons, List.mem_cons] at ha
        rcases ha with rfl | ha
        · rw [hfr _ hvl]
          show heapGet (heapDel s.chunks v.addr) v.addr = _
          simp [heapGet_heapDel]
        · exact hrel a ha
      · intro a ha
        rw [prunedChunks_cons] at ha
        simp only [hlt, if_true] at ha
        rw [dataAddrs_cons] at ha
        by_cases hd : v.data = 0
        · simp only [ne_eq, hd, not_true_eq_false, if_false] at ha
          rw [hdfr a ha]
          show heapGet (if c.data ≠ 0 then heapDel s.bufs c.data else s.bufs) a = _
          simp [hvd, hd]
        · simp only [ne_eq, hd, not_false_eq_true, if_true, List.mem_cons, not_or] at ha
          rw [hdfr a ha.2]
          show heapGet (if c.data ≠ 0 then heapDel s.bufs c.data else s.bufs) a = _
          simp [hvd, hd, heapGet_heapDel, Ne.symm ha.1]
      · intro a ha
        rw [prunedChunks_cons] at ha
        simp only [hlt, if_true] at ha
        rw [dataAddrs_cons] at ha
        by_cases hd : v.data = 0
        · simp only [ne_eq, hd, not_true_eq_false, if_false] at ha
          exact hdrel a ha
        · simp only [ne_eq, hd, not_false_eq_true, if_true, List.mem_cons] at ha
          rcases ha with rfl | ha
          · by_cases hin : v.data ∈ dataAddrs (prunedChunks s.htud.body_parsed l)
            · exact hdrel _ hin
            · rw [hdfr _ hin]
              show heapGet (if c.data ≠ 0 then heapDel s.bufs c.data else s.bufs) v.data = _
              simp [hvd, hd, heapGet_heapDel]
          · exact hdrel a ha
    · -- the loop stops at this chunk
      have hstop := pruneLoop_stop k s v.addr c hg (by rw [hend]; omega)
      refine ⟨s, by rw [hfirst]; exact hstop, ?_, rfl, rfl, rfl, ?_, ?_, ?_, ?_⟩
      · rw [retainedChunks_cons]; simpa [hlt] using hwf
      all_goals (rw [prunedChunks_cons]; simp [hlt, dataAddrs])

theorem retainedChunks_zero (L : List Chunk) : retainedChunks 0 L = L := by
  cases L <;> simp [retainedChunks, List.dropWhile_cons]

theorem prunedChunks_zero (L : List Chunk) : prunedChunks 0 L = [] := by
  cases L <;> simp [prunedChunks, List.takeWhile_cons]

/-- `HtpBodyPrune` on a well-formed buffer: it returns, the buffer is
well-formed with the retained chunks, the removed chunks are released and
nothing else changes. -/
theorem prune_ok (s : Machine) (L : List Chunk) (hwf : WF s L) :
    ∃ s', HtpBodyPrune s = some s' ∧
      WF s' (retainedChunks s.htud.body_parsed L) ∧
      s'.htud.content_len_so_far = s.htud.content_len_so_far ∧
      s'.htud.body_parsed = s.htud.body_parsed ∧
      s'.htud.body.operation = s.htud.body.operation ∧
      (∀ a, a ∉ (prunedChunks s.htud.body_parsed L).map Chunk.addr →
        heapGet s'.chunks a = heapGet s.chunks a) ∧
      (∀ a ∈ (prunedChunks s.htud.body_parsed L).map Chunk.addr,
        heapGet s'.chunks a = none) ∧
      (∀ a, a ∉ dataAddrs (prunedChunks s.htud.body_parsed L) →
        heapGet s'.bufs a = heapGet s.bufs a) ∧
      (∀ a ∈ dataAddrs (prunedChunks s.htud.body_parsed L), heapGet s'.bufs a = none) ∧
      (s.htud.body_parsed = 0 ∨ L = [] → s' = s) := by
  by_cases hn : s.htud.body.nchunks = 0
  · have hL : L = [] := (wf_nchunks_eq_zero_iff hwf).1 hn
    subst hL
    refine ⟨s, by simp [HtpBodyPrune, hn], hwf, rfl, rfl, rfl, ?_, ?_, ?_, ?_, fun _ => rfl⟩ <;>
      simp [prunedChunks, dataAddrs]
  · by_cases hp : s.htud.body_parsed = 0
    · refine ⟨s, by simp [HtpBodyPrune, hn, hp], ?_, rfl, rfl, rfl, ?_, ?_, ?_, ?_, fun _ => rfl⟩
      · rw [hp, retainedChunks_zero]; exact hwf
      all_goals (rw [hp, prunedChunks_zero]; simp [dataAddrs])
    · have hfuel : L.length < s.chunks.length + 1 := by
        have := isChain_length_le hwf.1
        omega
      obtain ⟨s', hrun, h1, h2, h3, h4, h5, h6, h7, h8⟩ := pruneLoop_ok L _ s hwf hfuel
      refine ⟨s', by simp [HtpBodyPrune, hn, hp, hrun], h1, h2, h3, h4, h5, h6, h7, h8, ?_⟩
      rintro (h | h)
      · exact absurd h hp
      · exact absurd ((wf_nchunks_eq_zero_iff hwf).2 h) hn

theorem retained_head_ge (p : Nat) (L : List Chunk) (v : Chunk)
    (h : (retainedChunks p L).head? = some v) : p ≤ v.endOffset := by
  induction L with
  | nil => simp [retainedChunks] at h
  | cons w l ih =>
    rw [retainedChunks_cons] at h
    by_cases hlt : w.endOffset < p
    · simp only [hlt, if_true] at h
      exact ih h
    · simp only [hlt, if_false, List.head?_cons, Option.some.injEq] at h
      subst h
      omega

theorem pruned_lt (p : Nat) (L : List Chunk) : ∀ v ∈ prunedChunks p L, v.endOffset < p := by
  intro v hv
  have := List.mem_takeWhile_imp hv
  simpa using this

theorem dataAddrs_disjoint_of_append {A B : List Chunk} (h : (dataAddrs (A ++ B)).Nodup) :
    ∀ v ∈ B, v.data ∉ dataAddrs A := by
  intro v hv hmem
  rw [dataAddrs_append] at h
  have hd := List.disjoint_of_nodup_append h
  have hv0 : v.data ≠ 0 := (mem_dataAddrs.1 hmem).1
  exact hd hmem (mem_dataAddrs.2 ⟨hv0, v, hv, rfl⟩)

/-! ## C1: what a prune removes -/

/-- C1. On a well-formed buffer with chunk list `L`, `HtpBodyPrune` with
watermark `p = body_parsed` returns, and it removes exactly the longest initial
run of `L` whose chunks all have an end offset (`stream_offset + len`, as line
241 computes it) strictly below `p`: `L` splits into the removed run, whose end
offsets are all below `p`, and the kept rest, whose first chunk has an end
offset of at least `p`. The result is a well-formed buffer whose chunk list is
the kept rest, each chunk with the address, fields and bytes it had; the records
of the removed chunks are released; `nchunks` drops by the number of removed
chunks; `content_len_so_far` is unchanged; and when `p = 0` or the buffer is
empty the state does not change at all. -/
theorem HtpBodyPrune_removes_consumed_run (s : Machine) (L : List Chunk) (hwf : WF s L) :
    ∃ s', HtpBodyPrune s = some s' ∧
      L = prunedChunks s.htud.body_parsed L ++ retainedChunks s.htud.body_parsed L ∧
      (∀ v ∈ prunedChunks s.htud.body_parsed L, v.endOffset < s.htud.body_parsed) ∧
      (∀ v, (retainedChunks s.htud.body_parsed L).head? = some v →
        s.htud.body_parsed ≤ v.endOffset) ∧
      WF s' (retainedChunks s.htud.body_parsed L) ∧
      (∀ v ∈ retainedChunks s.htud.body_parsed L, s'.bytesOf v = s.bytesOf v) ∧
      (∀ v ∈ prunedChunks s.htud.body_parsed L, heapGet s'.chunks v.addr = none) ∧
      s'.htud.body.nchunks + (prunedChunks s.htud.body_parsed L).length =
        s.htud.body.nchunks ∧
      s'.htud.content_len_so_far = s.htud.content_len_so_far ∧
      (s.htud.body_parsed = 0 ∨ L = [] → s' = s) := by
  obtain ⟨s', hrun, hwf', hcl, _, _, _, hrel, hdfr, _, hsame⟩ := prune_ok s L hwf
  have hsplit := pruned_append_retained s.htud.body_parsed L
  refine ⟨s', hrun, hsplit.symm, pruned_lt _ _, retained_head_ge _ _, hwf', ?_, ?_, ?_, hcl,
    hsame⟩
  · intro v hv
    have hnd : (dataAddrs (prunedChunks s.htud.body_parsed L ++
        retainedChunks s.htud.body_parsed L)).Nodup := by
      rw [hsplit]; exact hwf.2.2.2.2
    exact hdfr _ (dataAddrs_disjoint_of_append hnd v hv)
  · intro v hv
    exact hrel _ (List.mem_map_of_mem _ hv)
  · have h1 := hwf'.2.2.1
    have h2 := hwf.2.2.1
    have h3 := congrArg List.length hsplit
    rw [List.length_append] at h3
    omega

set_option maxRecDepth 20000 in
/-- C1, the instances of P3 and of scenario B, each obtained from the theorem:
chunks `[0,10)`, `[10,25)`, `[25,40)` with watermark 10 (nothing removed) and
11 (only the first chunk removed); one chunk `[0,500)` with watermark 499 and
500 (kept) and 501 (removed). -/
theorem HtpBodyPrune_removes_consumed_run_witness :
    (∃ s', HtpBodyPrune (threeChunkMachine.setParsed 10) = some s' ∧
      WF s' threeChunkList ∧ s'.htud.body.nchunks = 3) ∧
    (∃ s', HtpBodyPrune (threeChunkMachine.setParsed 11) = some s' ∧
      WF s' (threeChunkList.drop 1) ∧ s'.htud.body.nchunks = 2 ∧
      s'.htud.content_len_so_far = 40) ∧
    (∃ s', HtpBodyPrune (singleChunkMachine.setParsed 499) = some s' ∧
      WF s' singleChunkList ∧ s'.htud.body.nchunks = 1) ∧
    (∃ s', HtpBodyPrune (singleChunkMachine.setParsed 500) = some s' ∧
      WF s' singleChunkList ∧ s'.htud.body.nchunks = 1) ∧
    (∃ s', HtpBodyPrune (singleChunkMachine.setParsed 501) = some s' ∧
      WF s' [] ∧ s'.htud.body.nchunks = 0) ∧
    HtpBodyPrune (threeChunkMachine.setParsed 0) = some (threeChunkMachine.setParsed 0) ∧
    HtpBodyPrune (emptyMachine.setParsed 7) = some (emptyMachine.setParsed 7) := by
  refine ⟨?_, ?_, ?_, ?_, ?_, ?_, ?_⟩
  · obtain ⟨s', h1, _, _, _, h5, _, _, h8, _, _⟩ :=
      HtpBodyPrune_removes_consumed_run (threeChunkMachine.setParsed 10) threeChunkList
        (by decide)
    exact ⟨s', h1, h5, by simpa using h8⟩
  · obtain ⟨s', h1, _, _, _, h5, _, _, h8, h9, _⟩ :=
      HtpBodyPrune_removes_consumed_run (threeChunkMachine.setParsed 11) threeChunkList
        (by decide)
    refine ⟨s', h1, h5, ?_, h9⟩
    have h8' : s'.htud.body.nchunks + 1 = 3 := h8
    omega
  · obtain ⟨s', h1, _, _, _, h5, _, _, h8, _, _⟩ :=
      HtpBodyPrune_removes_consumed_run (singleChunkMachine.setParsed 499) singleChunkList
        (by decide)
    exact ⟨s', h1, h5, by simpa using h8⟩
  · obtain ⟨s', h1, _, _, _, h5, _, _, h8, _, _⟩ :=
      HtpBodyPrune_removes_consumed_run (singleChunkMachine.setParsed 500) singleChunkList
        (by decide)
    exact ⟨s', h1, h5, by simpa using h8⟩
  · obtain ⟨s', h1, _, _, _, h5, _, _, h8, _, _⟩ :=
      HtpBodyPrune_removes_consumed_run (singleChunkMachine.setParsed 501) singleChunkList
        (by decide)
    refine ⟨s', h1, h5, ?_⟩
    have h8' : s'.htud.body.nchunks + 1 = 1 := h8
    omega
  · obtain ⟨s', h1, _, _, _, _, _, _, _, _, h10⟩ :=
      HtpBodyPrune_removes_consumed_run (threeChunkMachine.setParsed 0) threeChunkList
        (by decide)
    rw [h1, h10 (Or.inl rfl)]
  · obtain ⟨s', h1, _, _, _, _, _, _, _, _, h10⟩ :=
      HtpBodyPrune_removes_consumed_run (emptyMachine.setParsed 7) [] (by decide)
    rw [h1, h10 (Or.inr rfl)]

/-! ## Sequences of appends -/

theorem append_empty_input (s : Machine) (data : Option (List Nat)) (len m1 m2 : Nat)
    (h : len = 0 ∨ data = none) : HtpBodyAppendChunk s data len m1 m2 = some (s, 0) := by
  cases data with
  | none => rfl
  | some d =>
    rcases h with h | h
    · simp [HtpBodyAppendChunk, h]
    · exact Option.noConfusion h

theorem nonEmpty_iff (c : AppendCall) :
    c.nonEmpty = true ↔ (∃ d, c.data = some d) ∧ c.len ≠ 0 := by
  cases hd : c.data <;> simp [AppendCall.nonEmpty, hd]

theorem nonEmpty_false_iff (c : AppendCall) :
    c.nonEmpty = false ↔ c.len = 0 ∨ c.data = none := by
  cases hd : c.data <;> simp [AppendCall.nonEmpty, hd]

theorem appendsInv_step (s s' : Machine) (N : List AppendCall) (L : List Chunk)
    (c : AppendCall) (hinv : AppendsInv s N L) (hne : c.nonEmpty = true)
    (hrun : HtpBodyAppendChunk s c.data c.len c.m1 c.m2 = some (s', 0))
    (hcnt : N.length + 1 < UINT32_MOD) :
    AppendsInv s' (N ++ [c]) (L ++ [appendedChunk s c.len c.m1 c.m2]) := by
  obtain ⟨hwf, haddr, hdata, hlen, hbytes, hid, hnum⟩ := hinv
  obtain ⟨⟨d, hd⟩, hl0⟩ := (nonEmpty_iff c).1 hne
  rw [hd] at hrun
  obtain ⟨hm1, hf1, hm2, hf2, hdl⟩ := append_success_inv s s' d c.len c.m1 c.m2 hl0 hrun
  obtain ⟨s'', hrun', hwf', hn', _, htot', _, hbufs, _⟩ :=
    append_ok s L d c.len c.m1 c.m2 hwf hl0 hdl hm1 hf1 hm2 hf2
  have hs : s'' = s' := by
    rw [hrun] at hrun'
    exact ((Prod.mk.inj (Option.some.inj hrun')).1).symm
  subst hs
  have hLN : L.length = N.length := by
    have := congrArg List.length hlen
    simpa using this
  have hnch : s.htud.body.nchunks = L.length := hwf.2.2.1
  refine ⟨hwf' (by omega), ?_, ?_, ?_, ?_, ?_, ?_⟩
  · simp [haddr, appendedChunk_addr]
  · simp [hdata, appendedChunk_data]
  · simp [hlen, appendedChunk_len]
  · rw [List.map_append, List.map_append, ← hbytes]
    congr 1
    · apply List.map_congr_left
      intro v hv
      have hsome : ∃ b, s.bytesOf v = some b := by
        have hmem : s.bytesOf v ∈ L.map s.bytesOf := List.mem_map_of_mem _ hv
        rw [hbytes] at hmem
        obtain ⟨c', _, hc'⟩ := List.mem_map.1 hmem
        exact ⟨_, hc'.symm⟩
      obtain ⟨b, hsome⟩ := hsome
      have hne2 : c.m2 ≠ v.data := by
        intro he
        unfold Machine.bytesOf at hsome
        rw [← he, hf2] at hsome
        exact Option.noConfusion hsome
      unfold Machine.bytesOf
      rw [hbufs, heapGet_heapSet]
      simp [hne2]
    · simp [Machine.bytesOf, hbufs, appendedChunk_data, heapGet_heapSet, AppendCall.payload, hd]
  · intro i v hv
    by_cases hi : i < L.length
    · rw [List.getElem?_append_left hi] at hv
      exact hid i v hv
    · have hi' : i = L.length := by
        have := (List.getElem?_eq_some.1 hv).1
        simp at this
        omega
      subst hi'
      simp at hv
      subst hv
      unfold appendedChunk
      by_cases hn0 : s.htud.body.nchunks = 0
      · have hL : L.length = 0 := by omega
        simp [hn0, hL]
      · have hL : L.length ≠ 0 := by omega
        simp only [hn0, if_false, hL]
        rw [hnch]
        exact Nat.mod_eq_of_lt (by omega)
  · intro hsum
    rw [List.map_append, List.sum_append] at hsum
    simp only [List.map_cons, List.map_nil, List.sum_cons, List.sum_nil, appendedChunk_len,
      Nat.add_zero] at hsum
    obtain ⟨hoff, htot⟩ := hnum (by omega)
    refine ⟨?_, ?_⟩
    · intro i v hv
      rw [List.map_append]
      by_cases hi : i < L.length
      · rw [List.getElem?_append_left hi] at hv
        rw [List.take_append_of_le_length (by simp; omega)]
        exact hoff i v hv
      · have hi' : i = L.length := by
          have := (List.getElem?_eq_some.1 hv).1
          simp at this
          omega
        subst hi'
        simp at hv
        subst hv
        rw [List.take_append_of_le_length (by simp), List.take_of_length_le (by simp)]
        unfold appendedChunk
        by_cases hn0 : s.htud.body.nchunks = 0
        · have hL : L = [] := List.length_eq_zero.1 (by omega)
          simp [hn0, hL]
        · have hL : L ≠ [] := fun h => hn0 (by rw [hnch, h]; rfl)
          simp [hn0, htot hL]
    · intro _
      rw [htot', List.map_append, List.sum_append]
      unfold appendedTotal
      by_cases hn0 : s.htud.body.nchunks = 0
      · have hL : L = [] := List.length_eq_zero.1 (by omega)
        simp [hn0, hL, appendedChunk_len]
      · have hL : L ≠ [] := fun h => hn0 (by rw [hnch, h]; rfl)
        simp only [hn0, if_false, htot hL, List.map_cons, List.map_nil, List.sum_cons,
          List.sum_nil, appendedChunk_len, Nat.add_zero]
        exact Nat.mod_eq_of_lt hsum

theorem runAppends_append (s : Machine) (cs ds : List AppendCall) :
    runAppends s (cs ++ ds) = (runAppends s cs).bind (fun s1 => runAppends s1 ds) := by
  induction cs generalizing s with
  | nil => rfl
  | cons c cs ih =>
    simp only [List.cons_append, runAppends]
    cases hr : HtpBodyAppendChunk s c.data c.len c.m1 c.m2 with
    | none => rfl
    | some r =>
      obtain ⟨s1, r⟩ := r
      by_cases h0 : r = 0
      · simp [h0, ih]
      · simp [h0]

theorem runAppends_singleton (s s' : Machine) (c : AppendCall) :
    runAppends s [c] = some s' ↔
      HtpBodyAppendChunk s c.data c.len c.m1 c.m2 = some (s', 0) := by
  simp only [runAppends]
  cases hr : HtpBodyAppendChunk s c.data c.len c.m1 c.m2 with
  | none => simp
  | some r =>
    obtain ⟨s1, r⟩ := r
    by_cases h0 : r = 0
    · simp [h0]
    · simp [h0]

theorem appendsInv_nil (s : Machine) (h : WF s []) : AppendsInv s [] [] := by
  refine ⟨h, rfl, rfl, rfl, rfl, ?_, fun _ => ⟨?_, ?_⟩⟩
  · intro i v hv; simp at hv
  · intro i v hv; simp at hv
  · intro h; exact absurd rfl h

/-- After any sequence of successful appends to an empty buffer, without
overflow of the 32-bit chunk count, the state satisfies `AppendsInv` for the
calls with non-empty input. -/
theorem runAppends_inv (s0 : Machine) (h0 : WF s0 []) :
    ∀ (cs : List AppendCall) (s : Machine), runAppends s0 cs = some s →
      (nonEmptyCalls cs).length < UINT32_MOD →
      ∃ L, AppendsInv s (nonEmptyCalls cs) L := by
  intro cs
  induction cs using List.reverseRecOn with
  | nil =>
    intro s hrun _
    have hs : s0 = s := Option.some.inj hrun
    subst hs
    exact ⟨[], appendsInv_nil _ h0⟩
  | append_singleton cs c ih =>
    intro s hrun hcnt
    rw [runAppends_append] at hrun
    cases hmid : runAppends s0 cs with
    | none => rw [hmid] at hrun; exact Option.noConfusion hrun
    | some s1 =>
      rw [hmid] at hrun
      have hstep : HtpBodyAppendChunk s1 c.data c.len c.m1 c.m2 = some (s, 0) :=
        (runAppends_singleton s1 s c).1 hrun
      by_cases hne : c.nonEmpty = true
      · have hN : nonEmptyCalls (cs ++ [c]) = nonEmptyCalls cs ++ [c] := by
          simp [nonEmptyCalls, List.filter_append, hne]
        rw [hN] at hcnt ⊢
        simp only [List.length_append, List.length_singleton] at hcnt
        obtain ⟨L, hinv⟩ := ih s1 hmid (by omega)
        exact ⟨_, appendsInv_step s1 s _ L c hinv hne hstep hcnt⟩
      · have hne' : c.nonEmpty = false := by simpa using hne
        have hN : nonEmptyCalls (cs ++ [c]) = nonEmptyCalls cs := by
          simp [nonEmptyCalls, List.filter_append, hne']
        rw [hN] at hcnt ⊢
        have hs := append_empty_input s1 c.data c.len c.m1 c.m2 ((nonEmpty_false_iff c).1 hne')
        rw [hs] at hstep
        have hss : s1 = s := (Prod.mk.inj (Option.some.inj hstep)).1
        subst hss
        exact ih s1 hmid hcnt

/-! ## C2: contiguity of appended chunks -/

/-- C2 (P1). Let `cs` be any sequence of `HtpBodyAppendChunk` calls that all
return 0, run on an empty well-formed buffer with no other operation in
between, such that neither the 32-bit chunk count nor the 64-bit running total
overflows. Then the final buffer is well-formed with a chunk list `L` such that
the bytes of the chunks are, in order, the inputs `data[0..len)` of the calls
with non-empty input, the lengths are their lengths, the `stream_offset` of the
chunk at position `i` is the sum of the lengths of the non-empty inputs before
it, and `nchunks` is the number of calls with non-empty input. -/
theorem appends_contiguous (s0 s : Machine) (cs : List AppendCall) (h0 : WF s0 [])
    (hrun : runAppends s0 cs = some s)
    (hcnt : (nonEmptyCalls cs).length < UINT32_MOD)
    (hsum : ((nonEmptyCalls cs).map AppendCall.len).sum < UINT64_MOD) :
    ∃ L, WF s L ∧
      L.map s.bytesOf = (nonEmptyCalls cs).map (fun c => some c.payload) ∧
      L.map Chunk.len = (nonEmptyCalls cs).map AppendCall.len ∧
      (∀ i v, L[i]? = some v →
        v.stream_offset = (((nonEmptyCalls cs).map AppendCall.len).take i).sum) ∧
      s.htud.body.nchunks = (nonEmptyCalls cs).length := by
  obtain ⟨L, hwf, _, _, hlen, hbytes, _, hnum⟩ := runAppends_inv s0 h0 cs s hrun hcnt
  obtain ⟨hoff, _⟩ := hnum (by rw [hlen]; exact hsum)
  refine ⟨L, hwf, hbytes, hlen, ?_, ?_⟩
  · intro i v hv
    rw [← hlen]
    exact hoff i v hv
  · rw [hwf.2.2.1]
    have := congrArg List.length hlen
    simpa using this

/-- C2 at `exampleCalls`: three chunks `abc`, `de`, `fghi` at offsets 0, 3, 5. -/
theorem appends_contiguous_witness :
    runAppends emptyMachine exampleCalls = some exampleAppended ∧
    ∃ L, WF exampleAppended L ∧
      L.map exampleAppended.bytesOf =
        (nonEmptyCalls exampleCalls).map (fun c => some c.payload) ∧
      L.map Chunk.len = (nonEmptyCalls exampleCalls).map AppendCall.len ∧
      (∀ i v, L[i]? = some v →
        v.stream_offset = (((nonEmptyCalls exampleCalls).map AppendCall.len).take i).sum) ∧
      exampleAppended.htud.body.nchunks = (nonEmptyCalls exampleCalls).length :=
  ⟨by decide,
   appends_contiguous emptyMachine exampleAppended exampleCalls (by decide) (by decide)
     (by decide) (by decide)⟩

/-! ## Effects on the header fields, for arbitrary states -/

theorem appendError_htud (s : Machine) (bd : Nat) (r : Machine × Int)
    (h : appendError s bd = some r) : r.1.htud = s.htud ∧ r.1.chunks = s.chunks := by
  unfold appendError at h
  split at h
  · split at h
    · exact Option.noConfusion h
    · split at h
      · exact Option.noConfusion h
      · split at h
        · exact Option.noConfusion h
        · cases h; exact ⟨rfl, rfl⟩
  · cases h; exact ⟨rfl, rfl⟩

/-- A call that does not return 0 leaves the transaction data as it was. -/
theorem append_failure_htud (s s' : Machine) (data : Option (List Nat)) (len m1 m2 : Nat)
    (r : Int) (hr : r ≠ 0) (h : HtpBodyAppendChunk s data len m1 m2 = some (s', r)) :
    s'.htud = s.htud := by
  have hok : ∀ t : Machine, (some (t, (0 : Int)) = some (s', r)) → False := by
    intro t he
    exact hr ((Prod.mk.inj (Option.some.inj he)).2).symm
  unfold HtpBodyAppendChunk at h
  split at h
  · exact absurd h (hok _)
  · split at h
    · exact absurd h (hok _)
    · split at h
      · split at h
        · exact Option.noConfusion h
        · split at h
          · exact (appendError_htud _ _ _ h).1
          · split at h
            · exact Option.noConfusion h
            · split at h
              · exact (appendError_htud _ _ _ h).1
              · split at h
                · exact Option.noConfusion h
                · exact absurd h (hok _)
      · split at h
        · exact Option.noConfusion h
        · split at h
          · exact (appendError_htud _ _ _ h).1
          · split at h
            · exact Option.noConfusion h
            · split at h
              · exact (appendError_htud _ _ _ h).1
              · split at h
                · exact Option.noConfusion h
                · dsimp only at h
                  split at h
                  · exact Option.noConfusion h
                  · exact absurd h (hok _)

/-- What a successful call with non-empty input does, on any state: the record
at `m1` holds the new chunk, `last` points to it, the count and the running
total are advanced. -/
theorem append_success_effect (s s' : Machine) (d : List Nat) (len m1 m2 : Nat)
    (hlen : len ≠ 0) (h : HtpBodyAppendChunk s (some d) len m1 m2 = some (s', 0)) :
    (∃ c, heapGet s'.chunks m1 = some c ∧ c.view m1 = appendedChunk s len m1 m2) ∧
      s'.htud.content_len_so_far = appendedTotal s len ∧
      s'.htud.body.nchunks = (s.htud.body.nchunks + 1) % UINT32_MOD ∧
      s'.htud.body.last = m1 ∧
      s'.htud.body_parsed = s.htud.body_parsed := by
  obtain ⟨hm1, hf1, hm2, hf2, hd⟩ := append_success_inv s s' d len m1 m2 hlen h
  by_cases hn : s.htud.body.nchunks = 0
  · rw [append_eval_empty s d len m1 m2 hn hlen hd hm1 hf1 hm2 hf2] at h
    have hs := (Prod.mk.inj (Option.some.inj h)).1
    subst hs
    refine ⟨⟨{ data := m2, len := len, id := 0, next := 0, stream_offset := 0 }, ?_, ?_⟩,
      ?_, rfl, rfl, rfl⟩
    · simp [heapGet_heapSet]
    · simp [appendedChunk, hn, HtpBodyChunk.view]
    · simp [appendedTotal, hn]
  · have hd' : ¬ d.length < len := by omega
    simp only [HtpBodyAppendChunk, hlen, hn, validAlloc, hf1, hf2, hm1, hm2, hd', if_false,
      beq_iff_eq, Option.isNone_none, Bool.or_true, Bool.true_eq_false] at h
    split at h
    · exact Option.noConfusion h
    · rename_i l hl
      have hs := (Prod.mk.inj (Option.some.inj h)).1
      subst hs
      refine ⟨?_, ?_, rfl, rfl, rfl⟩
      · by_cases hlm : s.htud.body.last = m1
        · refine ⟨{ l with next := m1 }, ?_, ?_⟩
          · simp [heapGet_heapSet, hlm]
          · simp only [hlm, heapGet_heapSet, if_true, Option.some.injEq] at hl
            subst hl
            simp [appendedChunk, hn, HtpBodyChunk.view]
        · refine ⟨{ data := m2, len := len, id := (s.htud.body.nchunks + 1) % UINT32_MOD,
                    next := 0, stream_offset := s.htud.content_len_so_far }, ?_, ?_⟩
          · simp only [heapGet_heapSet, hlm, if_false, if_true]
          · simp [appendedChunk, hn, HtpBodyChunk.view]
      · simp [appendedTotal, hn]

theorem pruneLoop_htud :
    ∀ (fuel : Nat) (s : Machine) (cur : Nat) (s' : Machine),
      pruneLoop fuel s cur = some s' →
        s'.htud.content_len_so_far = s.htud.content_len_so_far ∧
        s'.htud.body_parsed = s.htud.body_parsed ∧
        s'.htud.body.nchunks ≤ s.htud.body.nchunks := by
  intro fuel
  induction fuel with
  | zero => intro s cur s' h; simp [pruneLoop] at h
  | succ k ih =>
    intro s cur s' h
    simp only [pruneLoop] at h
    split at h
    · cases h; exact ⟨rfl, rfl, le_refl _⟩
    · split at h
      · exact Option.noConfusion h
      · split at h
        · cases h; exact ⟨rfl, rfl, le_refl _⟩
        · split at h
          · exact Option.noConfusion h
          · split at h
            · exact Option.noConfusion h
            · obtain ⟨h1, h2, h3⟩ := ih _ _ _ h
              refine ⟨h1, h2, le_trans h3 ?_⟩
              dsimp only
              split <;> split <;> simp

theorem prune_htud (s s' : Machine) (h : HtpBodyPrune s = some s') :
    s'.htud.content_len_so_far = s.htud.content_len_so_far ∧
      s'.htud.body_parsed = s.htud.body_parsed ∧
      s'.htud.body.nchunks ≤ s.htud.body.nchunks := by
  unfold HtpBodyPrune at h
  split at h
  · cases h; exact ⟨rfl, rfl, le_refl _⟩
  · split at h
    · cases h; exact ⟨rfl, rfl, le_refl _⟩
    · exact pruneLoop_htud _ _ _ _ h

theorem free_htud (K : Nat) (s s' : Machine) (h : HtpBodyFree K s = some s') :
    s'.htud.content_len_so_far = s.htud.content_len_so_far ∧
      s'.htud.body_parsed = s.htud.body_parsed ∧
      s'.htud.body.nchunks = 0 ∧
      (s.htud.body.nchunks = 0 → s' = s) := by
  unfold HtpBodyFree at h
  split at h
  · rename_i hn
    cases h; exact ⟨rfl, rfl, hn, fun _ => rfl⟩
  · rename_i hn
    split at h
    · exact Option.noConfusion h
    · cases h; exact ⟨rfl, rfl, rfl, fun h0 => absurd h0 hn⟩

/-! ## C3: the offset given to an appended chunk -/

theorem totalsInv_append (s s1 : Machine) (t : Totals) (c : AppendCall) (r : Int)
    (hlen : c.len < UINT32_MOD) (hinv : TotalsInv s t)
    (h : HtpBodyAppendChunk s c.data c.len c.m1 c.m2 = some (s1, r)) :
    TotalsInv s1 (if r = 0 ∧ c.nonEmpty = true then t.record s c.len else t) := by
  by_cases hr : r = 0
  · subst hr
    by_cases hne : c.nonEmpty = true
    · obtain ⟨⟨d, hd⟩, hl0⟩ := (nonEmpty_iff c).1 hne
      rw [hd] at h
      obtain ⟨_, htot, _, _, _⟩ := append_success_effect s s1 d c.len c.m1 c.m2 hl0 h
      simp only [hne, and_self, if_true]
      intro _
      rw [htot]
      unfold appendedTotal Totals.record
      by_cases hn : s.htud.body.nchunks = 0
      · simp only [hn, if_true, Nat.zero_add]
        exact (Nat.mod_eq_of_lt (by unfold UINT32_MOD at hlen; unfold UINT64_MOD; omega)).symm
      · simp only [hn, if_false, hinv hn]
        show (t.sinceEmpty % UINT64_MOD + c.len) % UINT64_MOD =
          (t.sinceEmpty + c.len) % UINT64_MOD
        rw [Nat.add_mod, Nat.mod_mod, ← Nat.add_mod]
    · have hne' : c.nonEmpty = false := by simpa using hne
      rw [append_empty_input s c.data c.len c.m1 c.m2 ((nonEmpty_false_iff c).1 hne')] at h
      have hs := (Prod.mk.inj (Option.some.inj h)).1
      subst hs
      simpa [hne'] using hinv
  · have hh := append_failure_htud s s1 c.data c.len c.m1 c.m2 r hr h
    simp only [hr, false_and, if_false]
    intro hn
    rw [hh] at hn ⊢
    exact hinv hn

theorem runOps_totalsInv (K : Nat) :
    ∀ (ops : List Op) (s : Machine) (t : Totals) (s' : Machine) (t' : Totals),
      lensFit ops → TotalsInv s t → runOps K s t ops = some (s', t') → TotalsInv s' t' := by
  intro ops
  induction ops with
  | nil =>
    intro s t s' t' _ hinv hrun
    cases hrun
    exact hinv
  | cons op ops ih =>
    intro s t s' t' hfit hinv hrun
    have hfit' : lensFit ops := fun o ho => hfit o (List.mem_cons_of_mem _ ho)
    cases op with
    | append c =>
      simp only [runOps] at hrun
      cases hstep : HtpBodyAppendChunk s c.data c.len c.m1 c.m2 with
      | none => rw [hstep] at hrun; exact Option.noConfusion hrun
      | some res =>
        obtain ⟨s1, r⟩ := res
        rw [hstep] at hrun
        exact ih _ _ _ _ hfit'
          (totalsInv_append s s1 t c r
            (by simpa [Op.fits] using hfit (Op.append c) (List.mem_cons_self _ _)) hinv hstep) hrun
    | prune p =>
      simp only [runOps] at hrun
      cases hstep : HtpBodyPrune (s.setParsed p) with
      | none => rw [hstep] at hrun; exact Option.noConfusion hrun
      | some s1 =>
        rw [hstep] at hrun
        obtain ⟨h1, _, h3⟩ := prune_htud _ _ hstep
        refine ih _ _ _ _ hfit' ?_ hrun
        intro hn
        rw [h1]
        exact hinv (fun h0 => hn (by
          have : s1.htud.body.nchunks ≤ 0 := by
            have h3' : s1.htud.body.nchunks ≤ s.htud.body.nchunks := h3
            omega
          omega))
    | free =>
      simp only [runOps] at hrun
      cases hstep : HtpBodyFree K s with
      | none => rw [hstep] at hrun; exact Option.noConfusion hrun
      | some s1 =>
        rw [hstep] at hrun
        obtain ⟨_, _, h3, _⟩ := free_htud _ _ _ hstep
        exact ih _ _ _ _ hfit' (fun hn => absurd h3 hn) hrun

/-- C3, counterexample. Appending 5 bytes and pruning with watermark 6 drains
the buffer; 5 bytes have been appended and `content_len_so_far` is 5. The next
append, of 3 bytes, takes the `nchunks == 0` branch (lines 88-108): its chunk
gets `stream_offset` 0, not 5, and `content_len_so_far` becomes 3, not 8. -/
theorem append_after_drain_restarts :
    runOps 0 emptyMachine { ever := 0, sinceEmpty := 0 } drainOps =
      some (drainedMachine, { ever := 5, sinceEmpty := 5 }) ∧
    HtpBodyAppendChunk drainedMachine restartCall.data restartCall.len restartCall.m1
      restartCall.m2 = some (restartedMachine, 0) ∧
    heapGet restartedMachine.chunks restartCall.m1 =
      some { data := 1, len := 3, id := 0, next := 0, stream_offset := 0 } ∧
    restartedMachine.htud.content_len_so_far = 3 ∧
    ¬ OffsetIsTotalEver 0 emptyMachine drainOps restartCall := by
  refine ⟨by decide, by decide, by decide, by decide, ?_⟩
  intro h
  have h1 := (h drainedMachine { ever := 5, sinceEmpty := 5 } restartedMachine (by decide)
    (by decide) (by decide)).2
  revert h1
  decide

/-- C3, amended. Start from any state with an empty buffer (`nchunks == 0`) and
run any sequence of appends, prunes and frees whose `len` arguments fit
`uint32_t`; let `sinceEmpty` be the sum of the lengths of the chunks appended
since the last append that found the buffer empty. A following successful
append of non-empty input creates a chunk of length `len` at `m1` whose
`stream_offset` is 0 if the buffer is empty at the call and `sinceEmpty`
otherwise (in `uint64_t` arithmetic), which is the value of
`content_len_so_far` before the call; and it sets `content_len_so_far` to `len`
in the first case and advances it by exactly `len` in the second. -/
theorem append_offset_since_empty (K : Nat) (s0 s s' : Machine) (t : Totals)
    (ops : List Op) (c : AppendCall)
    (h0 : s0.htud.body.nchunks = 0) (hfit : lensFit ops)
    (hrun : runOps K s0 { ever := 0, sinceEmpty := 0 } ops = some (s, t))
    (hne : c.nonEmpty = true)
    (happ : HtpBodyAppendChunk s c.data c.len c.m1 c.m2 = some (s', 0)) :
    (∃ r, heapGet s'.chunks c.m1 = some r ∧ r.len = c.len ∧
      r.stream_offset =
        if s.htud.body.nchunks = 0 then 0 else t.sinceEmpty % UINT64_MOD) ∧
    (s.htud.body.nchunks ≠ 0 →
      s.htud.content_len_so_far = t.sinceEmpty % UINT64_MOD ∧
      s'.htud.content_len_so_far = (s.htud.content_len_so_far + c.len) % UINT64_MOD) ∧
    (s.htud.body.nchunks = 0 → s'.htud.content_len_so_far = c.len) := by
  have hinv : TotalsInv s t :=
    runOps_totalsInv K ops s0 _ s t hfit (fun hn => absurd h0 hn) hrun
  obtain ⟨⟨d, hd⟩, hl0⟩ := (nonEmpty_iff c).1 hne
  rw [hd] at happ
  obtain ⟨⟨r, hr, hview⟩, htot, _, _, _⟩ := append_success_effect s s' d c.len c.m1 c.m2 hl0 happ
  refine ⟨⟨r, hr, ?_, ?_⟩, ?_, ?_⟩
  · have := congrArg Chunk.len hview
    rw [appendedChunk_len] at this
    exact this
  · have := congrArg Chunk.stream_offset hview
    rw [show (r.view c.m1).stream_offset = r.stream_offset from rfl] at this
    rw [this]
    unfold appendedChunk
    by_cases hn : s.htud.body.nchunks = 0
    · simp [hn]
    · simp [hn, hinv hn]
  · intro hn
    refine ⟨hinv hn, ?_⟩
    rw [htot]; simp [appendedTotal, hn]
  · intro hn
    rw [htot]; simp [appendedTotal, hn]

/-- C3, amended, at an example: after `drainOps` and `restartCall` (5 bytes,
drain, 3 bytes) a further append of 2 bytes gets `stream_offset` 3. -/
theorem append_offset_since_empty_witness :
    runOps 0 emptyMachine { ever := 0, sinceEmpty := 0 } (drainOps ++ [Op.append restartCall]) =
      some (restartedMachine, { ever := 8, sinceEmpty := 3 }) ∧
    HtpBodyAppendChunk restartedMachine (some [9, 10]) 2 2 2 =
      some ({ htud := { body := { first := 1, last := 2, nchunks := 2, operation := 0 }
                        content_len_so_far := 5
                        body_parsed := 6 }
              chunks := [(1, { data := 1, len := 3, id := 0, next := 2, stream_offset := 0 }),
                         (2, { data := 2, len := 2, id := 2, next := 0, stream_offset := 3 })]
              bufs := [(2, [9, 10]), (1, [6, 7, 8])] }, 0) ∧
    ((restartedMachine.htud.body.nchunks ≠ 0 →
      restartedMachine.htud.content_len_so_far = 3 % UINT64_MOD ∧
      (5 : Nat) = (restartedMachine.htud.content_len_so_far + 2) % UINT64_MOD)) := by
  have hrun : runOps 0 emptyMachine { ever := 0, sinceEmpty := 0 }
      (drainOps ++ [Op.append restartCall]) =
      some (restartedMachine, { ever := 8, sinceEmpty := 3 }) := by decide
  have happ : HtpBodyAppendChunk restartedMachine (some [9, 10]) 2 2 2 =
      some ({ htud := { body := { first := 1, last := 2, nchunks := 2, operation := 0 }
                        content_len_so_far := 5
                        body_parsed := 6 }
              chunks := [(1, { data := 1, len := 3, id := 0, next := 2, stream_offset := 0 }),
                         (2, { data := 2, len := 2, id := 2, next := 0, stream_offset := 3 })]
              bufs := [(2, [9, 10]), (1, [6, 7, 8])] }, 0) := by decide
  exact ⟨hrun, happ,
    (append_offset_since_empty 0 emptyMachine restartedMachine _ _
      (drainOps ++ [Op.append restartCall])
      { data := some [9, 10], len := 2, m1 := 2, m2 := 2 }
      (by decide) (by decide) hrun (by decide) happ).2.1⟩

/-! ## C4, C5: failed and empty appends -/

theorem append_eval_fail_record (s : Machine) (d : List Nat) (len m2 : Nat) (hlen : len ≠ 0) :
    HtpBodyAppendChunk s (some d) len 0 m2 = some (s, -1) := by
  by_cases hn : s.htud.body.nchunks = 0 <;>
    simp [HtpBodyAppendChunk, hlen, hn, validAlloc, appendError]

theorem append_eval_fail_data (s : Machine) (d : List Nat) (len m1 : Nat) (hlen : len ≠ 0)
    (hm1 : m1 ≠ 0) (hf1 : heapGet s.chunks m1 = none) :
    HtpBodyAppendChunk s (some d) len m1 0 =
      some ({ s with chunks := heapSet s.chunks m1 (appendedRecord s len) }, -1) := by
  by_cases hn : s.htud.body.nchunks = 0 <;>
    simp [HtpBodyAppendChunk, hlen, hn, validAlloc, appendError, hm1, hf1, heapGet_heapSet,
      SCFree, appendedRecord]

theorem append_ret_neg_one_inv (s s' : Machine) (data : Option (List Nat)) (len m1 m2 : Nat)
    (h : HtpBodyAppendChunk s data len m1 m2 = some (s', -1)) :
    (∃ d, data = some d) ∧ len ≠ 0 ∧ (m1 = 0 ∨ m2 = 0) := by
  have hok : ∀ t : Machine, (some (t, (0 : Int)) = some (s', -1)) → False := by
    intro t he
    have := (Prod.mk.inj (Option.some.inj he)).2
    simp at this
  unfold HtpBodyAppendChunk at h
  split at h
  · exact absurd h (hok _)
  · rename_i d
    split at h
    · exact absurd h (hok _)
    · rename_i hlen
      refine ⟨⟨d, rfl⟩, hlen, ?_⟩
      split at h
      · split at h
        · exact Option.noConfusion h
        · split at h
          · rename_i hm; exact Or.inl hm
          · split at h
            · exact Option.noConfusion h
            · split at h
              · rename_i hm; exact Or.inr hm
              · split at h
                · exact Option.noConfusion h
                · exact absurd h (hok _)
      · split at h
        · exact Option.noConfusion h
        · split at h
          · rename_i hm; exact Or.inl hm
          · split at h
            · exact Option.noConfusion h
            · split at h
              · rename_i hm; exact Or.inr hm
              · split at h
                · exact Option.noConfusion h
                · dsimp only at h
                  split at h
                  · exact Option.noConfusion h
                  · exact absurd h (hok _)

/-- A call with non-empty input whose first or second allocation fails: the
result, on any state. -/
theorem append_failure_ok (s : Machine) (d : List Nat) (len m1 m2 : Nat) (hlen : len ≠ 0)
    (hfail : m1 = 0 ∨ (m1 ≠ 0 ∧ heapGet s.chunks m1 = none ∧ m2 = 0)) :
    ∃ s', HtpBodyAppendChunk s (some d) len m1 m2 = some (s', -1) ∧
      s'.htud = s.htud ∧
      s'.bufs = s.bufs ∧
      (∀ a c, heapGet s.chunks a = some c → heapGet s'.chunks a = some c) ∧
      (∀ L, WF s L → WF s' L) := by
  rcases hfail with h1 | ⟨hm1, hf1, hm2⟩
  · subst h1
    exact ⟨s, append_eval_fail_record s d len m2 hlen, rfl, rfl, fun _ _ h => h, fun _ h => h⟩
  · subst hm2
    refine ⟨_, append_eval_fail_data s d len m1 hlen hm1 hf1, rfl, rfl, ?_, ?_⟩
    · intro a c ha
      have hne : m1 ≠ a := by
        intro he; rw [he, ha] at hf1; exact Option.noConfusion hf1
      simp [heapGet_heapSet, hne, ha]
    · intro L hwf
      obtain ⟨hc, hl, hn, hdl, hds⟩ := hwf
      refine ⟨?_, hl, hn, hdl, hds⟩
      refine isChain_congr (fun v hv => ?_) hc
      obtain ⟨_, c, hg, _⟩ := isChain_live hc v hv
      have hne : m1 ≠ v.addr := by
        intro he; rw [he, hg] at hf1; exact Option.noConfusion hf1
      simp [heapGet_heapSet, hne]

/-- C4 (P6). For a call with non-empty input (`data` not `NULL`, `len` not 0):
if the allocation of the chunk record fails (`m1 = 0`), or the record is
allocated and the allocation of the data storage fails (`m2 = 0`), the call
returns -1, and `nchunks`, `first`, `last`, `content_len_so_far` (the whole of
`htud`), every data block and every chunk record that existed before the call
are the same after it; a well-formed buffer stays well-formed with the same
chunk list, so nothing is linked in. Conversely, whenever a call returns -1,
its input was non-empty and one of the two allocations failed. -/
theorem append_failure_atomic (s : Machine) (data : Option (List Nat)) (len m1 m2 : Nat) :
    (∀ d, data = some d → len ≠ 0 →
      (m1 = 0 ∨ (m1 ≠ 0 ∧ heapGet s.chunks m1 = none ∧ m2 = 0)) →
      ∃ s', HtpBodyAppendChunk s data len m1 m2 = some (s', -1) ∧
        s'.htud = s.htud ∧
        s'.bufs = s.bufs ∧
        (∀ a c, heapGet s.chunks a = some c → heapGet s'.chunks a = some c) ∧
        (∀ L, WF s L → WF s' L)) ∧
    (∀ s', HtpBodyAppendChunk s data len m1 m2 = some (s', -1) →
      (∃ d, data = some d) ∧ len ≠ 0 ∧ (m1 = 0 ∨ m2 = 0)) := by
  refine ⟨?_, fun s' h => append_ret_neg_one_inv s s' data len m1 m2 h⟩
  intro d hd hlen hfail
  subst hd
  exact append_failure_ok s d len m1 m2 hlen hfail

/-- C4 at `exampleAppended`: the record allocation fails; the record is
allocated at address 7 and the data allocation fails. -/
theorem append_failure_atomic_witness :
    (∃ s', HtpBodyAppendChunk exampleAppended (some [1, 2]) 2 0 5 = some (s', -1) ∧
      s'.htud = exampleAppended.htud ∧ s'.bufs = exampleAppended.bufs ∧
      (∀ a c, heapGet exampleAppended.chunks a = some c → heapGet s'.chunks a = some c) ∧
      (∀ L, WF exampleAppended L → WF s' L)) ∧
    (∃ s', HtpBodyAppendChunk exampleAppended (some [1, 2]) 2 7 0 = some (s', -1) ∧
      s'.htud = exampleAppended.htud ∧ s'.bufs = exampleAppended.bufs ∧
      (∀ a c, heapGet exampleAppended.chunks a = some c → heapGet s'.chunks a = some c) ∧
      (∀ L, WF exampleAppended L → WF s' L)) :=
  ⟨(append_failure_atomic exampleAppended (some [1, 2]) 2 0 5).1 [1, 2] rfl (by decide)
      (Or.inl rfl),
   (append_failure_atomic exampleAppended (some [1, 2]) 2 7 0).1 [1, 2] rfl (by decide)
      (Or.inr ⟨by decide, by decide, rfl⟩)⟩

/-- C5 (P2). A call with `len == 0` or with `data == NULL` returns 0 and the
state after it is the state before it, whatever the state and whatever the
allocator would answer: no allocation takes place. -/
theorem append_empty_is_noop (s : Machine) (data : Option (List Nat)) (len m1 m2 : Nat)
    (h : len = 0 ∨ data = none) : HtpBodyAppendChunk s data len m1 m2 = some (s, 0) :=
  append_empty_input s data len m1 m2 h

/-- C5 at `exampleAppended`: an empty slice, and a `NULL` pointer, with an
allocator that would fail. -/
theorem append_empty_is_noop_witness :
    HtpBodyAppendChunk exampleAppended (some []) 0 0 0 = some (exampleAppended, 0) ∧
    HtpBodyAppendChunk exampleAppended none 0 0 0 = some (exampleAppended, 0) ∧
    HtpBodyAppendChunk exampleAppended none 4 0 0 = some (exampleAppended, 0) :=
  ⟨append_empty_is_noop exampleAppended (some []) 0 0 0 (Or.inl rfl),
   append_empty_is_noop exampleAppended none 0 0 0 (Or.inl rfl),
   append_empty_is_noop exampleAppended none 4 0 0 (Or.inr rfl)⟩

/-! ## The free loop -/

theorem freeLoop_null (fuel : Nat) (ch : List (Nat × HtpBodyChunk)) (bf : List (Nat × List Nat)) :
    freeLoop (fuel + 1) ch bf 0 = some (ch, bf) := by
  simp [freeLoop]

theorem freeLoop_step (fuel : Nat) (ch : List (Nat × HtpBodyChunk)) (bf : List (Nat × List Nat))
    (prev : Nat) (c : HtpBodyChunk) (h0 : prev ≠ 0) (hg : heapGet ch prev = some c)
    (hdata : c.data ≠ 0 → (heapGet bf c.data).isSome = true) :
    freeLoop (fuel + 1) ch bf prev =
      freeLoop fuel (heapDel ch prev) (if c.data ≠ 0 then heapDel bf c.data else bf) c.next := by
  simp only [freeLoop, h0, if_false, hg]
  by_cases hd : c.data = 0
  · simp [hd, SCFree, h0, hg]
  · simp [hd, SCFree, h0, hg, hdata hd]

/-- The loop of `HtpBodyFree`, started at the head of a chain whose chunks own
their data, terminates and releases exactly the records and data blocks of the
chain. -/
theorem freeLoop_ok :
    ∀ (L : List Chunk) (fuel : Nat) (ch : List (Nat × HtpBodyChunk))
      (bf : List (Nat × List Nat)) (p : Nat),
      IsChain ch p L →
      (∀ v ∈ L, v.data ≠ 0 → (heapGet bf v.data).isSome = true) →
      (dataAddrs L).Nodup → L.length < fuel →
      ∃ ch' bf', freeLoop fuel ch bf p = some (ch', bf') ∧
        (∀ a ∈ L.map Chunk.addr, heapGet ch' a = none) ∧
        (∀ a, a ∉ L.map Chunk.addr → heapGet ch' a = heapGet ch a) ∧
        (∀ a ∈ dataAddrs L, heapGet bf' a = none) ∧
        (∀ a, a ∉ dataAddrs L → heapGet bf' a = heapGet bf a) := by
  intro L
  induction L with
  | nil =>
    intro fuel ch bf p hc _ _ hf
    obtain ⟨k, rfl⟩ : ∃ k, fuel = k + 1 := ⟨fuel - 1, by simp at hf; omega⟩
    have hp : p = 0 := hc
    subst hp
    refine ⟨ch, bf, freeLoop_null k ch bf, ?_, ?_, ?_, ?_⟩ <;> simp [dataAddrs]
  | cons v l ih =>
    intro fuel ch bf p hc hdl hds hf
    obtain ⟨k, rfl⟩ : ∃ k, fuel = k + 1 := ⟨fuel - 1, by simp at hf; omega⟩
    have hv := isChain_head_addr hc
    obtain ⟨h0, hn, c, hg, hcv, hr⟩ := (isChain_cons _ _ _ _).1 hc
    have hvd := view_data hcv
    have hdata : c.data ≠ 0 → (heapGet bf c.data).isSome = true := by
      intro hd
      rw [hvd] at hd ⊢
      exact hdl v (List.mem_cons_self _ _) hd
    have hstep := freeLoop_step k ch bf p c h0 hg hdata
    have hr' : IsChain (heapDel ch p) c.next l := by
      refine isChain_congr (fun w hw => ?_) hr
      have hne : p ≠ w.addr := fun he => hn (by rw [hv, he]; exact List.mem_map_of_mem _ hw)
      simp [heapGet_heapDel, hne]
    have hds' : (dataAddrs l).Nodup := by
      rw [dataAddrs_cons] at hds
      split at hds
      · exact (List.nodup_cons.1 hds).2
      · exact hds
    have hvl : v.data ≠ 0 → v.data ∉ dataAddrs l := by
      intro hd
      rw [dataAddrs_cons] at hds
      simp only [ne_eq, hd, not_false_eq_true, if_true] at hds
      exact (List.nodup_cons.1 hds).1
    have hdl' : ∀ w ∈ l, w.data ≠ 0 →
        (heapGet (if c.data ≠ 0 then heapDel bf c.data else bf) w.data).isSome = true := by
      intro w hw hw0
      have hlive := hdl w (List.mem_cons_of_mem _ hw) hw0
      by_cases hd : c.data = 0
      · simpa [hd] using hlive
      · have hne : c.data ≠ w.data := by
          intro he
          rw [hvd] at hd he
          exact hvl hd (he ▸ mem_dataAddrs.2 ⟨hw0, w, hw, rfl⟩)
        simpa [hd, heapGet_heapDel, hne] using hlive
    obtain ⟨ch', bf', hrun, hrel, hfr, hdrel, hdfr⟩ :=
      ih k _ _ c.next hr' hdl' hds' (by simp at hf; omega)
    refine ⟨ch', bf', by rw [hstep]; exact hrun, ?_, ?_, ?_, ?_⟩
    · intro a ha
      simp only [List.map_cons, List.mem_cons] at ha
      by_cases hal : a ∈ l.map Chunk.addr
      · exact hrel a hal
      · rcases ha with rfl | ha
        · rw [hfr _ hal, hv]
          simp [heapGet_heapDel]
        · exact absurd ha hal
    · intro a ha
      simp only [List.map_cons, List.mem_cons, not_or] at ha
      rw [hfr a ha.2]
      have hne : p ≠ a := by rw [← hv]; exact Ne.symm ha.1
      simp [heapGet_heapDel, hne]
    · intro a ha
      by_cases hal : a ∈ dataAddrs l
      · exact hdrel a hal
      · rw [hdfr a hal]
        rw [dataAddrs_cons] at ha
        by_cases hd : v.data = 0
        · simp only [ne_eq, hd, not_true_eq_false, if_false] at ha
          exact absurd ha hal
        · simp only [ne_eq, hd, not_false_eq_true, if_true, List.mem_cons] at ha
          rcases ha with rfl | ha
          · simp [hvd, hd, heapGet_heapDel]
          · exact absurd ha hal
    · intro a ha
      rw [dataAddrs_cons] at ha
      by_cases hd : v.data = 0
      · simp only [ne_eq, hd, not_true_eq_false, if_false] at ha
        rw [hdfr a ha]
        simp [hvd, hd]
      · simp only [ne_eq, hd, not_false_eq_true, if_true, List.mem_cons, not_or] at ha
        rw [hdfr a ha.2]
        simp [hvd, hd, heapGet_heapDel, Ne.symm ha.1]

/-! ## C7, C8: emptying the buffer -/

theorem retainedChunks_eq_nil (p : Nat) (L : List Chunk) (h : ∀ v ∈ L, v.endOffset < p) :
    retainedChunks p L = [] := by
  induction L with
  | nil => rfl
  | cons v l ih =>
    rw [retainedChunks_cons]
    simp only [h v (List.mem_cons_self _ _), if_true]
    exact ih (fun w hw => h w (List.mem_cons_of_mem _ hw))

theorem prunedChunks_eq_self (p : Nat) (L : List Chunk) (h : ∀ v ∈ L, v.endOffset < p) :
    prunedChunks p L = L := by
  have h1 := pruned_append_retained p L
  rw [retainedChunks_eq_nil p L h, List.append_nil] at h1
  exact h1

/-- C7. If the buffer is well-formed and every chunk has its end offset
strictly below `body_parsed`, `HtpBodyPrune` returns with `first == NULL`,
`last == NULL` and `nchunks == 0`, every record of the list released; this
holds for every chunk list, empty or not. -/
theorem HtpBodyPrune_all_below_empties (s : Machine) (L : List Chunk) (hwf : WF s L)
    (hall : ∀ v ∈ L, v.endOffset < s.htud.body_parsed) :
    ∃ s', HtpBodyPrune s = some s' ∧
      s'.htud.body.first = 0 ∧ s'.htud.body.last = 0 ∧ s'.htud.body.nchunks = 0 ∧
      (∀ v ∈ L, heapGet s'.chunks v.addr = none) := by
  obtain ⟨s', hrun, hwf', _, _, _, _, hrel, _, _, _⟩ := prune_ok s L hwf
  rw [retainedChunks_eq_nil _ L hall] at hwf'
  rw [prunedChunks_eq_self _ L hall] at hrel
  obtain ⟨h1, h2, h3⟩ := (wf_nil_iff s').1 hwf'
  exact ⟨s', hrun, h1, h2, h3, fun v hv => hrel _ (List.mem_map_of_mem _ hv)⟩

/-- C7 at the three chunks `[0,10)`, `[10,25)`, `[25,40)` with watermark 41. -/
theorem HtpBodyPrune_all_below_empties_witness :
    ∃ s', HtpBodyPrune (threeChunkMachine.setParsed 41) = some s' ∧
      s'.htud.body.first = 0 ∧ s'.htud.body.last = 0 ∧ s'.htud.body.nchunks = 0 ∧
      (∀ v ∈ threeChunkList, heapGet s'.chunks v.addr = none) :=
  HtpBodyPrune_all_below_empties (threeChunkMachine.setParsed 41) threeChunkList (by decide)
    (by decide)

/-- `HtpBodyFree` on a well-formed buffer: it returns, the buffer is empty, the
records and data blocks of the chunk list are released and nothing else
changes. -/
theorem free_ok (K : Nat) (s : Machine) (L : List Chunk) (hwf : WF s L) :
    ∃ s', HtpBodyFree K s = some s' ∧
      s'.htud.body.nchunks = 0 ∧ s'.htud.body.first = 0 ∧ s'.htud.body.last = 0 ∧
      (∀ v ∈ L, heapGet s'.chunks v.addr = none) ∧
      (∀ a ∈ dataAddrs L, heapGet s'.bufs a = none) ∧
      (∀ a, a ∉ L.map Chunk.addr → heapGet s'.chunks a = heapGet s.chunks a) ∧
      (∀ a, a ∉ dataAddrs L → heapGet s'.bufs a = heapGet s.bufs a) ∧
      HtpBodyFree K s' = some s' ∧
      (L = [] → s' = s) := by
  obtain ⟨hc, hl, hn, hdl, hds⟩ := hwf
  by_cases hn0 : s.htud.body.nchunks = 0
  · have hL : L = [] := List.length_eq_zero.1 (by omega)
    subst hL
    have h1 : s.htud.body.first = 0 := hc
    have hrun : HtpBodyFree K s = some s := by simp [HtpBodyFree, hn0]
    refine ⟨s, hrun, hn0, h1, hl, ?_, ?_, fun _ _ => rfl, fun _ _ => rfl, hrun, fun _ => rfl⟩
    · intro v hv; simp at hv
    · intro a ha; simp [dataAddrs] at ha
  · have hfuel : L.length < s.chunks.length + 1 := by
      have := isChain_length_le hc
      omega
    obtain ⟨ch', bf', hrun, hrel, hfr, hdrel, hdfr⟩ :=
      freeLoop_ok L _ s.chunks s.bufs s.htud.body.first hc hdl hds hfuel
    have hLne : L ≠ [] := fun h => hn0 (by rw [hn, h]; rfl)
    refine ⟨{ htud := { s.htud with
                        body := { first := 0, last := 0, nchunks := 0, operation := K } }
              chunks := ch'
              bufs := bf' },
      by simp only [HtpBodyFree, hn0, if_false, hrun], rfl, rfl, rfl, ?_, hdrel, hfr,
      hdfr, by simp [HtpBodyFree], fun h => absurd h hLne⟩
    intro v hv
    exact hrel _ (List.mem_map_of_mem _ hv)

/-- C8. On a well-formed buffer `HtpBodyFree` returns with `nchunks == 0` and
`first == last == NULL`, whatever the watermark; every record and every data
block of the chunk list is released and no other object is touched. Calling it
again on the result returns the result unchanged, and on an empty buffer the
call changes nothing. -/
theorem HtpBodyFree_empties_idempotent (K : Nat) (s : Machine) (L : List Chunk)
    (hwf : WF s L) :
    ∃ s', HtpBodyFree K s = some s' ∧
      s'.htud.body.nchunks = 0 ∧ s'.htud.body.first = 0 ∧ s'.htud.body.last = 0 ∧
      (∀ v ∈ L, heapGet s'.chunks v.addr = none) ∧
      (∀ a ∈ dataAddrs L, heapGet s'.bufs a = none) ∧
      (∀ a, a ∉ L.map Chunk.addr → heapGet s'.chunks a = heapGet s.chunks a) ∧
      (∀ a, a ∉ dataAddrs L → heapGet s'.bufs a = heapGet s.bufs a) ∧
      HtpBodyFree K s' = some s' ∧
      (L = [] → s' = s) :=
  free_ok K s L hwf

/-- C8 at the three chunks `[0,10)`, `[10,25)`, `[25,40)`, nothing consumed. -/
theorem HtpBodyFree_empties_idempotent_witness :
    ∃ s', HtpBodyFree 0 threeChunkMachine = some s' ∧
      s'.htud.body.nchunks = 0 ∧ s'.htud.body.first = 0 ∧ s'.htud.body.last = 0 ∧
      (∀ v ∈ threeChunkList, heapGet s'.chunks v.addr = none) ∧
      (∀ a ∈ dataAddrs threeChunkList, heapGet s'.bufs a = none) ∧
      (∀ a, a ∉ threeChunkList.map Chunk.addr →
        heapGet s'.chunks a = heapGet threeChunkMachine.chunks a) ∧
      (∀ a, a ∉ dataAddrs threeChunkList →
        heapGet s'.bufs a = heapGet threeChunkMachine.bufs a) ∧
      HtpBodyFree 0 s' = some s' ∧
      (threeChunkList = [] → s' = threeChunkMachine) :=
  HtpBodyFree_empties_idempotent 0 threeChunkMachine threeChunkList (by decide)

/-! ## C6: full drain -/

theorem sum_take_add_le :
    ∀ (l : List Nat) (i x : Nat), l[i]? = some x → (l.take i).sum + x ≤ l.sum := by
  intro l
  induction l with
  | nil => intro i x h; simp at h
  | cons a t ih =>
    intro i x h
    cases i with
    | zero =>
      simp at h
      subst h
      simp
    | succ j =>
      simp only [List.getElem?_cons_succ] at h
      have := ih j x h
      simp only [List.take_succ_cons, List.sum_cons]
      omega

/-- C6, counterexample. `exampleCalls` append 9 bytes in three chunks `[0,3)`,
`[3,5)`, `[5,9)`. `HtpBodyPrune` with `body_parsed = 9`, the total, removes the
first two chunks and stops at the third, whose end offset 9 is not below 9
(line 241): `nchunks` is 1 and `HtpBodyPrint` still emits that chunk. -/
theorem prune_at_total_keeps_tail :
    runAppends emptyMachine exampleCalls = some exampleAppended ∧
    ((nonEmptyCalls exampleCalls).map AppendCall.len).sum = 9 ∧
    HtpBodyPrune (exampleAppended.setParsed 9) = some examplePrunedAtTotal ∧
    examplePrunedAtTotal.htud.body.nchunks = 1 ∧
    examplePrunedAtTotal.htud.body.first = 3 ∧
    HtpBodyPrint examplePrunedAtTotal =
      some (examplePrunedAtTotal,
        [PrintEvent.start, PrintEvent.chunk 3 3 4 [102, 103, 104, 105]]) := by
  decide

/-- C6 (P4), amended. For every buffer built by successful appends from an
empty well-formed buffer (the 32-bit chunk count not overflowing) and every
watermark `X` strictly above the number of bytes appended, `HtpBodyPrune` with
`body_parsed = X` returns with `nchunks == 0` and `first == last == NULL`, and
`HtpBodyPrint` then emits nothing. -/
theorem prune_above_total_drains (s0 s : Machine) (cs : List AppendCall) (X : Nat)
    (h0 : WF s0 []) (hrun : runAppends s0 cs = some s)
    (hcnt : (nonEmptyCalls cs).length < UINT32_MOD)
    (hX : ((nonEmptyCalls cs).map AppendCall.len).sum < X) (hX64 : X < UINT64_MOD) :
    ∃ s', HtpBodyPrune (s.setParsed X) = some s' ∧
      s'.htud.body.nchunks = 0 ∧ s'.htud.body.first = 0 ∧ s'.htud.body.last = 0 ∧
      HtpBodyPrint s' = some (s', []) := by
  obtain ⟨L, hwf, _, _, hlen, _, _, hnum⟩ := runAppends_inv s0 h0 cs s hrun hcnt
  obtain ⟨hoff, _⟩ := hnum (by rw [hlen]; omega)
  have hwfX : WF (s.setParsed X) L := hwf
  have hall : ∀ v ∈ L, v.endOffset < (s.setParsed X).htud.body_parsed := by
    intro v hv
    show (v.stream_offset + v.len) % UINT64_MOD < X
    obtain ⟨i, hi⟩ := List.getElem?_of_mem hv
    have h1 := hoff i v hi
    have h2 : (L.map Chunk.len)[i]? = some v.len := by simp [hi]
    have h3 := sum_take_add_le _ i v.len h2
    rw [← h1, hlen] at h3
    have h4 : v.stream_offset + v.len < X := by omega
    rw [Nat.mod_eq_of_lt (by omega)]
    exact h4
  obtain ⟨s', hp, hwf', _, _, _, _, _, _, _, _⟩ := prune_ok (s.setParsed X) L hwfX
  rw [retainedChunks_eq_nil _ L hall] at hwf'
  obtain ⟨h1, h2, h3⟩ := (wf_nil_iff s').1 hwf'
  exact ⟨s', hp, h3, h1, h2, by simp [HtpBodyPrint, h3]⟩

/-- C6, amended, at `exampleCalls` (9 bytes) with watermark 10. -/
theorem prune_above_total_drains_witness :
    runAppends emptyMachine exampleCalls = some exampleAppended ∧
    ∃ s', HtpBodyPrune (exampleAppended.setParsed 10) = some s' ∧
      s'.htud.body.nchunks = 0 ∧ s'.htud.body.first = 0 ∧ s'.htud.body.last = 0 ∧
      HtpBodyPrint s' = some (s', []) :=
  ⟨by decide,
   prune_above_total_drains emptyMachine exampleAppended exampleCalls 10 (by decide)
     (by decide) (by decide) (by decide) (by decide)⟩

/-! ## C9, C10: the `id` of a chunk -/

/-- C9, failing input. Two appends of one byte each to the empty buffer: the
first chunk gets id 0 (line 97), the second gets `nchunks + 1 = 2` (line 117),
so the chunk at list position 1 has id 2 and no chunk has id 1. -/
theorem second_append_gets_id_two :
    runAppends emptyMachine twoCalls = some twoChunkMachine ∧
    WF twoChunkMachine
      [ { addr := 1, data := 1, len := 1, id := 0, stream_offset := 0 },
        { addr := 2, data := 2, len := 1, id := 2, stream_offset := 1 } ] ∧
    heapGet twoChunkMachine.chunks twoChunkMachine.htud.body.last =
      some { data := 2, len := 1, id := 2, next := 0, stream_offset := 1 } := by
  decide

/-- The ids that a run of successful appends to an empty buffer assigns: 0 to
the first chunk and `i + 1` to the chunk at list position `i > 0`. -/
theorem appends_ids (s0 s : Machine) (cs : List AppendCall) (h0 : WF s0 [])
    (hrun : runAppends s0 cs = some s) (hcnt : (nonEmptyCalls cs).length < UINT32_MOD) :
    ∃ L, WF s L ∧ L.length = (nonEmptyCalls cs).length ∧
      ∀ i v, L[i]? = some v → v.id = if i = 0 then 0 else i + 1 := by
  obtain ⟨L, hwf, _, _, hlen, _, hid, _⟩ := runAppends_inv s0 h0 cs s hrun hcnt
  refine ⟨L, hwf, ?_, hid⟩
  have := congrArg List.length hlen
  simpa using this

/-- C10, counterexample. Three appends give ids 0, 2, 3; a prune with
watermark 3 removes the first two chunks and leaves `nchunks = 1`; the next
append gets id `nchunks + 1 = 2` (line 117) and is linked behind the chunk with
id 3: the ids in list order are 3, 2. That append is made to a shortened
buffer. -/
theorem append_after_prune_reuses_id :
    runOps 0 emptyMachine { ever := 0, sinceEmpty := 0 } reuseOps =
      some (reuseMachine, { ever := 4, sinceEmpty := 4 }) ∧
    WF reuseMachine reuseList ∧
    reuseList.map Chunk.id = [3, 2] ∧
    ¬ (reuseList.map Chunk.id).Pairwise (fun a b => a < b) ∧
    unshortened 0 emptyMachine false reuseOps = false := by
  decide

theorem appendError_bufs (s : Machine) (bd : Nat) (r : Machine × Int)
    (h : appendError s bd = some r) : r.1.bufs = s.bufs := by
  unfold appendError at h
  split at h
  · split at h
    · exact Option.noConfusion h
    · rename_i c _
      by_cases hd : c.data = 0
      · simp only [hd, ne_eq, not_true_eq_false, if_false, SCFree, if_true] at h
        cases h; rfl
      · simp only [hd, ne_eq, not_false_eq_true, if_true, SCFree, if_false] at h
        split at h
        · exact Option.noConfusion h
        · rename_i b1 hb1
          split at hb1
          · cases hb1
            simp [heapGet_heapDel] at h
          · exact Option.noConfusion hb1
  · cases h; rfl

theorem wf_of_fields_eq {s s' : Machine} {L : List Chunk} (hwf : WF s L)
    (h1 : s'.htud = s.htud) (h2 : s'.chunks = s.chunks) (h3 : s'.bufs = s.bufs) : WF s' L := by
  unfold WF at hwf ⊢
  rw [h1, h2, h3]
  exact hwf

theorem wf_of_fresh_record {s s' : Machine} {L : List Chunk} (hwf : WF s L) (m1 : Nat)
    (bd : HtpBodyChunk) (hf : heapGet s.chunks m1 = none)
    (h1 : s'.htud = s.htud) (h2 : s'.chunks = heapSet s.chunks m1 bd) (h3 : s'.bufs = s.bufs) :
    WF s' L := by
  obtain ⟨hc, hl, hn, hdl, hds⟩ := hwf
  unfold WF
  rw [h1, h2, h3]
  refine ⟨?_, hl, hn, hdl, hds⟩
  refine isChain_congr (fun v hv => ?_) hc
  obtain ⟨_, c, hg, _⟩ := isChain_live hc v hv
  have hne : m1 ≠ v.addr := by
    intro he; rw [he, hg] at hf; exact Option.noConfusion hf
  simp [heapGet_heapSet, hne]

/-- A call that does not return 0 keeps a well-formed buffer well-formed with
the same chunk list. -/
theorem append_failure_wf (s s' : Machine) (data : Option (List Nat)) (len m1 m2 : Nat)
    (r : Int) (L : List Chunk) (hr : r ≠ 0)
    (h : HtpBodyAppendChunk s data len m1 m2 = some (s', r)) (hwf : WF s L) : WF s' L := by
  have hok : ∀ t : Machine, (some (t, (0 : Int)) = some (s', r)) → False := by
    intro t he
    exact hr ((Prod.mk.inj (Option.some.inj he)).2).symm
  have hplain : ∀ (res : Machine × Int), appendError s 0 = some res → WF res.1 L := by
    intro res he
    exact wf_of_fields_eq hwf (appendError_htud _ _ _ he).1 (appendError_htud _ _ _ he).2
      (appendError_bufs _ _ _ he)
  have hrec : ∀ (bd : HtpBodyChunk) (res : Machine × Int), validAlloc s.chunks m1 ≠ false →
      m1 ≠ 0 →
      appendError { s with chunks := heapSet s.chunks m1 bd } m1 = some res → WF res.1 L := by
    intro bd res hv hm he
    have hf : heapGet s.chunks m1 = none := by
      have := (validAlloc_iff s.chunks m1).1 (by simpa using hv)
      rcases this with h0 | h0
      · exact absurd h0 hm
      · exact h0
    have e1 := (appendError_htud _ _ _ he).1
    have e2 := (appendError_htud _ _ _ he).2
    have e3 := appendError_bufs _ _ _ he
    exact wf_of_fresh_record hwf m1 bd hf e1 e2 e3
  unfold HtpBodyAppendChunk at h
  split at h
  · exact absurd h (hok _)
  · split at h
    · exact absurd h (hok _)
    · split at h
      · split at h
        · exact Option.noConfusion h
        · rename_i hv
          split at h
          · exact hplain _ h
          · rename_i hm
            split at h
            · exact Option.noConfusion h
            · split at h
              · exact hrec _ _ hv hm h
              · split at h
                · exact Option.noConfusion h
                · exact absurd h (hok _)
      · split at h
        · exact Option.noConfusion h
        · rename_i hv
          split at h
          · exact hplain _ h
          · rename_i hm
            split at h
            · exact Option.noConfusion h
            · split at h
              · exact hrec _ _ hv hm h
              · split at h
                · exact Option.noConfusion h
                · dsimp only at h
                  split at h
                  · exact Option.noConfusion h
                  · exact absurd h (hok _)

theorem appendedChunk_id (s : Machine) (len m1 m2 : Nat) :
    (appendedChunk s len m1 m2).id =
      if s.htud.body.nchunks = 0 then 0 else (s.htud.body.nchunks + 1) % UINT32_MOD := by
  unfold appendedChunk; split <;> rfl

theorem idsInv_step (K : Nat) :
    ∀ (ops : List Op) (s : Machine) (b : Bool) (L : List Chunk) (k : Nat) (t : Totals)
      (s' : Machine) (t' : Totals),
      WF s L → (L.map Chunk.id).Pairwise (fun a b => a < b) →
      (b = false → ∀ v ∈ L, v.id ≤ L.length) →
      L.length ≤ k → k + ops.length < UINT32_MOD →
      unshortened K s b ops = true → runOps K s t ops = some (s', t') →
      ∃ L', WF s' L' ∧ (L'.map Chunk.id).Pairwise (fun a b => a < b) := by
  intro ops
  induction ops with
  | nil =>
    intro s b L k t s' t' hwf hpw _ _ _ _ hrun
    cases hrun
    exact ⟨L, hwf, hpw⟩
  | cons op ops ih =>
    intro s b L k t s' t' hwf hpw hle hk hlen hadm hrun
    simp only [List.length_cons] at hlen
    have hnch : s.htud.body.nchunks = L.length := hwf.2.2.1
    cases op with
    | append c =>
      simp only [runOps] at hrun
      simp only [unshortened] at hadm
      cases hstep : HtpBodyAppendChunk s c.data c.len c.m1 c.m2 with
      | none => rw [hstep] at hrun; exact Option.noConfusion hrun
      | some res =>
        obtain ⟨s1, r⟩ := res
        rw [hstep] at hrun hadm
        simp only [Bool.and_eq_true, Bool.not_eq_true', Bool.and_eq_false_imp,
          decide_eq_true_eq] at hadm
        obtain ⟨hguard, hadm'⟩ := hadm
        by_cases hr : r = 0
        · subst hr
          by_cases hne : c.nonEmpty = true
          · have hb : b = false := by
              cases b with
              | false => rfl
              | true =>
                have := hguard ⟨rfl, rfl⟩
                rw [hne] at this
                exact Bool.noConfusion this
            obtain ⟨⟨d, hd⟩, hl0⟩ := (nonEmpty_iff c).1 hne
            rw [hd] at hstep
            obtain ⟨hm1, hf1, hm2, hf2, hdl⟩ :=
              append_success_inv s s1 d c.len c.m1 c.m2 hl0 hstep
            obtain ⟨s2, hrun2, hwf2, _⟩ :=
              append_ok s L d c.len c.m1 c.m2 hwf hl0 hdl hm1 hf1 hm2 hf2
            have hs : s2 = s1 := by
              rw [hstep] at hrun2
              exact ((Prod.mk.inj (Option.some.inj hrun2)).1).symm
            subst hs
            have hidv : (appendedChunk s c.len c.m1 c.m2).id =
                if L.length = 0 then 0 else L.length + 1 := by
              rw [appendedChunk_id, hnch]
              split
              · rfl
              · exact Nat.mod_eq_of_lt (by omega)
            refine ih s2 b (L ++ [appendedChunk s c.len c.m1 c.m2]) (k + 1) _ s' t'
              (hwf2 (by omega)) ?_ ?_ (by simp; omega) (by omega) hadm' hrun
            · rw [List.map_append, List.pairwise_append]
              refine ⟨hpw, by simp, ?_⟩
              intro a ha x hx
              simp only [List.map_cons, List.map_nil, List.mem_singleton] at hx
              subst hx
              obtain ⟨v, hv, rfl⟩ := List.mem_map.1 ha
              have h1 := hle hb v hv
              have hL : L.length ≠ 0 := by
                intro h0
                rw [List.length_eq_zero.1 h0] at hv
                simp at hv
              rw [hidv]
              simp only [hL, if_false]
              omega
            · intro _ v hv
              simp only [List.length_append, List.length_singleton]
              rcases List.mem_append.1 hv with hv | hv
              · have := hle hb v hv
                omega
              · rw [List.mem_singleton] at hv
                subst hv
                rw [hidv]
                split <;> omega
          · have hne' : c.nonEmpty = false := by simpa using hne
            rw [append_empty_input s c.data c.len c.m1 c.m2 ((nonEmpty_false_iff c).1 hne')]
              at hstep
            have hs := (Prod.mk.inj (Option.some.inj hstep)).1
            subst hs
            exact ih s b L (k + 1) _ s' t' hwf hpw hle (by omega) (by omega) hadm' hrun
        · have hwf1 := append_failure_wf s s1 c.data c.len c.m1 c.m2 r L hr hstep hwf
          exact ih s1 b L (k + 1) _ s' t' hwf1 hpw hle (by omega) (by omega) hadm' hrun
    | prune p =>
      simp only [runOps] at hrun
      simp only [unshortened] at hadm
      have hwfp : WF (s.setParsed p) L := hwf
      obtain ⟨s1, hstep, hwf1, _⟩ := prune_ok (s.setParsed p) L hwfp
      rw [hstep] at hrun hadm
      have hsub : (retainedChunks (s.setParsed p).htud.body_parsed L).Sublist L :=
        List.dropWhile_sublist _
      refine ih s1 _ _ (k + 1) t s' t' hwf1 (hpw.sublist (hsub.map _)) ?_
        (by have := hsub.length_le; omega) (by omega) hadm hrun
      intro hb v hv
      have hn1 : s1.htud.body.nchunks =
          (retainedChunks (s.setParsed p).htud.body_parsed L).length := hwf1.2.2.1
      have hn0 : (s.setParsed p).htud.body.nchunks = L.length := hwfp.2.2.1
      simp only [shortenedAfter, Bool.and_eq_false_imp, Bool.or_eq_true, decide_eq_true_eq,
        decide_eq_false_iff_not, ne_eq, not_not] at hb
      by_cases hlt : s1.htud.body.nchunks < (s.setParsed p).htud.body.nchunks
      · have h0 := hb (Or.inr hlt)
        rw [hn1] at h0
        rw [List.length_eq_zero.1 h0] at hv
        simp at hv
      · have hbf : b = false := by
          cases b with
          | false => rfl
          | true =>
            have h0 := hb (Or.inl rfl)
            rw [hn1] at h0
            rw [List.length_eq_zero.1 h0] at hv
            simp at hv
        have hlen_eq : (retainedChunks (s.setParsed p).htud.body_parsed L).length = L.length := by
          have := hsub.length_le
          omega
        have heq := hsub.eq_of_length hlen_eq
        rw [heq] at hv ⊢
        exact hle hbf v hv
    | free =>
      simp only [runOps] at hrun
      simp only [unshortened] at hadm
      obtain ⟨s1, hstep, h1, h2, h3, _⟩ := free_ok K s L hwf
      rw [hstep] at hrun hadm
      have hwf1 : WF s1 [] := (wf_nil_iff s1).2 ⟨h2, h3, h1⟩
      exact ih s1 false [] (k + 1) t s' t' hwf1 (by simp) (by simp) (by simp) (by omega)
        hadm hrun

/-- C10, amended. Take any sequence of fewer than 2^32 append, prune and free
operations on an empty well-formed buffer in which no successful append of
non-empty input is made to a shortened buffer, that is, to a non-empty buffer
from which a prune has removed a chunk since it was last empty. In the buffer
it leads to, the ids of the chunks are strictly increasing in list order. -/
theorem ids_increasing_unless_shortened (K : Nat) (s0 s : Machine) (t0 t : Totals)
    (ops : List Op) (h0 : WF s0 []) (hlen : ops.length < UINT32_MOD)
    (hadm : unshortened K s0 false ops = true) (hrun : runOps K s0 t0 ops = some (s, t)) :
    ∃ L, WF s L ∧ (L.map Chunk.id).Pairwise (fun a b => a < b) :=
  idsInv_step K ops s0 false [] 0 t0 s t h0 (by simp) (by simp) (by simp)
    (by simpa using hlen) hadm hrun

/-- C10, amended, at `drainAndRefillOps`: two appends, a draining prune, two
appends, a prune that removes one chunk. -/
theorem ids_increasing_unless_shortened_witness :
    ∃ L, WF drainAndRefillMachine L ∧ (L.map Chunk.id).Pairwise (fun a b => a < b) :=
  ids_increasing_unless_shortened 0 emptyMachine drainAndRefillMachine
    { ever := 0, sinceEmpty := 0 } { ever := 6, sinceEmpty := 3 } drainAndRefillOps
    (by decide) (by decide) (by decide) (by decide)

/-! ## C11: scenario A -/

set_option maxRecDepth 20000 in
/-- C11, counterexample. Appending 100, 50 and 200 bytes gives chunks
`[0,100)`, `[100,150)`, `[150,350)`. `HtpBodyPrune` with `body_parsed = 300`
removes the first two and stops at the third, whose end offset 350 is not below
300 (line 241): `nchunks` is 1 and `first` and `last` point to that chunk. -/
theorem scenarioA_prune_300_keeps_third :
    runAppends emptyMachine scenarioACalls = some scenarioAMachine ∧
    HtpBodyPrune (scenarioAMachine.setParsed 300) = some scenarioAPruned ∧
    scenarioAPruned.htud.body.nchunks = 1 ∧
    scenarioAPruned.htud.body.first = 3 ∧
    scenarioAPruned.htud.body.last = 3 ∧
    WF scenarioAPruned
      [{ addr := 3, data := 3, len := 200, id := 3, stream_offset := 150 }] := by
  decide

theorem list_of_map_len_three {L : List Chunk} {a b c : Nat}
    (h : L.map Chunk.len = [a, b, c]) :
    ∃ v1 v2 v3, L = [v1, v2, v3] ∧ v1.len = a ∧ v2.len = b ∧ v3.len = c := by
  match L, h with
  | [v1, v2, v3], h =>
    simp only [List.map_cons, List.map_nil, List.cons.injEq, and_true] at h
    exact ⟨v1, v2, v3, rfl, h.1, h.2.1, h.2.2⟩

/-- C11, amended. Three successful appends of 100, 50 and 200 bytes to an empty
well-formed buffer, whatever the bytes and the addresses handed out, give three
chunks with `stream_offset` 0, 100, 150 and `len` 100, 50, 200 in list order.
`HtpBodyPrune` with `body_parsed = 300` then removes the first two chunks and
keeps the third, `[150,350)`, with `nchunks == 1`; with `body_parsed = 351` it
empties the buffer (`nchunks == 0`, `first == last == NULL`). -/
theorem scenarioA (s0 s : Machine) (d1 d2 d3 : List Nat) (a1 b1 a2 b2 a3 b3 : Nat)
    (h0 : WF s0 [])
    (hrun : runAppends s0
      [ { data := some d1, len := 100, m1 := a1, m2 := b1 },
        { data := some d2, len := 50, m1 := a2, m2 := b2 },
        { data := some d3, len := 200, m1 := a3, m2 := b3 } ] = some s) :
    ∃ v1 v2 v3, WF s [v1, v2, v3] ∧
      [v1, v2, v3].map Chunk.stream_offset = [0, 100, 150] ∧
      [v1, v2, v3].map Chunk.len = [100, 50, 200] ∧
      [v1, v2, v3].map s.bytesOf = [some (d1.take 100), some (d2.take 50), some (d3.take 200)] ∧
      (∃ s', HtpBodyPrune (s.setParsed 300) = some s' ∧ WF s' [v3] ∧
        s'.htud.body.nchunks = 1) ∧
      (∃ s', HtpBodyPrune (s.setParsed 351) = some s' ∧
        s'.htud.body.nchunks = 0 ∧ s'.htud.body.first = 0 ∧ s'.htud.body.last = 0) := by
  have hN : nonEmptyCalls
      [ ({ data := some d1, len := 100, m1 := a1, m2 := b1 } : AppendCall),
        { data := some d2, len := 50, m1 := a2, m2 := b2 },
        { data := some d3, len := 200, m1 := a3, m2 := b3 } ] =
      [ { data := some d1, len := 100, m1 := a1, m2 := b1 },
        { data := some d2, len := 50, m1 := a2, m2 := b2 },
        { data := some d3, len := 200, m1 := a3, m2 := b3 } ] := by
    simp [nonEmptyCalls, AppendCall.nonEmpty]
  obtain ⟨L, hwf, _, _, hlen, hbytes, _, hnum⟩ :=
    runAppends_inv s0 h0 _ s hrun (by rw [hN]; simp [UINT32_MOD])
  rw [hN] at hlen hbytes
  simp only [List.map_cons, List.map_nil] at hlen hbytes
  obtain ⟨hoff, _⟩ := hnum (by rw [hlen]; simp [UINT64_MOD])
  obtain ⟨v1, v2, v3, rfl, hl1, hl2, hl3⟩ := list_of_map_len_three hlen
  have ho1 := hoff 0 v1 rfl
  have ho2 := hoff 1 v2 rfl
  have ho3 := hoff 2 v3 rfl
  simp only [List.map_cons, List.map_nil, hl1, hl2, hl3, List.take_zero, List.sum_nil,
    List.take_succ_cons, List.sum_cons] at ho1 ho2 ho3
  have hwf300 : WF (s.setParsed 300) [v1, v2, v3] := hwf
  have hwf351 : WF (s.setParsed 351) [v1, v2, v3] := hwf
  obtain ⟨s1, hp1, hwf1, _⟩ := prune_ok _ _ hwf300
  obtain ⟨s2, hp2, hwf2, _⟩ := prune_ok _ _ hwf351
  have hr1 : retainedChunks (s.setParsed 300).htud.body_parsed [v1, v2, v3] = [v3] := by
    simp [retainedChunks, List.dropWhile_cons, Chunk.endOffset, Machine.setParsed, ho1, ho2,
      ho3, hl1, hl2, hl3, UINT64_MOD]
  have hr2 : retainedChunks (s.setParsed 351).htud.body_parsed [v1, v2, v3] = [] := by
    simp [retainedChunks, List.dropWhile_cons, Chunk.endOffset, Machine.setParsed, ho1, ho2,
      ho3, hl1, hl2, hl3, UINT64_MOD]
  rw [hr1] at hwf1
  rw [hr2] at hwf2
  obtain ⟨h1, h2, h3⟩ := (wf_nil_iff s2).1 hwf2
  refine ⟨v1, v2, v3, hwf, ?_, ?_, ?_, ⟨s1, hp1, hwf1, hwf1.2.2.1⟩, ⟨s2, hp2, h3, h1, h2⟩⟩
  · simp [ho1, ho2, ho3]
  · simp [hl1, hl2, hl3]
  · simpa [AppendCall.payload] using hbytes

set_option maxRecDepth 20000 in
/-- C11, amended, at `scenarioACalls`. -/
theorem scenarioA_witness :
    ∃ v1 v2 v3, WF scenarioAMachine [v1, v2, v3] ∧
      [v1, v2, v3].map Chunk.stream_offset = [0, 100, 150] ∧
      [v1, v2, v3].map Chunk.len = [100, 50, 200] ∧
      [v1, v2, v3].map scenarioAMachine.bytesOf =
        [some ((List.replicate 100 0).take 100), some ((List.replicate 50 0).take 50),
          some ((List.replicate 200 0).take 200)] ∧
      (∃ s', HtpBodyPrune (scenarioAMachine.setParsed 300) = some s' ∧ WF s' [v3] ∧
        s'.htud.body.nchunks = 1) ∧
      (∃ s', HtpBodyPrune (scenarioAMachine.setParsed 351) = some s' ∧
        s'.htud.body.nchunks = 0 ∧ s'.htud.body.first = 0 ∧ s'.htud.body.last = 0) :=
  scenarioA emptyMachine scenarioAMachine (List.replicate 100 0) (List.replicate 50 0)
    (List.replicate 200 0) 1 1 2 2 3 3 (by decide) (by decide)

/-! ## C12: what `HtpBodyPrint` emits -/

theorem readable_iff (s : Machine) (v : Chunk) :
    s.readable v = true ↔ ∃ b, heapGet s.bufs v.data = some b ∧ v.len ≤ b.length := by
  unfold Machine.readable Machine.bytesOf
  cases heapGet s.bufs v.data <;> simp

theorem printLoop_null (fuel : Nat) (s : Machine) : printLoop (fuel + 1) s 0 = some [] := by
  simp [printLoop]

/-- The loop of `HtpBodyPrint` on a chain with readable data terminates and
emits the record of each chunk, in list order. -/
theorem printLoop_ok :
    ∀ (L : List Chunk) (fuel : Nat) (s : Machine) (p : Nat),
      IsChain s.chunks p L → Readable s L → L.length < fuel →
      printLoop fuel s p = some (L.map (printedRecord s)) := by
  intro L
  induction L with
  | nil =>
    intro fuel s p hc _ hf
    obtain ⟨k, rfl⟩ : ∃ k, fuel = k + 1 := ⟨fuel - 1, by simp at hf; omega⟩
    have hp : p = 0 := hc
    subst hp
    exact printLoop_null k s
  | cons v l ih =>
    intro fuel s p hc hread hf
    obtain ⟨k, rfl⟩ : ∃ k, fuel = k + 1 := ⟨fuel - 1, by simp at hf; omega⟩
    obtain ⟨h0, _, c, hg, hcv, hr⟩ := (isChain_cons _ _ _ _).1 hc
    obtain ⟨b, hb, hlen⟩ := (readable_iff s v).1 (hread v (List.mem_cons_self _ _))
    have hrest := ih k s c.next hr (fun w hw => hread w (List.mem_cons_of_mem _ hw))
      (by simp at hf; omega)
    have hvd : c.data = v.data := view_data hcv
    have hvl : c.len = v.len := by rw [← hcv]; rfl
    have hvi : c.id = v.id := by rw [← hcv]; rfl
    simp only [printLoop, h0, if_false, hg, PrintRawDataFp, hvd, hvl, hvi, hb, hlen, if_true,
      hrest, List.map_cons, printedRecord, Machine.bytesOf, Option.getD_some]

/-- C12, counterexample. Two buffers reached from the empty buffer, each with
one chunk of id 2 holding the bytes 8, 9 at data address 2; the chunk has
`stream_offset` 1 in the first and 3 in the second. `HtpBodyPrint` writes the
same items for both: the line of a chunk (lines 165-166) has `id`, the data
pointer and `len`, followed by the raw bytes, and no `stream_offset`. -/
theorem print_omits_stream_offset :
    runOps 0 emptyMachine { ever := 0, sinceEmpty := 0 } printOpsA =
      some (printMachineA, { ever := 3, sinceEmpty := 3 }) ∧
    runOps 0 emptyMachine { ever := 0, sinceEmpty := 0 } printOpsB =
      some (printMachineB, { ever := 5, sinceEmpty := 5 }) ∧
    WF printMachineA [{ addr := 2, data := 2, len := 2, id := 2, stream_offset := 1 }] ∧
    WF printMachineB [{ addr := 2, data := 2, len := 2, id := 2, stream_offset := 3 }] ∧
    HtpBodyPrint printMachineA =
      some (printMachineA, [PrintEvent.start, PrintEvent.chunk 2 2 2 [8, 9]]) ∧
    HtpBodyPrint printMachineB =
      some (printMachineB, [PrintEvent.start, PrintEvent.chunk 2 2 2 [8, 9]]) := by
  decide

/-- C12, amended. On a well-formed buffer with chunk list `L` whose chunks have
readable data, `HtpBodyPrint` returns and leaves the state (`first`, `last`,
`nchunks`, every record and every data block) as it was. For an empty buffer it
emits nothing; otherwise it emits the start line and then exactly one record
per chunk, in list order, carrying that chunk's `id`, data pointer, `len` and
data bytes. -/
theorem HtpBodyPrint_emits_chunks (s : Machine) (L : List Chunk) (hwf : WF s L)
    (hread : Readable s L) :
    HtpBodyPrint s =
      some (s, if L = [] then [] else PrintEvent.start :: L.map (printedRecord s)) := by
  by_cases hn : s.htud.body.nchunks = 0
  · have hL : L = [] := (wf_nchunks_eq_zero_iff hwf).1 hn
    simp [HtpBodyPrint, hn, hL]
  · have hL : L ≠ [] := fun h => hn ((wf_nchunks_eq_zero_iff hwf).2 h)
    have hfuel : L.length < s.chunks.length + 1 := by
      have := isChain_length_le hwf.1
      omega
    have hloop := printLoop_ok L _ s s.htud.body.first hwf.1 hread hfuel
    simp [HtpBodyPrint, hn, hL, hloop]

/-- C12, amended, at `exampleAppended` (chunks `abc`, `de`, `fghi`) and at the
empty buffer. -/
theorem HtpBodyPrint_emits_chunks_witness :
    HtpBodyPrint exampleAppended =
      some (exampleAppended,
        [ PrintEvent.start,
          PrintEvent.chunk 0 1 3 [97, 98, 99],
          PrintEvent.chunk 2 2 2 [100, 101],
          PrintEvent.chunk 3 3 4 [102, 103, 104, 105] ]) ∧
    HtpBodyPrint emptyMachine = some (emptyMachine, []) :=
  ⟨HtpBodyPrint_emits_chunks exampleAppended
      [ { addr := 1, data := 1, len := 3, id := 0, stream_offset := 0 },
        { addr := 2, data := 2, len := 2, id := 2, stream_offset := 3 },
        { addr := 3, data := 3, len := 4, id := 3, stream_offset := 5 } ]
      (by decide) (by decide),
   HtpBodyPrint_emits_chunks emptyMachine [] (by decide) (by decide)⟩

/-! ## The 32-bit chunk count at its largest value -/

theorem unitCalls_succ (n : Nat) :
    unitCalls (n + 1) =
      unitCalls n ++ [{ data := some [0], len := 1, m1 := n + 1, m2 := n + 1 }] := by
  simp [unitCalls, List.range_succ]

theorem unitCalls_payload_length (n : Nat) :
    ((unitCalls n).map AppendCall.payload).flatten.length = n := by
  induction n with
  | zero => rfl
  | succ n ih =>
    rw [unitCalls_succ, List.map_append, List.flatten_append, List.length_append, ih]
    rfl

/-- As long as the 32-bit count can hold them, `n` one-byte appends to the
empty buffer succeed and give a well-formed buffer of `n` chunks in which no
address above `n` is in use. -/
theorem unitCalls_reach (n : Nat) (hn : n < UINT32_MOD) :
    ∃ s L, runAppends emptyMachine (unitCalls n) = some s ∧ WF s L ∧ L.length = n ∧
      (∀ a, n < a → heapGet s.chunks a = none) ∧
      (∀ a, n < a → heapGet s.bufs a = none) := by
  induction n with
  | zero =>
    exact ⟨emptyMachine, [], rfl, by decide, rfl, fun _ _ => rfl, fun _ _ => rfl⟩
  | succ n ih =>
    obtain ⟨s, L, hrun, hwf, hlen, hfc, hfb⟩ := ih (by omega)
    obtain ⟨s', hrun', hwf', _, _, _, _, hbufs, hframe⟩ :=
      append_ok s L [0] 1 (n + 1) (n + 1) hwf (by decide) (by decide) (by omega)
        (hfc _ (by omega)) (by omega) (hfb _ (by omega))
    refine ⟨s', L ++ [appendedChunk s 1 (n + 1) (n + 1)], ?_, hwf' (by omega), ?_, ?_, ?_⟩
    · rw [unitCalls_succ, runAppends_append, hrun]
      exact (runAppends_singleton s s' _).2 hrun'
    · simp [hlen]
    · intro a ha
      have hlast : a ≠ s.htud.body.last := by
        intro he
        by_cases hL : L = []
        · rw [hwf.2.1, hL] at he
          have : a = 0 := he
          omega
        · obtain ⟨w, hw, hwa⟩ := List.mem_map.1 (lastAddr_mem hL)
          obtain ⟨_, c, hc, _⟩ := isChain_live hwf.1 w hw
          rw [hwa, ← hwf.2.1, ← he, hfc a (by omega)] at hc
          exact Option.noConfusion hc
      rw [hframe a (by omega) hlast]
      exact hfc a (by omega)
    · intro a ha
      rw [hbufs, heapGet_heapSet]
      have : ¬ (n + 1 = a) := by omega
      simp only [this, if_false]
      exact hfb a (by omega)

/-- A buffer is well-formed for one chunk list only. -/
theorem wf_unique {s : Machine} {L1 L2 : List Chunk} (h1 : WF s L1) (h2 : WF s L2) :
    L1 = L2 := by
  have key : ∀ (l1 l2 : List Chunk) (p : Nat), l1.length = l2.length →
      IsChain s.chunks p l1 → IsChain s.chunks p l2 → l1 = l2 := by
    intro l1
    induction l1 with
    | nil =>
      intro l2 p hl _ _
      cases l2 with
      | nil => rfl
      | cons w l2 => simp at hl
    | cons v l1 ih =>
      intro l2 p hl hc1 hc2
      cases l2 with
      | nil => simp at hl
      | cons w l2 =>
        obtain ⟨_, _, c, hg, hv, hr⟩ := (isChain_cons _ p v l1).1 hc1
        obtain ⟨_, _, c2, hg2, hw, hr2⟩ := (isChain_cons _ p w l2).1 hc2
        have hcc : c2 = c := by rw [hg] at hg2; exact (Option.some.inj hg2).symm
        subst hcc
        have hl' : l1.length = l2.length := by simpa using hl
        rw [← hv, ← hw, ih l2 _ hl' hr hr2]
  exact key L1 L2 _ (by rw [← h1.2.2.1, ← h2.2.2.1]) h1.1 h2.1

/-- A successful append to a well-formed buffer whose chunk count is the
largest 32-bit value: the chunk is linked behind the others, `first` is as
before and not `NULL`, and `nchunks` is 0. -/
theorem full_count_append (s : Machine) (L : List Chunk) (d : List Nat) (len m1 m2 : Nat)
    (hwf : WF s L) (hfull : L.length + 1 = UINT32_MOD) (hlen : len ≠ 0) (hd : len ≤ d.length)
    (hm1 : m1 ≠ 0) (hf1 : heapGet s.chunks m1 = none)
    (hm2 : m2 ≠ 0) (hf2 : heapGet s.bufs m2 = none) :
    ∃ s', HtpBodyAppendChunk s (some d) len m1 m2 = some (s', 0) ∧
      s'.htud.body.nchunks = 0 ∧
      s'.htud.body.first = s.htud.body.first ∧ s.htud.body.first ≠ 0 ∧
      s'.htud.body.last = m1 ∧
      IsChain s'.chunks s'.htud.body.first (L ++ [appendedChunk s len m1 m2]) ∧
      s'.bufs = heapSet s.bufs m2 (d.take len) ∧
      (∀ a, a ≠ m1 → a ≠ s.htud.body.last → heapGet s'.chunks a = heapGet s.chunks a) := by
  obtain ⟨hc, hl, hn, _, _⟩ := hwf
  cases L with
  | nil => simp [UINT32_MOD] at hfull
  | cons v l =>
    have hn0 : s.htud.body.nchunks ≠ 0 := by rw [hn]; simp
    have hmem := @lastAddr_mem (v :: l) (by simp)
    obtain ⟨w, hw, hwa⟩ := List.mem_map.1 hmem
    obtain ⟨_, lc, hlc, _⟩ := isChain_live hc w hw
    rw [hwa, ← hl] at hlc
    refine ⟨_, append_eval_nonempty s d len m1 m2 lc hn0 hlen hd hm1 hf1 hm2 hf2 hlc, ?_, rfl,
      ((isChain_cons _ _ _ _).1 hc).1, rfl, ?_, rfl, ?_⟩
    · show (s.htud.body.nchunks + 1) % UINT32_MOD = 0
      rw [hn, hfull]
      exact Nat.mod_self _
    · have := @isChain_snoc s.chunks m1
        { data := m2, len := len, id := (s.htud.body.nchunks + 1) % UINT32_MOD,
          next := 0, stream_offset := s.htud.content_len_so_far }
        hm1 hf1 rfl (v :: l) s.htud.body.first (by simp) hc lc (by rw [← hl]; exact hlc)
      rw [← hl] at this
      have hview : appendedChunk s len m1 m2 =
          HtpBodyChunk.view
            { data := m2, len := len, id := (s.htud.body.nchunks + 1) % UINT32_MOD,
              next := 0, stream_offset := s.htud.content_len_so_far } m1 := by
        simp [appendedChunk, hn0, HtpBodyChunk.view]
      rw [hview]
      exact this
    · intro a ha hal
      show heapGet (heapSet (heapSet s.chunks m1 _) s.htud.body.last _) a = _
      rw [heapGet_heapSet, heapGet_heapSet]
      simp [Ne.symm ha, Ne.symm hal]

/-- The run of one-byte appends around the largest value of the 32-bit count,
`n + 1 = 2^32`: `n` appends give a well-formed buffer of `n` chunks; append
number `n + 1` succeeds, links its chunk and leaves `nchunks == 0` with `first`
and `last` not `NULL`; append number `n + 2` then takes the branch for an empty
buffer (lines 88-108) and its chunk is the only one of the list. -/
theorem unitCalls_wrap (n m k : Nat) (hm : m = n + 1) (hk : k = m + 1) (hM : m = UINT32_MOD) :
    ∃ (s s1 s2 : Machine) (L : List Chunk),
      runAppends emptyMachine (unitCalls n) = some s ∧ WF s L ∧ L.length = n ∧
      HtpBodyAppendChunk s (some [0]) 1 m m = some (s1, 0) ∧
      s1.htud.body.nchunks = 0 ∧ s1.htud.body.first ≠ 0 ∧ s1.htud.body.last ≠ 0 ∧
      IsChain s1.chunks s1.htud.body.first (L ++ [appendedChunk s 1 m m]) ∧
      HtpBodyAppendChunk s1 (some [0]) 1 k k = some (s2, 0) ∧
      runAppends emptyMachine (unitCalls k) = some s2 ∧
      WF s2 [{ addr := k, data := k, len := 1, id := 0, stream_offset := 0 }] ∧
      s2.bytesOf { addr := k, data := k, len := 1, id := 0, stream_offset := 0 } = some [0] := by
  subst hk
  subst hm
  obtain ⟨s, L, hrun, hwf, hlen, hfc, hfb⟩ := unitCalls_reach n (by omega)
  obtain ⟨s1, hrun1, hn1, hfirst, hfirst0, hlast1, hchain, hbufs1, hframe1⟩ :=
    full_count_append s L [0] 1 (n + 1) (n + 1) hwf (by omega) (by decide) (by decide) (by omega)
      (hfc _ (by omega)) (by omega) (hfb _ (by omega))
  have hlast : n + 1 + 1 ≠ s.htud.body.last := by
    intro he
    by_cases hL : L = []
    · rw [hwf.2.1, hL] at he
      have : n + 1 + 1 = 0 := he
      omega
    · obtain ⟨w, hw, hwa⟩ := List.mem_map.1 (lastAddr_mem hL)
      obtain ⟨_, c, hc, _⟩ := isChain_live hwf.1 w hw
      rw [hwa, ← hwf.2.1, ← he, hfc _ (by omega)] at hc
      exact Option.noConfusion hc
  have hf1 : heapGet s1.chunks (n + 1 + 1) = none := by
    rw [hframe1 _ (by omega) hlast]
    exact hfc _ (by omega)
  have hf2 : heapGet s1.bufs (n + 1 + 1) = none := by
    rw [hbufs1, heapGet_heapSet]
    have : ¬ (n + 1 = n + 1 + 1) := by omega
    simp only [this, if_false]
    exact hfb _ (by omega)
  have hrun2 := append_eval_empty s1 [0] 1 (n + 1 + 1) (n + 1 + 1) hn1 (by decide) (by decide)
    (by omega) hf1 (by omega) hf2
  refine ⟨s, s1, _, L, hrun, hwf, hlen, hrun1, hn1, by rw [hfirst]; exact hfirst0,
    by rw [hlast1]; omega, hchain, hrun2, ?_, ?_, ?_⟩
  · rw [unitCalls_succ, unitCalls_succ, List.append_assoc, runAppends_append, hrun]
    show runAppends s _ = _
    simp only [List.singleton_append, runAppends, hrun1, hrun2, if_true]
  · refine ⟨?_, rfl, ?_, ?_, ?_⟩
    · refine (isChain_cons _ _ _ _).2 ⟨Nat.succ_ne_zero _, by simp,
        { data := n + 1 + 1, len := 1, id := 0, next := 0, stream_offset := 0 }, ?_, rfl, rfl⟩
      simp [heapGet_heapSet]
    · show (s1.htud.body.nchunks + 1) % UINT32_MOD = 1
      rw [hn1]; rfl
    · intro v hv _
      rw [List.mem_singleton] at hv
      subst hv
      simp [heapGet_heapSet]
    · simp [dataAddrs]
  · simp [Machine.bytesOf, heapGet_heapSet]

/-! ## C13: the copy stored by an append -/

theorem payload_of_empty (c : AppendCall) (h : c.nonEmpty = false) : c.payload = [] := by
  rcases (nonEmpty_false_iff c).1 h with h | h
  · simp [AppendCall.payload, h]
  · simp [AppendCall.payload, h]

theorem flatten_payload_nonEmpty (cs : List AppendCall) :
    ((nonEmptyCalls cs).map AppendCall.payload).flatten =
      (cs.map AppendCall.payload).flatten := by
  induction cs with
  | nil => rfl
  | cons c cs ih =>
    unfold nonEmptyCalls at ih ⊢
    by_cases hne : c.nonEmpty = true
    · simp [List.filter_cons, hne, ih]
    · have hne' : c.nonEmpty = false := by simpa using hne
      simp [List.filter_cons, hne', ih, payload_of_empty c hne']

theorem filterMap_of_map_some {α β : Type} (f : α → Option β) (g : γ → β) :
    ∀ (L : List α) (N : List γ), L.map f = N.map (fun c => some (g c)) →
      L.filterMap f = N.map g := by
  intro L
  induction L with
  | nil =>
    intro N h
    cases N with
    | nil => rfl
    | cons n N => simp at h
  | cons a L ih =>
    intro N h
    cases N with
    | nil => simp at h
    | cons n N =>
      simp only [List.map_cons, List.cons.injEq] at h
      simp [List.filterMap_cons, h.1, ih N h.2]

/-- C13, counterexample. From the empty buffer, 4294967295 (2^32 - 1)
successful one-byte appends give a well-formed buffer `s` whose chunk list `L`
has that many chunks. The next append succeeds and links its chunk behind `L`,
but the 32-bit count `nchunks` goes from 4294967295 to 0 (line 127), not up by
one, so the buffer is not well-formed for any `L ++ [c]`. The append after
that one finds `nchunks == 0`, takes lines 88-108 and makes its chunk `first`
and `last`: after 4294967297 successful appends, of 4294967297 bytes in all,
the chunk list of the buffer is a single chunk holding one byte. -/
theorem append_at_full_count_wraps :
    ∃ (s s1 s2 : Machine) (L : List Chunk),
      runAppends emptyMachine (unitCalls 4294967295) = some s ∧ WF s L ∧
      L.length = 4294967295 ∧ s.htud.body.nchunks = 4294967295 ∧
      HtpBodyAppendChunk s (some [0]) 1 4294967296 4294967296 = some (s1, 0) ∧
      IsChain s1.chunks s1.htud.body.first
        (L ++ [appendedChunk s 1 4294967296 4294967296]) ∧
      s1.htud.body.nchunks = 0 ∧ s1.htud.body.nchunks ≠ s.htud.body.nchunks + 1 ∧
      (∀ c, ¬ WF s1 (L ++ [c])) ∧
      HtpBodyAppendChunk s1 (some [0]) 1 4294967297 4294967297 = some (s2, 0) ∧
      runAppends emptyMachine (unitCalls 4294967297) = some s2 ∧
      WF s2 [{ addr := 4294967297, data := 4294967297, len := 1, id := 0, stream_offset := 0 }] ∧
      (∀ L2, WF s2 L2 → (L2.filterMap s2.bytesOf).flatten = [0]) ∧
      ((unitCalls 4294967297).map AppendCall.payload).flatten.length = 4294967297 := by
  obtain ⟨s, s1, s2, L, hrun, hwf, hlen, hrun1, hn1, _, _, hchain, hrun2, hrunall, hwf2,
      hbytes⟩ := unitCalls_wrap 4294967295 4294967296 4294967297 rfl rfl rfl
  refine ⟨s, s1, s2, L, hrun, hwf, hlen, by rw [hwf.2.2.1, hlen], hrun1, hchain, hn1, ?_, ?_,
    hrun2, hrunall, hwf2, ?_, unitCalls_payload_length _⟩
  · rw [hn1]
    exact (Nat.succ_ne_zero _).symm
  · intro c h
    have hc := h.2.2.1
    rw [hn1, List.length_append] at hc
    simp at hc
  · intro L2 h
    rw [wf_unique h hwf2, List.filterMap_cons, hbytes]
    rfl

/-- C13, amended. (1) A successful `HtpBodyAppendChunk` with non-empty input on
a well-formed buffer with chunk list `L` of fewer than 2^32 - 1 chunks yields a
well-formed buffer with chunk list `L ++ [c]`, where `c` sits at the allocated
address, `c.len == len` and the bytes of `c` are `data[0..len)`; the chunks of
`L` keep their fields and their bytes; `nchunks` is one more than before.
(2) Hence after any sequence of successful appends to an empty buffer, fewer
than 2^32 of them with non-empty input, the concatenation of the chunks' bytes
in list order is the concatenation of the inputs `data[0..len)` in call order. -/
theorem append_stores_copy :
    (∀ (s s' : Machine) (L : List Chunk) (d : List Nat) (len m1 m2 : Nat),
      WF s L → len ≠ 0 → L.length + 1 < UINT32_MOD →
      HtpBodyAppendChunk s (some d) len m1 m2 = some (s', 0) →
      ∃ c, WF s' (L ++ [c]) ∧ c.addr = m1 ∧ c.len = len ∧
        s'.bytesOf c = some (d.take len) ∧ (d.take len).length = len ∧
        (∀ v ∈ L, s'.bytesOf v = s.bytesOf v) ∧
        s'.htud.body.nchunks = s.htud.body.nchunks + 1) ∧
    (∀ (s0 s : Machine) (cs : List AppendCall),
      WF s0 [] → runAppends s0 cs = some s → (nonEmptyCalls cs).length < UINT32_MOD →
      ∃ L, WF s L ∧
        (L.filterMap s.bytesOf).flatten = (cs.map AppendCall.payload).flatten) := by
  constructor
  · intro s s' L d len m1 m2 hwf hlen hfit hrun
    obtain ⟨hm1, hf1, hm2, hf2, hdl⟩ := append_success_inv s s' d len m1 m2 hlen hrun
    obtain ⟨s2, hrun2, hwf2, hn2, _, _, _, hbufs, _⟩ :=
      append_ok s L d len m1 m2 hwf hlen hdl hm1 hf1 hm2 hf2
    have hs : s2 = s' := by
      rw [hrun] at hrun2
      exact ((Prod.mk.inj (Option.some.inj hrun2)).1).symm
    subst hs
    refine ⟨appendedChunk s len m1 m2, hwf2 hfit, appendedChunk_addr _ _ _ _,
      appendedChunk_len _ _ _ _, ?_, ?_, ?_, ?_⟩
    · simp [Machine.bytesOf, hbufs, appendedChunk_data, heapGet_heapSet]
    · simp [List.length_take, hdl]
    · intro v hv
      have hne : m2 ≠ v.data := by
        intro he
        by_cases hv0 : v.data = 0
        · exact hm2 (he.trans hv0)
        · have := hwf.2.2.2.1 v hv hv0
          rw [← he, hf2] at this
          simp at this
      simp [Machine.bytesOf, hbufs, heapGet_heapSet, hne]
    · rw [hn2, hwf.2.2.1]
      exact Nat.mod_eq_of_lt hfit
  · intro s0 s cs h0 hrun hcnt
    obtain ⟨L, hwf, _, _, _, hbytes, _, _⟩ := runAppends_inv s0 h0 cs s hrun hcnt
    refine ⟨L, hwf, ?_⟩
    rw [filterMap_of_map_some s.bytesOf AppendCall.payload L _ hbytes,
      flatten_payload_nonEmpty]

/-- C13, amended, at `exampleAppended` (a fourth chunk `jk` is appended) and at
`exampleCalls` (`abc`, `de`, `fghi`). -/
theorem append_stores_copy_witness :
    HtpBodyAppendChunk exampleAppended (some [106, 107]) 2 4 4 =
      some (exampleAppendedFour, 0) ∧
    (∃ c, WF exampleAppendedFour
        ([ { addr := 1, data := 1, len := 3, id := 0, stream_offset := 0 },
           { addr := 2, data := 2, len := 2, id := 2, stream_offset := 3 },
           { addr := 3, data := 3, len := 4, id := 3, stream_offset := 5 } ] ++ [c]) ∧
        c.addr = 4 ∧ c.len = 2 ∧ exampleAppendedFour.bytesOf c = some ([106, 107].take 2) ∧
        exampleAppendedFour.htud.body.nchunks = exampleAppended.htud.body.nchunks + 1) ∧
    (∃ L, WF exampleAppended L ∧
      (L.filterMap exampleAppended.bytesOf).flatten =
        [97, 98, 99, 100, 101, 102, 103, 104, 105]) := by
  refine ⟨by decide, ?_, ?_⟩
  · obtain ⟨c, h1, h2, h3, h4, _, _, h7⟩ :=
      append_stores_copy.1 exampleAppended exampleAppendedFour
        [ { addr := 1, data := 1, len := 3, id := 0, stream_offset := 0 },
          { addr := 2, data := 2, len := 2, id := 2, stream_offset := 3 },
          { addr := 3, data := 3, len := 4, id := 3, stream_offset := 5 } ]
        [106, 107] 2 4 4 (by decide) (by decide) (by decide) (by decide)
    exact ⟨c, h1, h2, h3, h4, h7⟩
  · obtain ⟨L, h1, h2⟩ :=
      append_stores_copy.2 emptyMachine exampleAppended exampleCalls (by decide) (by decide)
        (by decide)
    exact ⟨L, h1, h2⟩

/-! ## C14: release on allocation failure -/

/-- C14, failing input. On `exampleAppended` a call with two bytes of input
gets address 7 for the chunk record and `NULL` for the data storage. It returns
-1 through the `error` label, where `bd->data` is `NULL`: both `SCFree` calls
(lines 139 and 141) are given `bd->data` and release nothing, and `bd` itself
is never released. The record allocated at 7 is still allocated after the call,
outside the chunk list. -/
theorem failed_append_leaks_record :
    heapGet exampleAppended.chunks 7 = none ∧
    HtpBodyAppendChunk exampleAppended (some [106, 107]) 2 7 0 = some (leakedMachine, -1) ∧
    heapGet leakedMachine.chunks 7 =
      some { data := 0, len := 2, id := 4, next := 0, stream_offset := 9 } ∧
    leakedMachine.bufs = exampleAppended.bufs ∧
    WF leakedMachine exampleList := by
  decide

/-! ## C15: invariant I2 -/

theorem i2_of_wf {s : Machine} {L : List Chunk} (h : WF s L) : I2 s L :=
  ⟨h.1, h.2.1, h.2.2.1⟩

theorem lastAddr_eq_zero_iff {h : List (Nat × HtpBodyChunk)} {p : Nat} {L : List Chunk}
    (hc : IsChain h p L) : lastAddr L = 0 ↔ L = [] := by
  constructor
  · intro h0
    by_contra hne
    obtain ⟨w, hw, hwa⟩ := List.mem_map.1 (lastAddr_mem hne)
    exact (isChain_live hc w hw).1 (hwa.trans h0)
  · intro hL; rw [hL]; rfl

theorem i2_null_iff {s : Machine} {L : List Chunk} (h : I2 s L) :
    (s.htud.body.first = 0 ↔ s.htud.body.nchunks = 0) ∧
      (s.htud.body.nchunks = 0 ↔ s.htud.body.last = 0) := by
  obtain ⟨hc, hl, hn⟩ := h
  have hlen : s.htud.body.nchunks = 0 ↔ L = [] := by rw [hn]; exact List.length_eq_zero
  constructor
  · rw [hlen]
    constructor
    · intro h0
      cases L with
      | nil => rfl
      | cons v l => exact absurd h0 ((isChain_cons _ _ _ _).1 hc).1
    · intro hL
      rw [hL] at hc
      exact hc
  · rw [hlen, hl]
    exact (lastAddr_eq_zero_iff hc).symm

/-- `HtpBodyAppendChunk` on a well-formed buffer, for any answers the allocator
can give and a source that holds `len` bytes, when the buffer has fewer than
2^32 - 1 chunks or the call cannot succeed in linking one: the call returns and
the buffer is well-formed after it. -/
theorem append_total (s : Machine) (L : List Chunk) (data : Option (List Nat))
    (len m1 m2 : Nat) (hwf : WF s L)
    (hfit : L.length + 1 < UINT32_MOD ∨ len = 0 ∨ data = none ∨ m1 = 0 ∨ m2 = 0)
    (hv1 : validAlloc s.chunks m1 = true) (hv2 : validAlloc s.bufs m2 = true)
    (hsrc : ∀ d, data = some d → len ≤ d.length) :
    ∃ s' r L', HtpBodyAppendChunk s data len m1 m2 = some (s', r) ∧ WF s' L' ∧
      (r = 0 ∨ r = -1) := by
  by_cases hemp : len = 0 ∨ data = none
  · exact ⟨s, 0, L, append_empty_input s data len m1 m2 hemp, hwf, Or.inl rfl⟩
  · have hlen : len ≠ 0 := fun h => hemp (Or.inl h)
    obtain ⟨d, hd⟩ : ∃ d, data = some d := by
      cases data with
      | none => exact absurd (Or.inr rfl) hemp
      | some d => exact ⟨d, rfl⟩
    subst hd
    by_cases hm1 : m1 = 0
    · obtain ⟨s', hrun, _, _, _, hpres⟩ :=
        append_failure_ok s d len m1 m2 hlen (Or.inl hm1)
      exact ⟨s', -1, L, hrun, hpres L hwf, Or.inr rfl⟩
    · have hf1 : heapGet s.chunks m1 = none := by
        rcases (validAlloc_iff s.chunks m1).1 hv1 with h | h
        · exact absurd h hm1
        · exact h
      by_cases hm2 : m2 = 0
      · obtain ⟨s', hrun, _, _, _, hpres⟩ :=
          append_failure_ok s d len m1 m2 hlen (Or.inr ⟨hm1, hf1, hm2⟩)
        exact ⟨s', -1, L, hrun, hpres L hwf, Or.inr rfl⟩
      · have hf2 : heapGet s.bufs m2 = none := by
          rcases (validAlloc_iff s.bufs m2).1 hv2 with h | h
          · exact absurd h hm2
          · exact h
        obtain ⟨s', hrun, hwf', _⟩ :=
          append_ok s L d len m1 m2 hwf hlen (hsrc d rfl) hm1 hf1 hm2 hf2
        have hfit' : L.length + 1 < UINT32_MOD := by
          rcases hfit with h | h | h | h | h
          · exact h
          · exact absurd h hlen
          · exact Option.noConfusion h
          · exact absurd h hm1
          · exact absurd h hm2
        exact ⟨s', 0, _, hrun, hwf' hfit', Or.inl rfl⟩

theorem print_state (s s' : Machine) (out : List PrintEvent)
    (h : HtpBodyPrint s = some (s', out)) : s' = s := by
  unfold HtpBodyPrint at h
  split at h
  · cases h; rfl
  · split at h
    · exact Option.noConfusion h
    · cases h; rfl

/-- C15, counterexample. From the empty buffer, 4294967295 (2^32 - 1) successful
one-byte appends give a buffer `s` that satisfies I2 with a chunk list of that
many chunks. The next `HtpBodyAppendChunk` succeeds, and after it `nchunks` is 0
(the 32-bit count wrapped at line 127) while `first` and `last` are not `NULL`:
I2 does not hold for any chunk list. -/
theorem append_at_full_count_breaks_I2 :
    ∃ (s s1 : Machine) (L : List Chunk),
      runAppends emptyMachine (unitCalls 4294967295) = some s ∧ WF s L ∧ I2 s L ∧
      L.length = 4294967295 ∧
      HtpBodyAppendChunk s (some [0]) 1 4294967296 4294967296 = some (s1, 0) ∧
      s1.htud.body.nchunks = 0 ∧ s1.htud.body.first ≠ 0 ∧ s1.htud.body.last ≠ 0 ∧
      ∀ L1, ¬ I2 s1 L1 := by
  obtain ⟨s, s1, _, L, hrun, hwf, hlen, hrun1, hn1, hfirst, hlast, _⟩ :=
    unitCalls_wrap 4294967295 4294967296 4294967297 rfl rfl rfl
  exact ⟨s, s1, L, hrun, hwf, i2_of_wf hwf, hlen, hrun1, hn1, hfirst, hlast,
    fun L1 h => hfirst ((i2_null_iff h).1.2 hn1)⟩

/-- C15, amended. Invariant I2 with count (`I2 s L`: `L` is the list of chunks reachable
from `first`, `last` is the address of its final chunk and `nchunks` its
length) holds in every state with `first == last == NULL` and `nchunks == 0`,
it gives `first == NULL <=> nchunks == 0 <=> last == NULL`, and it is kept by
every operation on a well-formed buffer (`WF`, which is I2 together with each
chunk owning its data storage): `HtpBodyAppendChunk` returns, whether it
succeeds, fails or has nothing to do, for every answer the allocator can give,
provided the buffer has fewer than 2^32 - 1 chunks or the call is one that
links no chunk (empty input or a failed allocation), `HtpBodyPrune` returns for every
`body_parsed`, `HtpBodyFree` returns, and the buffer after each of them is
well-formed again; `HtpBodyPrint` returns the state it was given. -/
theorem I2_is_kept :
    (∀ s : Machine, s.htud.body.first = 0 → s.htud.body.last = 0 →
      s.htud.body.nchunks = 0 → I2 s [] ∧ WF s []) ∧
    (∀ (s : Machine) (L : List Chunk), I2 s L →
      (s.htud.body.first = 0 ↔ s.htud.body.nchunks = 0) ∧
      (s.htud.body.nchunks = 0 ↔ s.htud.body.last = 0)) ∧
    (∀ (s : Machine) (L : List Chunk), WF s L → I2 s L) ∧
    (∀ (s : Machine) (L : List Chunk) (data : Option (List Nat)) (len m1 m2 : Nat),
      WF s L → (L.length + 1 < UINT32_MOD ∨ len = 0 ∨ data = none ∨ m1 = 0 ∨ m2 = 0) →
      validAlloc s.chunks m1 = true → validAlloc s.bufs m2 = true →
      (∀ d, data = some d → len ≤ d.length) →
      ∃ s' r L', HtpBodyAppendChunk s data len m1 m2 = some (s', r) ∧ WF s' L' ∧ I2 s' L') ∧
    (∀ (s : Machine) (L : List Chunk), WF s L →
      ∃ s' L', HtpBodyPrune s = some s' ∧ WF s' L' ∧ I2 s' L') ∧
    (∀ (K : Nat) (s : Machine) (L : List Chunk), WF s L →
      ∃ s', HtpBodyFree K s = some s' ∧ WF s' [] ∧ I2 s' []) ∧
    (∀ (s : Machine) (L : List Chunk), WF s L → Readable s L →
      ∃ out, HtpBodyPrint s = some (s, out)) ∧
    (∀ (s s' : Machine) (out : List PrintEvent), HtpBodyPrint s = some (s', out) → s' = s) := by
  refine ⟨?_, fun s L h => i2_null_iff h, fun s L h => i2_of_wf h, ?_, ?_, ?_, ?_, print_state⟩
  · intro s h1 h2 h3
    have hwf : WF s [] := (wf_nil_iff s).2 ⟨h1, h2, h3⟩
    exact ⟨i2_of_wf hwf, hwf⟩
  · intro s L data len m1 m2 hwf hfit hv1 hv2 hsrc
    obtain ⟨s', r, L', hrun, hwf', _⟩ := append_total s L data len m1 m2 hwf hfit hv1 hv2 hsrc
    exact ⟨s', r, L', hrun, hwf', i2_of_wf hwf'⟩
  · intro s L hwf
    obtain ⟨s', hrun, hwf', _⟩ := prune_ok s L hwf
    exact ⟨s', _, hrun, hwf', i2_of_wf hwf'⟩
  · intro K s L hwf
    obtain ⟨s', hrun, h1, h2, h3, _⟩ := free_ok K s L hwf
    have hwf' : WF s' [] := (wf_nil_iff s').2 ⟨h2, h3, h1⟩
    exact ⟨s', hrun, hwf', i2_of_wf hwf'⟩
  · intro s L hwf hread
    by_cases hn : s.htud.body.nchunks = 0
    · exact ⟨[], by simp [HtpBodyPrint, hn]⟩
    · have hfuel : L.length < s.chunks.length + 1 := by
        have := isChain_length_le hwf.1
        omega
      have hloop := printLoop_ok L _ s s.htud.body.first hwf.1 hread hfuel
      exact ⟨PrintEvent.start :: L.map (printedRecord s),
        by simp only [HtpBodyPrint, hn, if_false, hloop]⟩

/-- C15, amended, at `exampleAppended`: a successful append, an append whose record
allocation fails, an append of nothing, a prune with watermark 4, a free and a
print. -/
theorem I2_is_kept_witness :
    (I2 emptyMachine [] ∧ WF emptyMachine []) ∧
    ((exampleAppended.htud.body.first = 0 ↔ exampleAppended.htud.body.nchunks = 0) ∧
      (exampleAppended.htud.body.nchunks = 0 ↔ exampleAppended.htud.body.last = 0)) ∧
    (∃ s' r L', HtpBodyAppendChunk exampleAppended (some [106, 107]) 2 4 4 = some (s', r) ∧
      WF s' L' ∧ I2 s' L') ∧
    (∃ s' r L', HtpBodyAppendChunk exampleAppended (some [106, 107]) 2 0 0 = some (s', r) ∧
      WF s' L' ∧ I2 s' L') ∧
    (∃ s' r L', HtpBodyAppendChunk exampleAppended none 0 0 0 = some (s', r) ∧
      WF s' L' ∧ I2 s' L') ∧
    (∃ s' L', HtpBodyPrune (exampleAppended.setParsed 4) = some s' ∧ WF s' L' ∧ I2 s' L') ∧
    (∃ s', HtpBodyFree 0 exampleAppended = some s' ∧ WF s' [] ∧ I2 s' []) ∧
    (∃ out, HtpBodyPrint exampleAppended = some (exampleAppended, out)) :=
  ⟨I2_is_kept.1 emptyMachine rfl rfl rfl,
   I2_is_kept.2.1 exampleAppended exampleList
     (I2_is_kept.2.2.1 exampleAppended exampleList (by decide)),
   I2_is_kept.2.2.2.1 exampleAppended exampleList (some [106, 107]) 2 4 4 (by decide)
     (Or.inl (by decide)) (by decide) (by decide) (by decide),
   I2_is_kept.2.2.2.1 exampleAppended exampleList (some [106, 107]) 2 0 0 (by decide)
     (Or.inr (Or.inr (Or.inr (Or.inl rfl)))) (by decide) (by decide) (by decide),
   I2_is_kept.2.2.2.1 exampleAppended exampleList none 0 0 0 (by decide)
     (Or.inr (Or.inl rfl)) (by decide) (by decide) (by decide),
   I2_is_kept.2.2.2.2.1 (exampleAppended.setParsed 4) exampleList (by decide),
   I2_is_kept.2.2.2.2.2.1 0 exampleAppended exampleList (by decide),
   I2_is_kept.2.2.2.2.2.2.1 exampleAppended exampleList (by decide) (by decide)⟩

/-! ## C16: contiguity and the running total -/

theorem contiguous_tail {v : Chunk} {l : List Chunk} (h : Contiguous (v :: l)) :
    Contiguous l := by
  cases l with
  | nil => trivial
  | cons b l' => exact h.2

theorem contiguous_snoc :
    ∀ (L : List Chunk) (c : Chunk), Contiguous L →
      (∀ v, L.getLast? = some v → c.stream_offset = v.stream_offset + v.len) →
      Contiguous (L ++ [c]) := by
  intro L
  induction L with
  | nil => intro c _ _; trivial
  | cons a l ih =>
    intro c hc hlast
    cases l with
    | nil =>
      exact ⟨hlast a rfl, trivial⟩
    | cons b l' =>
      refine ⟨hc.1, ?_⟩
      exact ih c hc.2 (fun v hv => hlast v (by rw [List.getLast?_cons_cons]; exact hv))

theorem contiguous_retained (p : Nat) :
    ∀ (L : List Chunk), Contiguous L → Contiguous (retainedChunks p L) := by
  intro L
  induction L with
  | nil => intro h; exact h
  | cons v l ih =>
    intro h
    rw [retainedChunks_cons]
    split
    · exact ih (contiguous_tail h)
    · exact h

theorem getLast_retained (p : Nat) :
    ∀ (L : List Chunk) (v : Chunk), (retainedChunks p L).getLast? = some v →
      L.getLast? = some v := by
  intro L
  induction L with
  | nil => intro v h; exact h
  | cons a l ih =>
    intro v h
    rw [retainedChunks_cons] at h
    split at h
    · have hl := ih v h
      cases l with
      | nil => simp at hl
      | cons b l' => rw [List.getLast?_cons_cons]; exact hl
    · exact h

theorem positive_retained (p : Nat) (L : List Chunk) (h : PositiveLens L) :
    PositiveLens (retainedChunks p L) :=
  fun v hv => h v ((List.dropWhile_sublist _).subset hv)

theorem contiguous_lower_bound :
    ∀ (l : List Chunk) (v : Chunk), Contiguous (v :: l) → PositiveLens (v :: l) →
      ∀ w ∈ l, v.stream_offset + v.len ≤ w.stream_offset := by
  intro l
  induction l with
  | nil => intro v _ _ w hw; simp at hw
  | cons b l' ih =>
    intro v hc hp w hw
    rcases List.mem_cons.1 hw with rfl | hw
    · exact le_of_eq hc.1.symm
    · have h1 := ih b hc.2 (fun x hx => hp x (List.mem_cons_of_mem _ hx)) w hw
      have h2 := hc.1
      omega

/-- Contiguous chunks of positive length have strictly increasing offsets. -/
theorem offsets_increasing :
    ∀ (L : List Chunk), Contiguous L → PositiveLens L →
      (L.map Chunk.stream_offset).Pairwise (fun a b => a < b) := by
  intro L
  induction L with
  | nil => intro _ _; simp
  | cons v l ih =>
    intro hc hp
    rw [List.map_cons, List.pairwise_cons]
    refine ⟨?_, ih (contiguous_tail hc) (fun x hx => hp x (List.mem_cons_of_mem _ hx))⟩
    intro o ho
    obtain ⟨w, hw, rfl⟩ := List.mem_map.1 ho
    have h1 := contiguous_lower_bound l v hc hp w hw
    have h2 := hp v (List.mem_cons_self _ _)
    omega

theorem appendedChunk_offset (s : Machine) (len m1 m2 : Nat) :
    (appendedChunk s len m1 m2).stream_offset =
      if s.htud.body.nchunks = 0 then 0 else s.htud.content_len_so_far := by
  unfold appendedChunk; split <;> rfl

theorem offsetsInv_step (K : Nat) :
    ∀ (ops : List Op) (s : Machine) (L : List Chunk) (t : Totals) (s' : Machine)
      (t' : Totals),
      WF s L → Contiguous L → PositiveLens L → TotalIsTailEnd s L →
      noWrap K s ops = true → runOps K s t ops = some (s', t') →
      ∃ L', WF s' L' ∧ Contiguous L' ∧ PositiveLens L' ∧ TotalIsTailEnd s' L' := by
  intro ops
  induction ops with
  | nil =>
    intro s L t s' t' hwf hc hp ht _ hrun
    cases hrun
    exact ⟨L, hwf, hc, hp, ht⟩
  | cons op ops ih =>
    intro s L t s' t' hwf hc hp ht hnw hrun
    have hnch : s.htud.body.nchunks = L.length := hwf.2.2.1
    cases op with
    | append c =>
      simp only [runOps] at hrun
      simp only [noWrap] at hnw
      cases hstep : HtpBodyAppendChunk s c.data c.len c.m1 c.m2 with
      | none => rw [hstep] at hrun; exact Option.noConfusion hrun
      | some res =>
        obtain ⟨s1, r⟩ := res
        rw [hstep] at hrun hnw
        simp only [Bool.and_eq_true, Bool.or_eq_true, decide_eq_true_eq, Bool.not_eq_true',
          ne_eq] at hnw
        obtain ⟨hguard, hnw'⟩ := hnw
        by_cases hr : r = 0
        · subst hr
          by_cases hne : c.nonEmpty = true
          · have hfit : s.htud.body.nchunks = 0 ∨
                (s.htud.body.nchunks + 1 < UINT32_MOD ∧
                  s.htud.content_len_so_far + c.len < UINT64_MOD) := by
              rcases hguard with ((h | h) | h) | h
              · exact absurd rfl h
              · rw [hne] at h; exact Bool.noConfusion h
              · exact Or.inl h
              · exact Or.inr h
            obtain ⟨⟨d, hd⟩, hl0⟩ := (nonEmpty_iff c).1 hne
            rw [hd] at hstep
            obtain ⟨hm1, hf1, hm2, hf2, hdl⟩ :=
              append_success_inv s s1 d c.len c.m1 c.m2 hl0 hstep
            obtain ⟨s2, hrun2, hwf2, _, _, htot2, _⟩ :=
              append_ok s L d c.len c.m1 c.m2 hwf hl0 hdl hm1 hf1 hm2 hf2
            have hs : s2 = s1 := by
              rw [hstep] at hrun2
              exact ((Prod.mk.inj (Option.some.inj hrun2)).1).symm
            subst hs
            have hlenfit : L.length + 1 < UINT32_MOD := by
              rcases hfit with h | h
              · rw [hnch] at h; rw [h]; simp [UINT32_MOD]
              · rw [hnch] at h; exact h.1
            refine ih s2 (L ++ [appendedChunk s c.len c.m1 c.m2]) _ s' t' (hwf2 hlenfit)
              ?_ ?_ ?_ hnw' hrun
            · refine contiguous_snoc L _ hc ?_
              intro v hv
              have hL : L ≠ [] := by intro h; rw [h] at hv; simp at hv
              have hn0 : s.htud.body.nchunks ≠ 0 := by
                rw [hnch]; exact fun h => hL (List.length_eq_zero.1 h)
              rw [appendedChunk_offset]
              simp only [hn0, if_false]
              exact ht v hv
            · intro v hv
              rcases List.mem_append.1 hv with hv | hv
              · exact hp v hv
              · rw [List.mem_singleton] at hv
                subst hv
                rw [appendedChunk_len]
                omega
            · intro v hv
              rw [List.getLast?_append] at hv
              have hv2 : appendedChunk s c.len c.m1 c.m2 = v := by
                simpa [Option.or] using hv
              subst hv2
              rw [htot2, appendedChunk_offset, appendedChunk_len]
              unfold appendedTotal
              rcases hfit with h | h
              · simp [h]
              · by_cases hn0 : s.htud.body.nchunks = 0
                · simp [hn0]
                · simp only [hn0, if_false]
                  exact Nat.mod_eq_of_lt h.2
          · have hne' : c.nonEmpty = false := by simpa using hne
            rw [append_empty_input s c.data c.len c.m1 c.m2 ((nonEmpty_false_iff c).1 hne')]
              at hstep
            have hs := (Prod.mk.inj (Option.some.inj hstep)).1
            subst hs
            exact ih s L _ s' t' hwf hc hp ht hnw' hrun
        · have hwf1 := append_failure_wf s s1 c.data c.len c.m1 c.m2 r L hr hstep hwf
          have hh := append_failure_htud s s1 c.data c.len c.m1 c.m2 r hr hstep
          refine ih s1 L _ s' t' hwf1 hc hp ?_ hnw' hrun
          intro v hv
          rw [hh]
          exact ht v hv
    | prune p =>
      simp only [runOps] at hrun
      simp only [noWrap] at hnw
      have hwfp : WF (s.setParsed p) L := hwf
      obtain ⟨s1, hstep, hwf1, hcl, _⟩ := prune_ok (s.setParsed p) L hwfp
      rw [hstep] at hrun hnw
      refine ih s1 _ t s' t' hwf1 (contiguous_retained _ L hc) (positive_retained _ L hp) ?_
        hnw hrun
      intro v hv
      rw [hcl]
      exact ht v (getLast_retained _ L v hv)
    | free =>
      simp only [runOps] at hrun
      simp only [noWrap] at hnw
      obtain ⟨s1, hstep, h1, h2, h3, _⟩ := free_ok K s L hwf
      rw [hstep] at hrun hnw
      have hwf1 : WF s1 [] := (wf_nil_iff s1).2 ⟨h2, h3, h1⟩
      exact ih s1 [] t s' t' hwf1 trivial (fun v hv => by simp at hv)
        (fun v hv => by simp at hv) hnw hrun

/-- C16 (I1, I4). In every buffer reached from an empty well-formed buffer by a
sequence of append, prune and free operations without integer overflow, the
chunks are contiguous (each `stream_offset` is the `stream_offset + len` of the
chunk before it), their offsets are strictly increasing in list order, and if
the buffer is not empty `content_len_so_far` equals `stream_offset + len` of
the tail chunk. -/
theorem offsets_contiguous (K : Nat) (s0 s : Machine) (t0 t : Totals) (ops : List Op)
    (h0 : WF s0 []) (hnw : noWrap K s0 ops = true)
    (hrun : runOps K s0 t0 ops = some (s, t)) :
    ∃ L, WF s L ∧ Contiguous L ∧
      (L.map Chunk.stream_offset).Pairwise (fun a b => a < b) ∧
      (∀ v, L.getLast? = some v →
        s.htud.content_len_so_far = v.stream_offset + v.len) := by
  obtain ⟨L, hwf, hc, hp, ht⟩ :=
    offsetsInv_step K ops s0 [] t0 s t h0 trivial (fun v hv => by simp at hv)
      (fun v hv => by simp at hv) hnw hrun
  exact ⟨L, hwf, hc, offsets_increasing L hc hp, ht⟩

/-- C16 at `mixedOps`: appends interleaved with a prune that removes a chunk
and a free. -/
theorem offsets_contiguous_witness :
    ∃ L, WF mixedMachine L ∧ Contiguous L ∧
      (L.map Chunk.stream_offset).Pairwise (fun a b => a < b) ∧
      (∀ v, L.getLast? = some v →
        mixedMachine.htud.content_len_so_far = v.stream_offset + v.len) :=
  offsets_contiguous 0 emptyMachine mixedMachine { ever := 0, sinceEmpty := 0 }
    { ever := 9, sinceEmpty := 3 } mixedOps (by decide) (by decide) (by decide)

/-! ## C17: no zero-length chunk -/

theorem appendError_positive (s : Machine) (bd : Nat) (r : Machine × Int)
    (h : appendError s bd = some r) (hpos : RecordsPositive s.chunks) :
    RecordsPositive r.1.chunks := by
  rw [(appendError_htud s bd r h).2]
  exact hpos

theorem recordsPositive_set {h : List (Nat × HtpBodyChunk)} (hpos : RecordsPositive h)
    (p : Nat) (c : HtpBodyChunk) (hc : 0 < c.len) : RecordsPositive (heapSet h p c) := by
  intro a x hx
  rw [heapGet_heapSet] at hx
  split at hx
  · cases hx; exact hc
  · exact hpos a x hx

theorem recordsPositive_del {h : List (Nat × HtpBodyChunk)} (hpos : RecordsPositive h)
    (p : Nat) : RecordsPositive (heapDel h p) := by
  intro a x hx
  rw [heapGet_heapDel] at hx
  split at hx
  · exact Option.noConfusion hx
  · exact hpos a x hx

/-- Whatever a call of `HtpBodyAppendChunk` returns, it leaves no record of
length 0 in the heap if there was none before. -/
theorem append_positive (s s' : Machine) (data : Option (List Nat)) (len m1 m2 : Nat)
    (r : Int) (h : HtpBodyAppendChunk s data len m1 m2 = some (s', r))
    (hpos : RecordsPositive s.chunks) : RecordsPositive s'.chunks := by
  unfold HtpBodyAppendChunk at h
  split at h
  · cases h; exact hpos
  · split at h
    · cases h; exact hpos
    · rename_i hlen
      have hl : 0 < len := Nat.pos_of_ne_zero hlen
      split at h
      · split at h
        · exact Option.noConfusion h
        · split at h
          · exact appendError_positive _ _ _ h hpos
          · split at h
            · exact Option.noConfusion h
            · split at h
              · exact appendError_positive _ _ _ h (recordsPositive_set hpos _ _ hl)
              · split at h
                · exact Option.noConfusion h
                · cases h
                  exact recordsPositive_set hpos _ _ hl
      · split at h
        · exact Option.noConfusion h
        · split at h
          · exact appendError_positive _ _ _ h hpos
          · split at h
            · exact Option.noConfusion h
            · split at h
              · exact appendError_positive _ _ _ h (recordsPositive_set hpos _ _ hl)
              · split at h
                · exact Option.noConfusion h
                · dsimp only at h
                  split at h
                  · exact Option.noConfusion h
                  · rename_i l hl2
                    cases h
                    have hp1 := recordsPositive_set hpos m1
                      { data := m2, len := len, id := (s.htud.body.nchunks + 1) % UINT32_MOD,
                        next := 0, stream_offset := s.htud.content_len_so_far } hl
                    have hl3 : 0 < l.len := hp1 _ l hl2
                    exact recordsPositive_set hp1 _ _ hl3

theorem SCFree_positive {h h' : List (Nat × HtpBodyChunk)} {p : Nat}
    (hf : SCFree h p = some h') (hpos : RecordsPositive h) : RecordsPositive h' := by
  unfold SCFree at hf
  split at hf
  · cases hf; exact hpos
  · split at hf
    · cases hf; exact recordsPositive_del hpos p
    · exact Option.noConfusion hf

theorem pruneLoop_positive :
    ∀ (fuel : Nat) (s : Machine) (cur : Nat) (s' : Machine),
      pruneLoop fuel s cur = some s' → RecordsPositive s.chunks →
        RecordsPositive s'.chunks := by
  intro fuel
  induction fuel with
  | zero => intro s cur s' h; simp [pruneLoop] at h
  | succ k ih =>
    intro s cur s' h hpos
    simp only [pruneLoop] at h
    split at h
    · cases h; exact hpos
    · split at h
      · exact Option.noConfusion h
      · split at h
        · cases h; exact hpos
        · split at h
          · exact Option.noConfusion h
          · split at h
            · exact Option.noConfusion h
            · rename_i ch1 hch
              exact ih _ _ _ h (SCFree_positive hch hpos)

theorem freeLoop_positive :
    ∀ (fuel : Nat) (ch : List (Nat × HtpBodyChunk)) (bf : List (Nat × List Nat)) (prev : Nat)
      (ch' : List (Nat × HtpBodyChunk)) (bf' : List (Nat × List Nat)),
      freeLoop fuel ch bf prev = some (ch', bf') → RecordsPositive ch →
        RecordsPositive ch' := by
  intro fuel
  induction fuel with
  | zero => intro ch bf prev ch' bf' h; simp [freeLoop] at h
  | succ k ih =>
    intro ch bf prev ch' bf' h hpos
    simp only [freeLoop] at h
    split at h
    · cases h; exact hpos
    · split at h
      · exact Option.noConfusion h
      · split at h
        · exact Option.noConfusion h
        · split at h
          · exact Option.noConfusion h
          · rename_i ch1 hch
            exact ih _ _ _ _ _ h (SCFree_positive hch hpos)

theorem prune_positive (s s' : Machine) (h : HtpBodyPrune s = some s')
    (hpos : RecordsPositive s.chunks) : RecordsPositive s'.chunks := by
  unfold HtpBodyPrune at h
  split at h
  · cases h; exact hpos
  · split at h
    · cases h; exact hpos
    · exact pruneLoop_positive _ _ _ _ h hpos

theorem free_positive (K : Nat) (s s' : Machine) (h : HtpBodyFree K s = some s')
    (hpos : RecordsPositive s.chunks) : RecordsPositive s'.chunks := by
  unfold HtpBodyFree at h
  split at h
  · cases h; exact hpos
  · split at h
    · exact Option.noConfusion h
    · rename_i ch bf hloop
      cases h
      exact freeLoop_positive _ _ _ _ _ _ hloop hpos

theorem runOps_positive (K : Nat) :
    ∀ (ops : List Op) (s : Machine) (t : Totals) (s' : Machine) (t' : Totals),
      RecordsPositive s.chunks → runOps K s t ops = some (s', t') →
        RecordsPositive s'.chunks := by
  intro ops
  induction ops with
  | nil => intro s t s' t' hpos hrun; cases hrun; exact hpos
  | cons op ops ih =>
    intro s t s' t' hpos hrun
    cases op with
    | append c =>
      simp only [runOps] at hrun
      cases hstep : HtpBodyAppendChunk s c.data c.len c.m1 c.m2 with
      | none => rw [hstep] at hrun; exact Option.noConfusion hrun
      | some res =>
        obtain ⟨s1, r⟩ := res
        rw [hstep] at hrun
        exact ih _ _ _ _ (append_positive s s1 c.data c.len c.m1 c.m2 r hstep hpos) hrun
    | prune p =>
      simp only [runOps] at hrun
      cases hstep : HtpBodyPrune (s.setParsed p) with
      | none => rw [hstep] at hrun; exact Option.noConfusion hrun
      | some s1 =>
        rw [hstep] at hrun
        exact ih _ _ _ _ (prune_positive _ s1 hstep hpos) hrun
    | free =>
      simp only [runOps] at hrun
      cases hstep : HtpBodyFree K s with
      | none => rw [hstep] at hrun; exact Option.noConfusion hrun
      | some s1 =>
        rw [hstep] at hrun
        exact ih _ _ _ _ (free_positive K s s1 hstep hpos) hrun

/-- C17 (I3). Start from a state without chunk records (the empty state) and
run any sequence of append, prune and free operations, appends with `NULL` data
or `len == 0` included. In the state reached every live chunk record has
`len > 0`, so every chunk of the list reachable from `first` has `len > 0`. -/
theorem no_zero_length_chunk (K : Nat) (s0 s : Machine) (t0 t : Totals) (ops : List Op)
    (h0 : s0.chunks = []) (hrun : runOps K s0 t0 ops = some (s, t)) :
    (∀ a c, heapGet s.chunks a = some c → 0 < c.len) ∧
      ∀ L, IsChain s.chunks s.htud.body.first L → ∀ v ∈ L, 0 < v.len := by
  have hpos0 : RecordsPositive s0.chunks := by
    intro a c hc
    rw [h0] at hc
    exact Option.noConfusion hc
  have hpos := runOps_positive K ops s0 t0 s t hpos0 hrun
  refine ⟨hpos, ?_⟩
  intro L hL v hv
  obtain ⟨_, c, hg, hcv⟩ := isChain_live hL v hv
  have := hpos _ _ hg
  rw [← hcv]
  exact this

/-- C17 at `mixedOps`, which contain an append of an empty slice. -/
theorem no_zero_length_chunk_witness :
    (∀ a c, heapGet mixedMachine.chunks a = some c → 0 < c.len) ∧
      ∀ L, IsChain mixedMachine.chunks mixedMachine.htud.body.first L → ∀ v ∈ L, 0 < v.len :=
  no_zero_length_chunk 0 emptyMachine mixedMachine { ever := 0, sinceEmpty := 0 }
    { ever := 9, sinceEmpty := 3 } mixedOps rfl (by decide)

/-! ## C18: prune releases exactly the chunks below the watermark -/

theorem endOffset_of_fit {v : Chunk} (h : v.stream_offset + v.len < UINT64_MOD) :
    v.endOffset = v.stream_offset + v.len :=
  Nat.mod_eq_of_lt h

theorem ends_increasing :
    ∀ (L : List Chunk), Contiguous L → PositiveLens L →
      (∀ v ∈ L, v.stream_offset + v.len < UINT64_MOD) →
      L.Pairwise (fun a b => a.endOffset < b.endOffset) := by
  intro L
  induction L with
  | nil => intro _ _ _; simp
  | cons v l ih =>
    intro hc hp hfit
    rw [List.pairwise_cons]
    refine ⟨?_, ih (contiguous_tail hc) (fun x hx => hp x (List.mem_cons_of_mem _ hx))
      (fun x hx => hfit x (List.mem_cons_of_mem _ hx))⟩
    intro w hw
    have h1 := contiguous_lower_bound l v hc hp w hw
    have h2 := hp w (List.mem_cons_of_mem _ hw)
    rw [endOffset_of_fit (hfit v (List.mem_cons_self _ _)),
      endOffset_of_fit (hfit w (List.mem_cons_of_mem _ hw))]
    omega

theorem retained_eq_filter (p : Nat) :
    ∀ (L : List Chunk), L.Pairwise (fun a b => a.endOffset < b.endOffset) →
      retainedChunks p L = L.filter (fun v => decide (p ≤ v.endOffset)) := by
  intro L
  induction L with
  | nil => intro _; rfl
  | cons v l ih =>
    intro hpw
    rw [List.pairwise_cons] at hpw
    rw [retainedChunks_cons]
    by_cases hlt : v.endOffset < p
    · have hnle : ¬ p ≤ v.endOffset := by omega
      simp only [hlt, if_true, List.filter_cons, hnle, decide_False]
      exact ih hpw.2
    · have hle : p ≤ v.endOffset := by omega
      simp only [hlt, if_false, List.filter_cons, hle, decide_True, if_true]
      congr 1
      symm
      rw [List.filter_eq_self]
      intro w hw
      have := hpw.1 w hw
      simp only [decide_eq_true_eq]
      omega

theorem pruned_eq_filter (p : Nat) :
    ∀ (L : List Chunk), L.Pairwise (fun a b => a.endOffset < b.endOffset) →
      prunedChunks p L = L.filter (fun v => decide (v.endOffset < p)) := by
  intro L
  induction L with
  | nil => intro _; rfl
  | cons v l ih =>
    intro hpw
    rw [List.pairwise_cons] at hpw
    rw [prunedChunks_cons]
    by_cases hlt : v.endOffset < p
    · simp only [hlt, if_true, List.filter_cons, decide_True]
      rw [ih hpw.2]
    · simp only [hlt, if_false, List.filter_cons, decide_False, Bool.false_eq_true]
      symm
      rw [List.filter_eq_nil_iff]
      intro w hw
      have := hpw.1 w hw
      simp only [decide_eq_true_eq]
      omega

/-- C18. On a well-formed buffer whose chunks are contiguous (I1), of positive
length (I3) and end within the `uint64_t` range, `HtpBodyPrune` with
`body_parsed = p` returns a well-formed buffer whose chunks are exactly the
chunks of the original list with end offset `stream_offset + len >= p`, in
their order and with record and bytes untouched, while the record and the data
of every chunk with end offset `< p` are released. -/
theorem prune_releases_exactly_below (s : Machine) (L : List Chunk) (hwf : WF s L)
    (hc : Contiguous L) (hp : PositiveLens L)
    (hfit : ∀ v ∈ L, v.stream_offset + v.len < UINT64_MOD) :
    ∃ s', HtpBodyPrune s = some s' ∧
      WF s' (L.filter (fun v => decide (s.htud.body_parsed ≤ v.stream_offset + v.len))) ∧
      (∀ v ∈ L, s.htud.body_parsed ≤ v.stream_offset + v.len →
        heapGet s'.chunks v.addr = heapGet s.chunks v.addr ∧ s'.bytesOf v = s.bytesOf v) ∧
      (∀ v ∈ L, v.stream_offset + v.len < s.htud.body_parsed →
        heapGet s'.chunks v.addr = none ∧ (v.data ≠ 0 → heapGet s'.bufs v.data = none)) := by
  have hpw := ends_increasing L hc hp hfit
  obtain ⟨s', hrun, hwf', _, _, _, hfr, hrel, hdfr, hdrel, _⟩ := prune_ok s L hwf
  have hret := retained_eq_filter s.htud.body_parsed L hpw
  have hpru := pruned_eq_filter s.htud.body_parsed L hpw
  have hfilt : L.filter (fun v => decide (s.htud.body_parsed ≤ v.endOffset)) =
      L.filter (fun v => decide (s.htud.body_parsed ≤ v.stream_offset + v.len)) := by
    apply List.filter_congr
    intro v hv
    rw [endOffset_of_fit (hfit v hv)]
  have hsplit := pruned_append_retained s.htud.body_parsed L
  have hnd : (L.map Chunk.addr).Nodup := isChain_nodup hwf.1
  refine ⟨s', hrun, ?_, ?_, ?_⟩
  · rw [← hfilt, ← hret]; exact hwf'
  · intro v hv hge
    have hvr : v ∈ retainedChunks s.htud.body_parsed L := by
      rw [hret, List.mem_filter]
      exact ⟨hv, by simpa [endOffset_of_fit (hfit v hv)] using hge⟩
    constructor
    · apply hfr
      intro hmem
      rw [← hsplit, List.map_append] at hnd
      exact (List.disjoint_of_nodup_append hnd) hmem (List.mem_map_of_mem _ hvr)
    · have hdn : (dataAddrs (prunedChunks s.htud.body_parsed L ++
          retainedChunks s.htud.body_parsed L)).Nodup := by
        rw [hsplit]; exact hwf.2.2.2.2
      exact hdfr _ (dataAddrs_disjoint_of_append hdn v hvr)
  · intro v hv hlt
    have hvp : v ∈ prunedChunks s.htud.body_parsed L := by
      rw [hpru, List.mem_filter]
      exact ⟨hv, by simpa [endOffset_of_fit (hfit v hv)] using hlt⟩
    exact ⟨hrel _ (List.mem_map_of_mem _ hvp),
      fun hd => hdrel _ (mem_dataAddrs.2 ⟨hd, v, hvp, rfl⟩)⟩

/-- C18 at the three chunks `[0,10)`, `[10,25)`, `[25,40)` with watermark 25:
the first chunk is released, the second, which ends at 25, and the third
stay. -/
theorem prune_releases_exactly_below_witness :
    ∃ s', HtpBodyPrune (threeChunkMachine.setParsed 25) = some s' ∧
      WF s' (threeChunkList.filter (fun v => decide (25 ≤ v.stream_offset + v.len))) ∧
      (∀ v ∈ threeChunkList, 25 ≤ v.stream_offset + v.len →
        heapGet s'.chunks v.addr = heapGet (threeChunkMachine.setParsed 25).chunks v.addr ∧
          s'.bytesOf v = (threeChunkMachine.setParsed 25).bytesOf v) ∧
      (∀ v ∈ threeChunkList, v.stream_offset + v.len < 25 →
        heapGet s'.chunks v.addr = none ∧ (v.data ≠ 0 → heapGet s'.bufs v.data = none)) :=
  prune_releases_exactly_below (threeChunkMachine.setParsed 25) threeChunkList (by decide)
    (by decide) (by decide) (by decide)

/-! ## C19: two prunes in a row -/

theorem releaseRun_append (A B : List Chunk) :
    ∀ s : Machine, releaseRun s (A ++ B) = releaseRun (releaseRun s A) B := by
  induction A with
  | nil => intro s; rfl
  | cons v l ih =>
    intro s
    simp only [List.cons_append, releaseRun]
    cases heapGet s.chunks v.addr with
    | none => exact ih s
    | some c => exact ih _

theorem releaseRun_setParsed (p : Nat) (A : List Chunk) :
    ∀ s : Machine, releaseRun (s.setParsed p) A = (releaseRun s A).setParsed p := by
  induction A with
  | nil => intro s; rfl
  | cons v l ih =>
    intro s
    simp only [releaseRun]
    have hch : (s.setParsed p).chunks = s.chunks := rfl
    rw [hch]
    cases heapGet s.chunks v.addr with
    | none => exact ih s
    | some c => exact ih (pruneStep s v.addr c)

theorem pruneLoop_eq_run :
    ∀ (L : List Chunk) (fuel : Nat) (s : Machine), WF s L → L.length < fuel →
      pruneLoop fuel s s.htud.body.first =
        some (releaseRun s (prunedChunks s.htud.body_parsed L)) := by
  intro L
  induction L with
  | nil =>
    intro fuel s hwf hf
    obtain ⟨k, rfl⟩ : ∃ k, fuel = k + 1 := ⟨fuel - 1, by simp at hf; omega⟩
    have h0 : s.htud.body.first = 0 := hwf.1
    rw [h0]
    exact pruneLoop_null k s
  | cons v l ih =>
    intro fuel s hwf hf
    obtain ⟨k, rfl⟩ : ∃ k, fuel = k + 1 := ⟨fuel - 1, by simp at hf; omega⟩
    obtain ⟨hfirst, h0, hn, c, hg, hcv, hr⟩ := wf_cons_head hwf
    have hend := view_endOffset hcv
    have hvd := view_data hcv
    rw [prunedChunks_cons, hfirst]
    by_cases hlt : v.endOffset < s.htud.body_parsed
    · have hdata : c.data ≠ 0 → (heapGet s.bufs c.data).isSome = true := by
        intro hd
        rw [hvd] at hd ⊢
        exact hwf.2.2.2.1 v (List.mem_cons_self _ _) hd
      rw [pruneLoop_remove k s v.addr c h0 hg (by rw [hend]; exact hlt) hdata]
      have hwf1 := wf_pruneStep hwf hg
      have := ih k _ hwf1 (by simp at hf; omega)
      simp only [hlt, if_true, releaseRun, hg]
      exact this
    · rw [pruneLoop_stop k s v.addr c hg (by rw [hend]; omega)]
      simp only [hlt, if_false, releaseRun]

/-- `HtpBodyPrune` on a well-formed buffer returns the state in which the
removed chunks have been released one after the other. -/
theorem prune_eq_run (s : Machine) (L : List Chunk) (hwf : WF s L) :
    HtpBodyPrune s = some (releaseRun s (prunedChunks s.htud.body_parsed L)) := by
  by_cases hn : s.htud.body.nchunks = 0
  · have hL : L = [] := (wf_nchunks_eq_zero_iff hwf).1 hn
    subst hL
    simp [HtpBodyPrune, hn, prunedChunks, releaseRun]
  · by_cases hp : s.htud.body_parsed = 0
    · simp [HtpBodyPrune, hn, hp, prunedChunks_zero, releaseRun]
    · have hfuel : L.length < s.chunks.length + 1 := by
        have := isChain_length_le hwf.1
        omega
      simp only [HtpBodyPrune, hn, hp, if_false]
      exact pruneLoop_eq_run L _ s hwf hfuel

theorem pruned_max (p1 p2 : Nat) :
    ∀ (L : List Chunk),
      prunedChunks (max p1 p2) L = prunedChunks p1 L ++ prunedChunks p2 (retainedChunks p1 L) := by
  intro L
  induction L with
  | nil => rfl
  | cons v l ih =>
    by_cases h1 : v.endOffset < p1
    · have hm : v.endOffset < max p1 p2 := lt_of_lt_of_le h1 (le_max_left _ _)
      rw [prunedChunks_cons, prunedChunks_cons, retainedChunks_cons]
      simp only [h1, hm, if_true, List.cons_append, ih]
    · rw [prunedChunks_cons p1, retainedChunks_cons p1]
      simp only [h1, if_false, List.nil_append]
      by_cases h2 : v.endOffset < p2
      · have hmax : max p1 p2 = p2 := max_eq_right (by omega)
        rw [hmax]
      · have hm : ¬ v.endOffset < max p1 p2 := by
          rw [not_lt, max_le_iff]
          constructor <;> omega
        rw [prunedChunks_cons, prunedChunks_cons]
        simp only [hm, h2, if_false]

theorem retained_retained (p1 p2 : Nat) :
    ∀ (L : List Chunk),
      retainedChunks p2 (retainedChunks p1 L) = retainedChunks (max p1 p2) L := by
  intro L
  induction L with
  | nil => rfl
  | cons v l ih =>
    by_cases h1 : v.endOffset < p1
    · have hm : v.endOffset < max p1 p2 := lt_of_lt_of_le h1 (le_max_left _ _)
      rw [retainedChunks_cons p1, retainedChunks_cons (max p1 p2)]
      simp only [h1, hm, if_true, ih]
    · rw [retainedChunks_cons p1]
      simp only [h1, if_false]
      by_cases h2 : v.endOffset < p2
      · have hmax : max p1 p2 = p2 := max_eq_right (by omega)
        rw [hmax]
      · have hm : ¬ v.endOffset < max p1 p2 := by
          rw [not_lt, max_le_iff]
          constructor <;> omega
        rw [retainedChunks_cons, retainedChunks_cons]
        simp only [hm, h2, if_false]

theorem pruned_retained_le (p1 p2 : Nat) (h : p2 ≤ p1) (L : List Chunk) :
    prunedChunks p2 (retainedChunks p1 L) = [] := by
  cases hr : retainedChunks p1 L with
  | nil => rfl
  | cons v l =>
    have hge := retained_head_ge p1 L v (by rw [hr]; rfl)
    rw [prunedChunks_cons]
    have : ¬ v.endOffset < p2 := by omega
    simp only [this, if_false]

/-- C19. On a well-formed buffer, `HtpBodyPrune` with watermark `p1` followed
by `HtpBodyPrune` with watermark `p2` returns, and apart from the field
`body_parsed` itself, which holds the watermark set last, the state reached is
the state that one `HtpBodyPrune` with watermark `max p1 p2` returns: the same
`first`, `last`, `nchunks`, `content_len_so_far`, chunk records and data
blocks. If `p2 <= p1` the second call removes nothing, and with `p2 = p1` it
returns the state it was given. -/
theorem prune_composes_as_max (s : Machine) (L : List Chunk) (p1 p2 : Nat) (hwf : WF s L) :
    ∃ s1 s2 s3, HtpBodyPrune (s.setParsed p1) = some s1 ∧
      HtpBodyPrune (s1.setParsed p2) = some s2 ∧
      HtpBodyPrune (s.setParsed (max p1 p2)) = some s3 ∧
      s2 = s3.setParsed p2 ∧
      WF s2 (retainedChunks (max p1 p2) L) ∧
      (p2 ≤ p1 → s2 = s1.setParsed p2) ∧
      (p2 = p1 → s2 = s1) := by
  have hwf1 : WF (s.setParsed p1) L := hwf
  have hwf3 : WF (s.setParsed (max p1 p2)) L := hwf
  have hrun1 := prune_eq_run (s.setParsed p1) L hwf1
  have hrun3 := prune_eq_run (s.setParsed (max p1 p2)) L hwf3
  obtain ⟨s1, hs1, hwfs1, _⟩ := prune_ok (s.setParsed p1) L hwf1
  have hwf2 : WF (s1.setParsed p2) (retainedChunks p1 L) := hwfs1
  have hrun2 := prune_eq_run (s1.setParsed p2) _ hwf2
  obtain ⟨s2, hs2, hwfs2, _⟩ := prune_ok (s1.setParsed p2) _ hwf2
  have he1 : s1 = (releaseRun s (prunedChunks p1 L)).setParsed p1 := by
    rw [hs1] at hrun1
    rw [Option.some.inj hrun1]
    exact releaseRun_setParsed p1 _ s
  have he2 : s2 = (releaseRun s1 (prunedChunks p2 (retainedChunks p1 L))).setParsed p2 := by
    rw [hs2] at hrun2
    rw [Option.some.inj hrun2]
    exact releaseRun_setParsed p2 _ s1
  have hwf2' : WF s2 (retainedChunks (max p1 p2) L) := by
    rw [← retained_retained]
    exact hwfs2
  refine ⟨s1, s2, _, hs1, hs2, hrun3, ?_, hwf2', ?_, ?_⟩
  · show s2 = (releaseRun (s.setParsed (max p1 p2)) (prunedChunks (max p1 p2) L)).setParsed p2
    rw [he2, he1, releaseRun_setParsed, releaseRun_setParsed, pruned_max, releaseRun_append]
    rfl
  · intro hle
    rw [he2, pruned_retained_le p1 p2 hle L]
    rfl
  · intro heq
    rw [he2, pruned_retained_le p1 p2 (le_of_eq heq) L, heq]
    show s1.setParsed p1 = s1
    rw [he1]
    rfl

/-- C19 at the three chunks `[0,10)`, `[10,25)`, `[25,40)`: watermarks 11 then
30, 30 then 11, and 11 twice. -/
theorem prune_composes_as_max_witness :
    (∃ s1 s2 s3, HtpBodyPrune (threeChunkMachine.setParsed 11) = some s1 ∧
      HtpBodyPrune (s1.setParsed 30) = some s2 ∧
      HtpBodyPrune (threeChunkMachine.setParsed 30) = some s3 ∧
      s2 = s3.setParsed 30 ∧ WF s2 (threeChunkList.drop 2)) ∧
    (∃ s1 s2 s3, HtpBodyPrune (threeChunkMachine.setParsed 30) = some s1 ∧
      HtpBodyPrune (s1.setParsed 11) = some s2 ∧
      HtpBodyPrune (threeChunkMachine.setParsed 30) = some s3 ∧
      s2 = s3.setParsed 11 ∧ s2 = s1.setParsed 11) ∧
    (∃ s1 s2, HtpBodyPrune (threeChunkMachine.setParsed 11) = some s1 ∧
      HtpBodyPrune (s1.setParsed 11) = some s2 ∧ s2 = s1) := by
  refine ⟨?_, ?_, ?_⟩
  · obtain ⟨s1, s2, s3, h1, h2, h3, h4, h5, _, _⟩ :=
      prune_composes_as_max threeChunkMachine threeChunkList 11 30 (by decide)
    exact ⟨s1, s2, s3, h1, h2, h3, h4, h5⟩
  · obtain ⟨s1, s2, s3, h1, h2, h3, h4, _, h6, _⟩ :=
      prune_composes_as_max threeChunkMachine threeChunkList 30 11 (by decide)
    exact ⟨s1, s2, s3, h1, h2, h3, h4, h6 (by decide)⟩
  · obtain ⟨s1, s2, _, h1, h2, _, _, _, _, h7⟩ :=
      prune_composes_as_max threeChunkMachine threeChunkList 11 11 (by decide)
    exact ⟨s1, s2, h1, h2, h7 rfl⟩

/-! ## C20: offset restart on an empty buffer -/

/-- C20. (1) Whenever `HtpBodyAppendChunk` succeeds with non-empty input on a
state with `nchunks == 0`, whatever `content_len_so_far` was, the record at the
allocated address has `stream_offset` 0, `id` 0 and `len` the given length,
`first` and `last` point to it, `nchunks` is 1 and `content_len_so_far` is
`len`. (2) `HtpBodyPrune` and (3) `HtpBodyFree` return `content_len_so_far` as
they found it. -/
theorem offset_restart_on_empty :
    (∀ (s s' : Machine) (d : List Nat) (len m1 m2 : Nat),
      s.htud.body.nchunks = 0 → len ≠ 0 →
      HtpBodyAppendChunk s (some d) len m1 m2 = some (s', 0) →
      heapGet s'.chunks m1 =
        some { data := m2, len := len, id := 0, next := 0, stream_offset := 0 } ∧
      s'.htud.body.first = m1 ∧ s'.htud.body.last = m1 ∧ s'.htud.body.nchunks = 1 ∧
      s'.htud.content_len_so_far = len) ∧
    (∀ (s s' : Machine), HtpBodyPrune s = some s' →
      s'.htud.content_len_so_far = s.htud.content_len_so_far) ∧
    (∀ (K : Nat) (s s' : Machine), HtpBodyFree K s = some s' →
      s'.htud.content_len_so_far = s.htud.content_len_so_far) := by
  refine ⟨?_, fun s s' h => (prune_htud s s' h).1, fun K s s' h => (free_htud K s s' h).1⟩
  intro s s' d len m1 m2 hn hlen hrun
  obtain ⟨hm1, hf1, hm2, hf2, hd⟩ := append_success_inv s s' d len m1 m2 hlen hrun
  rw [append_eval_empty s d len m1 m2 hn hlen hd hm1 hf1 hm2 hf2] at hrun
  have hs := (Prod.mk.inj (Option.some.inj hrun)).1
  subst hs
  refine ⟨?_, rfl, rfl, ?_, rfl⟩
  · simp [heapGet_heapSet]
  · simp [hn, UINT32_MOD]

/-- C20 at two examples: `exampleAppended` is freed, which keeps
`content_len_so_far` at 9, and the next append of 3 bytes starts at offset 0
with total 3; `drainedMachine`, emptied by a prune with `content_len_so_far`
5, gets the same. -/
theorem offset_restart_on_empty_witness :
    HtpBodyFree 0 exampleAppended = some exampleFreed ∧
    exampleFreed.htud.content_len_so_far = exampleAppended.htud.content_len_so_far ∧
    (∃ s', HtpBodyAppendChunk exampleFreed (some [6, 7, 8]) 3 1 1 = some (s', 0) ∧
      heapGet s'.chunks 1 =
        some { data := 1, len := 3, id := 0, next := 0, stream_offset := 0 } ∧
      s'.htud.content_len_so_far = 3) ∧
    (heapGet restartedMachine.chunks 1 =
        some { data := 1, len := 3, id := 0, next := 0, stream_offset := 0 } ∧
      restartedMachine.htud.content_len_so_far = 3) := by
  have hfree : HtpBodyFree 0 exampleAppended = some exampleFreed := by decide
  have happ : HtpBodyAppendChunk exampleFreed (some [6, 7, 8]) 3 1 1 =
      some ({ restartedMachine with
              htud := { restartedMachine.htud with body_parsed := 0 } }, 0) := by decide
  have h1 := offset_restart_on_empty.1 exampleFreed _ [6, 7, 8] 3 1 1 rfl (by decide) happ
  have h2 := offset_restart_on_empty.1 drainedMachine restartedMachine [6, 7, 8] 3 1 1 rfl
    (by decide) (by decide)
  exact ⟨hfree, offset_restart_on_empty.2.2 0 exampleAppended exampleFreed hfree,
    ⟨_, happ, h1.1, h1.2.2.2.2⟩, h2.1, h2.2.2.2.2⟩

end Suricata
